import Mathlib

/-!
# didicarpool: order normalisation, timestamp derivation and the report driver

A shallow embedding of `didicarpool.go` (package `didicarpool`) and of
`cmd/didicarpool/main.go` (package `main`), together with the part of Go's
standard library the two files lean on: `time.Date`, `time.ParseInLocation`,
`Time.Before/After/Year/Month/Day/Hour/Minute/Format`,
`Regexp.FindString/FindStringSubmatch` for the three fixed patterns, and
`Time.MarshalJSON/UnmarshalJSON` with the encoder and decoder of
`encoding/json` on the types of the JSON output.

Conventions.
* Go `string`s that are only copied are Lean `String`s; the text that is
  scanned or parsed is handled as `List Char`.  The strings come out of
  `encoding/json`, hence are valid UTF-8, and every byte test made by the
  `time` package is a test for an ASCII byte or for a whole literal of the
  layout, so byte-wise and rune-wise processing agree.
* Go `int`/`int64`/`uint64` values are `Int`; every quantity stays far inside
  the 64-bit range for the years `0 .. 10000`, the only ones that can reach
  `Date` here (a parsed year has four digits, and `getTimes` adds at most one).
* A Go call returning `(Time, error)` is an `Option Time`; the callers in this
  repository drop the error and keep the zero `Time`, which is what
  `ParseInLocation` below does.
-/

set_option linter.dupNamespace false

namespace Didicarpool

namespace time

/-! ## Go `time`: instants, locations, calendar arithmetic -/

/-- A `*time.Location` with one fixed zone: its name and its offset in seconds
east of UTC. -/
structure Location where
  name : String
  offset : Int
  deriving DecidableEq, Repr

/-- The location `time.UTC`, which is also the location of the zero `Time`. -/
def UTC : Location := ⟨"UTC", 0⟩

/-- A `time.Time`: seconds elapsed since January 1, year 1 00:00:00 UTC,
nanoseconds within the second, and the location used for presentation. -/
structure Time where
  sec : Int
  nsec : Int
  loc : Location
  deriving DecidableEq, Repr

/-- The zero value `time.Time{}`: January 1, year 1, 00:00:00 UTC. -/
def Time.zero : Time := ⟨0, 0, UTC⟩

def secondsPerMinute : Int := 60
def secondsPerHour : Int := 60 * secondsPerMinute
def secondsPerDay : Int := 24 * secondsPerHour
def daysPer400Years : Int := 365 * 400 + 97
def daysPer100Years : Int := 365 * 100 + 24
def daysPer4Years : Int := 365 * 4 + 1

/-- The zero year of the unsigned "absolute" time scale of package `time`. -/
def absoluteZeroYear : Int := -292277022399

/-- Seconds from the absolute epoch to January 1, year 1
(`-absoluteToInternal` in package `time`). -/
def internalToAbsolute : Int := 9223371966579724800

/-- Go `isLeap`. -/
def isLeap (year : Int) : Bool :=
  year % 4 == 0 && (year % 100 != 0 || year % 400 == 0)

/-- Go `daysBefore[m]`: days in a non-leap year before month `m + 1`. -/
def daysBefore (m : Int) : Int :=
  if m = 0 then 0
  else if m = 1 then 31
  else if m = 2 then 31 + 28
  else if m = 3 then 31 + 28 + 31
  else if m = 4 then 31 + 28 + 31 + 30
  else if m = 5 then 31 + 28 + 31 + 30 + 31
  else if m = 6 then 31 + 28 + 31 + 30 + 31 + 30
  else if m = 7 then 31 + 28 + 31 + 30 + 31 + 30 + 31
  else if m = 8 then 31 + 28 + 31 + 30 + 31 + 30 + 31 + 31
  else if m = 9 then 31 + 28 + 31 + 30 + 31 + 30 + 31 + 31 + 30
  else if m = 10 then 31 + 28 + 31 + 30 + 31 + 30 + 31 + 31 + 30 + 31
  else if m = 11 then 31 + 28 + 31 + 30 + 31 + 30 + 31 + 31 + 30 + 31 + 30
  else 31 + 28 + 31 + 30 + 31 + 30 + 31 + 31 + 30 + 31 + 30 + 31

/-- Go `daysIn`. -/
def daysIn (m : Int) (year : Int) : Int :=
  if m = 2 ∧ isLeap year = true then 29 else daysBefore m - daysBefore (m - 1)

/-- Go `norm`: carry `lo` into `hi` so that `0 ≤ lo < base`. -/
def norm (hi lo base : Int) : Int × Int :=
  let (hi, lo) :=
    if lo < 0 then
      let n := (-lo - 1) / base + 1
      (hi - n, lo + n * base)
    else (hi, lo)
  if lo ≥ base then
    let n := lo / base
    (hi + n, lo - n * base)
  else (hi, lo)

/-- Go `daysSinceEpoch`: days from the absolute epoch to January 1 of `year`. -/
def daysSinceEpoch (year : Int) : Int :=
  let y := year - absoluteZeroYear
  let n := y / 400
  let y := y - 400 * n
  let d := daysPer400Years * n
  let n := y / 100
  let y := y - 100 * n
  let d := d + daysPer100Years * n
  let n := y / 4
  let y := y - 4 * n
  let d := d + daysPer4Years * n
  let n := y
  d + 365 * n

/-- Go `time.Date` for a location with one fixed zone. -/
def Date (year month day hour min sec nsec : Int) (loc : Location) : Time :=
  let m := month - 1
  let (year, m) := norm year m 12
  let month := m + 1
  let (sec, nsec) := norm sec nsec 1000000000
  let (min, sec) := norm min sec 60
  let (hour, min) := norm hour min 60
  let (day, hour) := norm day hour 24
  let d := daysSinceEpoch year
  let d := d + daysBefore (month - 1)
  let d := if isLeap year = true ∧ month ≥ 3 then d + 1 else d
  let d := d + (day - 1)
  let abs := d * secondsPerDay
  let abs := abs + (hour * secondsPerHour + min * secondsPerMinute + sec)
  ⟨abs - internalToAbsolute - loc.offset, nsec, loc⟩

/-- Go `Time.abs`: seconds since the absolute epoch, shifted to the wall clock
of the time's location. -/
def Time.abs (t : Time) : Int :=
  t.sec + t.loc.offset + internalToAbsolute

/-- Go `absDate` up to its `if !full { return }`: the year and the zero-based
day of the year of an absolute time. -/
def absYday (abs : Int) : Int × Int :=
  let d := abs / secondsPerDay
  let n := d / daysPer400Years
  let y := 400 * n
  let d := d - daysPer400Years * n
  let n := d / daysPer100Years
  let n := n - n / 4
  let y := y + 100 * n
  let d := d - daysPer100Years * n
  let n := d / daysPer4Years
  let y := y + 4 * n
  let d := d - daysPer4Years * n
  let n := d / 365
  let n := n - n / 4
  let y := y + n
  let d := d - 365 * n
  (y + absoluteZeroYear, d)

/-- Go `absDate` with `full = true`: year, month, day of the month and day of
the year of an absolute time. -/
def absDate (abs : Int) : Int × Int × Int × Int :=
  let (year, yday) := absYday abs
  if isLeap year = true ∧ yday = 31 + 29 - 1 then (year, 2, 29, yday)
  else
    let day := if isLeap year = true ∧ yday > 31 + 29 - 1 then yday - 1 else yday
    let month := day / 31
    let e := daysBefore (month + 1)
    let (month, begin) := if day ≥ e then (month + 1, e) else (month, daysBefore month)
    (year, month + 1, day - begin + 1, yday)

def Time.Year (t : Time) : Int := (absDate t.abs).1
def Time.Month (t : Time) : Int := (absDate t.abs).2.1
def Time.Day (t : Time) : Int := (absDate t.abs).2.2.1
def Time.Hour (t : Time) : Int := (t.abs % secondsPerDay) / secondsPerHour
def Time.Minute (t : Time) : Int := (t.abs % secondsPerHour) / secondsPerMinute
def Time.Second (t : Time) : Int := t.abs % secondsPerMinute

/-- Go `Time.Before`: instants are compared, locations are not. -/
def Time.Before (t u : Time) : Bool :=
  decide (t.sec < u.sec) || (decide (t.sec = u.sec) && decide (t.nsec < u.nsec))

/-- Go `Time.After`. -/
def Time.After (t u : Time) : Bool :=
  decide (t.sec > u.sec) || (decide (t.sec = u.sec) && decide (t.nsec > u.nsec))

/-! ## Go `time`: parsing with a layout

`nextStdChunk` cuts a layout into literal prefixes and standard chunks.  The
three layouts of `didicarpool.go` are given already cut, and `parse` is the loop
of Go's `parse` over such a list of chunks. -/

/-- Go `isDigit(s, 0)`: the text starts with an ASCII digit. -/
def isDigit (c : Char) : Bool := decide ('0' ≤ c) && decide (c ≤ '9')

/-- The value `c - '0'` of a digit. -/
def digitVal (c : Char) : Int := (c.toNat : Int) - 48

/-- Go `getnum`: a one- or two-digit number, exactly two digits when `fixed`. -/
def getnum (s : List Char) (fixed : Bool) : Option (Int × List Char) :=
  match s with
  | [] => none
  | c0 :: rest =>
    if isDigit c0 = false then none
    else
      match rest with
      | [] => if fixed then none else some (digitVal c0, rest)
      | c1 :: rest2 =>
        if isDigit c1 = false then
          if fixed then none else some (digitVal c0, rest)
        else some (digitVal c0 * 10 + digitVal c1, rest2)

/-- Go `cutspace`. -/
def cutspace (s : List Char) : List Char := s.dropWhile (fun c => c == ' ')

/-- The loop of Go `skip`, bounded by the length of the remaining prefix. -/
def skipLoop : Nat → List Char → List Char → Option (List Char)
  | 0, value, _ => some value
  | fuel + 1, value, pre =>
    match pre with
    | [] => some value
    | p :: ps =>
      if p = ' ' then
        match value with
        | v :: _ =>
          if v ≠ ' ' then none else skipLoop fuel (cutspace value) (cutspace pre)
        | [] => skipLoop fuel (cutspace value) (cutspace pre)
      else
        match value with
        | [] => none
        | v :: vs => if v ≠ p then none else skipLoop fuel vs ps

/-- Go `skip`: remove the literal `pre` from the front of `value`; a space of
the layout stands for one or more spaces (or for the end of the text). -/
def skip (value pre : List Char) : Option (List Char) :=
  skipLoop pre.length value pre

/-- The standard chunks occurring in the layouts of this program. -/
inductive StdChunk where
  | stdLongYear
  | stdZeroMonth
  | stdZeroDay
  | stdHour
  | stdZeroMinute
  | stdZeroSecond
  deriving DecidableEq, Repr

/-- The fields Go's `parse` fills in while it walks the layout. -/
structure Fields where
  year : Int
  month : Int
  day : Int
  hour : Int
  min : Int
  sec : Int
  nsec : Int
  deriving DecidableEq, Repr

/-- The initial values of the fields in Go's `parse`. -/
def Fields.init : Fields := ⟨0, -1, -1, 0, 0, 0, 0⟩

/-- Decimal value of a run of digits, most significant first. -/
def digitsVal (ds : List Char) : Int := ds.foldl (fun acc c => acc * 10 + digitVal c) 0

/-- Go `commaOrPeriod`. -/
def commaOrPeriod (c : Char) : Bool := c == '.' || c == ','

/-- Go `parseNanoseconds(value, nbytes)` where `value` starts with a comma or a
period followed by `digits` (so `nbytes = 1 + digits.length`): at most nine
digits are read and scaled to nanoseconds. -/
def parseNanoseconds (digits : List Char) : Int :=
  let nbytes := min (1 + digits.length) 10
  digitsVal (digits.take (nbytes - 1)) * 10 ^ (10 - nbytes)

/-- One turn of the switch in Go's `parse`: read the standard chunk `std` from
the front of `value`.  `none` is any of the error returns. -/
def parseStd (std : StdChunk) (f : Fields) (value : List Char) : Option (Fields × List Char) :=
  match std with
  | .stdLongYear =>
    match value with
    | c0 :: c1 :: c2 :: c3 :: rest =>
      if isDigit c0 && isDigit c1 && isDigit c2 && isDigit c3 then
        some ({ f with year := digitsVal [c0, c1, c2, c3] }, rest)
      else none
    | _ => none
  | .stdZeroMonth =>
    match getnum value true with
    | some (month, rest) =>
      if month ≤ 0 ∨ 12 < month then none else some ({ f with month := month }, rest)
    | none => none
  | .stdZeroDay =>
    match getnum value true with
    | some (day, rest) => some ({ f with day := day }, rest)
    | none => none
  | .stdHour =>
    match getnum value false with
    | some (hour, rest) =>
      if hour < 0 ∨ 24 ≤ hour then none else some ({ f with hour := hour }, rest)
    | none => none
  | .stdZeroMinute =>
    match getnum value true with
    | some (min, rest) =>
      if min < 0 ∨ 60 ≤ min then none else some ({ f with min := min }, rest)
    | none => none
  | .stdZeroSecond =>
    match getnum value true with
    | some (sec, rest) =>
      if sec < 0 ∨ 60 ≤ sec then none
      else
        -- a fractional second in the text although the layout has none
        match rest with
        | p :: d :: rest2 =>
          if commaOrPeriod p && isDigit d then
            let digits := d :: rest2.takeWhile isDigit
            some ({ f with sec := sec, nsec := parseNanoseconds digits },
              rest2.dropWhile isDigit)
          else some ({ f with sec := sec }, rest)
        | _ => some ({ f with sec := sec }, rest)
    | none => none

/-- A layout cut by `nextStdChunk`: the standard chunks, each with the literal
text in front of it, and the literal text after the last chunk. -/
structure Layout where
  chunks : List (List Char × StdChunk)
  suffix : List Char

/-- The loop of Go's `parse` over the chunks of the layout. -/
def parseChunks : List (List Char × StdChunk) → Fields → List Char → Option (Fields × List Char)
  | [], f, value => some (f, value)
  | (pre, std) :: chunks, f, value =>
    match skip value pre with
    | none => none
    | some value =>
      match parseStd std f value with
      | none => none
      | some (f, value) => parseChunks chunks f value

/-- Go `parse(layout, value, loc, loc)`; `none` stands for a non-nil error, in
which case Go returns the zero `Time` with it. -/
def parse (layout : Layout) (value : List Char) (loc : Location) : Option Time :=
  match parseChunks layout.chunks Fields.init value with
  | none => none
  | some (f, value) =>
    match skip value layout.suffix with
    | none => none
    | some value =>
      if value ≠ [] then none  -- extra text
      else
        let month := if f.month < 0 then 1 else f.month
        let day := if f.day < 0 then 1 else f.day
        if day < 1 ∨ day > daysIn month f.year then none  -- day out of range
        else some (Date f.year month day f.hour f.min f.sec f.nsec loc)

/-- The value of `t` in `t, _ := time.ParseInLocation(layout, value, loc)`:
the parsed time, or the zero `Time` when parsing fails. -/
def ParseInLocation (layout : Layout) (value : String) (loc : Location) : Time :=
  (parse layout value.data loc).getD Time.zero

/-- The layout `"2006-01-02 15:04:05"`. -/
def layoutDateTime : Layout :=
  ⟨[([], .stdLongYear), (['-'], .stdZeroMonth), (['-'], .stdZeroDay), ([' '], .stdHour),
    ([':'], .stdZeroMinute), ([':'], .stdZeroSecond)], []⟩

/-- The layout `"01月02日"`. -/
def layoutMonthDay : Layout :=
  ⟨[([], .stdZeroMonth), (['月'], .stdZeroDay)], ['日']⟩

/-- The layout `"15:04"`. -/
def layoutClock : Layout :=
  ⟨[([], .stdHour), ([':'], .stdZeroMinute)], []⟩

/-- Go `appendInt`: decimal text of `x`, padded with zeros to `width` digits. -/
def appendInt (x : Int) (width : Nat) : List Char :=
  let ds := Nat.toDigits 10 x.natAbs
  (if x < 0 then ['-'] else []) ++ List.replicate (width - ds.length) '0' ++ ds

/-- The text Go's `appendFormat` writes for one standard chunk. -/
def formatStd (std : StdChunk) (t : Time) : List Char :=
  match std with
  | .stdLongYear => appendInt t.Year 4
  | .stdZeroMonth => appendInt t.Month 2
  | .stdZeroDay => appendInt t.Day 2
  | .stdHour => appendInt t.Hour 2
  | .stdZeroMinute => appendInt t.Minute 2
  | .stdZeroSecond => appendInt t.Second 2

/-- Go `Time.Format`: every literal prefix is copied and every standard chunk
is replaced by the value it stands for. -/
def Time.Format (t : Time) (layout : Layout) : String :=
  String.mk ((layout.chunks.map (fun c => c.1 ++ formatStd c.2 t)).flatten ++ layout.suffix)

/-- The layout `"2006-01-02 15:04"`. -/
def layoutMinute : Layout :=
  ⟨[([], .stdLongYear), (['-'], .stdZeroMonth), (['-'], .stdZeroDay), ([' '], .stdHour),
    ([':'], .stdZeroMinute)], []⟩

end time

/-! ## Go `regexp`: the three patterns

Go's `regexp` returns the leftmost match and, among the matches starting
there, the one a backtracking search would find first.  In each of the three
patterns a greedy `\d+` is followed by a character that is not a digit (or by
nothing), so at a given start the only possible match takes the whole run of
digits. -/

/-- Leftmost match: try the anchored matcher at every position, left to right. -/
def findFirst {α : Type} (matchAt : List Char → Option α) : List Char → Option α
  | [] => matchAt []
  | c :: cs =>
    match matchAt (c :: cs) with
    | some m => some m
    | none => findFirst matchAt cs

/-- The pattern `(\d)人` anchored at the front of the text: the text of the
capture group. -/
def rePassengersAt : List Char → Option Char
  | d :: '人' :: _ => if time.isDigit d then some d else none
  | _ => none

/-- The pattern `\d+月\d+日` anchored at the front of the text: the matched text. -/
def reDepartureTimeMonthAt (s : List Char) : Option (List Char) :=
  let d1 := s.takeWhile time.isDigit
  if d1 = [] then none
  else
    match s.dropWhile time.isDigit with
    | '月' :: r =>
      let d2 := r.takeWhile time.isDigit
      if d2 = [] then none
      else
        match r.dropWhile time.isDigit with
        | '日' :: _ => some (d1 ++ '月' :: d2 ++ ['日'])
        | _ => none
    | _ => none

/-- The pattern `\d+:\d+` anchored at the front of the text: the matched text. -/
def reDepartureTimeTimeAt (s : List Char) : Option (List Char) :=
  let d1 := s.takeWhile time.isDigit
  if d1 = [] then none
  else
    match s.dropWhile time.isDigit with
    | ':' :: r =>
      let d2 := r.takeWhile time.isDigit
      if d2 = [] then none else some (d1 ++ ':' :: d2)
    | _ => none

/-- The call `rePassengers.FindStringSubmatch(s)`, reduced to `match[1]`;
`none` is the nil slice of a text without a match. -/
def rePassengers.FindStringSubmatch (s : String) : Option Char :=
  findFirst rePassengersAt s.data

/-- The call `reDepartureTimeMonth.FindString(s)`; the empty string when there
is no match. -/
def reDepartureTimeMonth.FindString (s : String) : String :=
  String.mk ((findFirst reDepartureTimeMonthAt s.data).getD [])

/-- The call `reDepartureTimeTime.FindString(s)`. -/
def reDepartureTimeTime.FindString (s : String) : String :=
  String.mk ((findFirst reDepartureTimeTimeAt s.data).getD [])

/-- The package variable `timezone = time.FixedZone("UTC+8", 8*60*60)`. -/
def timezone : time.Location := ⟨"UTC+8", 8 * 60 * 60⟩

/-! ## The data model of `didicarpool.go` -/

structure Location where
  Name : String
  Lat : String
  Lon : String
  deriving DecidableEq, Repr

structure Route where
  Id : String
  UserId : String
  CreatedAt : time.Time
  StartedAt : time.Time
  From : Location
  To : Location
  Passengers : Int
  Amount : String
  deriving DecidableEq, Repr

structure Order where
  Id : String
  Exclusive : Bool
  TotalPassengers : Int
  TotalAmount : String
  Routes : List Route
  deriving DecidableEq, Repr

structure Orders where
  Orders : List Order
  NextMonth : String
  deriving DecidableEq, Repr

/-- The anonymous struct of `originalOrder.UserInfo`. -/
structure UserInfo where
  CarAuthStatus : String
  UID : String
  HeadImgURL : String
  NickName : String
  AuthStatus : String
  deriving DecidableEq, Repr

/-- The anonymous struct of `originalOrder.RouteInfo`. -/
structure RouteInfo where
  FromAreaID : String
  ToAreaID : String
  FromLng : String
  FromLat : String
  FromName : String
  FromAddress : String
  ToLng : String
  ToLat : String
  ToName : String
  ToAddress : String
  RouteID : String
  CountryIsoCode : String
  deriving DecidableEq, Repr

/-- The anonymous struct of the elements of `originalOrder.TripDesc`. -/
structure TripDesc where
  Message : String
  Color : String
  deriving DecidableEq, Repr

/-- The fields of `originalOrder` other than `OrderGroup`. -/
structure originalOrderFields where
  ID : String
  OrderID : String
  Status : String
  StatusDescColor : String
  OrderStateDesc : String
  StatusTxt : String
  Substatus : String
  OrderNewStatus : String
  DepartureTime : String
  DepartureTimeStatus : String
  PayPrice : String
  Type_ : String
  StatusDesc : String
  BusinessArea : String
  SessionID : String
  IsCarpool : String
  UserInfo : UserInfo
  RouteInfo : RouteInfo
  IscanDelete : String
  CarpoolID : String
  OrderStatus : String
  StriveTime : String
  DepartureDistance : String
  ToDepartureDistance : String
  JumpScheme : String
  TripDesc : List TripDesc
  deriving DecidableEq, Repr

/-- The Go struct `originalOrder`: its own fields and the nested list
`OrderGroup []originalOrder`. -/
inductive originalOrder where
  | mk (fields : originalOrderFields) (OrderGroup : List originalOrder)

def originalOrder.fields : originalOrder → originalOrderFields
  | .mk f _ => f

def originalOrder.OrderGroup : originalOrder → List originalOrder
  | .mk _ g => g

def originalOrder.OrderID (o : originalOrder) : String := o.fields.OrderID
def originalOrder.Status (o : originalOrder) : String := o.fields.Status
def originalOrder.DepartureTime (o : originalOrder) : String := o.fields.DepartureTime
def originalOrder.PayPrice (o : originalOrder) : String := o.fields.PayPrice
def originalOrder.IsCarpool (o : originalOrder) : String := o.fields.IsCarpool
def originalOrder.StriveTime (o : originalOrder) : String := o.fields.StriveTime
def originalOrder.TripDesc (o : originalOrder) : List TripDesc := o.fields.TripDesc

/-- The anonymous struct of `originalOrders.Delinfo`. -/
structure Delinfo where
  Status : String
  Msg : String
  deriving DecidableEq, Repr

/-- The anonymous struct of `originalOrders.NextText`. -/
structure NextText where
  Message : String
  deriving DecidableEq, Repr

structure originalOrders where
  Delinfo : Delinfo
  Orders : List originalOrder
  Next : String
  NextMonth : String
  NextText : NextText
  Errno : String
  Errmsg : String
  Requestid : String
  Traceid : String

/-! ## `didicarpool.go`: the normaliser -/

/-- The value of `p` in `p, _ := strconv.Atoi(s)` for a text `s` made of decimal
digits (the only texts that reach it are the one-digit captures of
`rePassengers`); any other text is an error and gives `0`. -/
def strconv.Atoi (s : String) : Int :=
  if s.data ≠ [] ∧ s.data.all time.isDigit = true then time.digitsVal s.data else 0

def originalOrder.getPassengers (order : originalOrder) : Int :=
  order.TripDesc.foldl
    (fun passengers desc =>
      match rePassengers.FindStringSubmatch desc.Message with
      | some d => passengers + strconv.Atoi (String.mk [d])
      | none => passengers)
    0

def originalOrder.getTimes (order : originalOrder) : time.Time × time.Time :=
  let createdAt := time.ParseInLocation time.layoutDateTime order.StriveTime timezone
  let month := time.ParseInLocation time.layoutMonthDay
    (reDepartureTimeMonth.FindString order.DepartureTime) timezone
  let t := time.ParseInLocation time.layoutClock
    (reDepartureTimeTime.FindString order.DepartureTime) timezone
  let startedAt := time.Date createdAt.Year month.Month month.Day t.Hour t.Minute 0 0 timezone
  let startedAt :=
    if startedAt.Before createdAt = true then
      time.Date (createdAt.Year + 1) month.Month month.Day t.Hour t.Minute 0 0 timezone
    else startedAt
  (createdAt, startedAt)

def originalOrder.toRoute (order : originalOrder) : Route :=
  let (createdAt, startedAt) := order.getTimes
  { Id := order.OrderID
    UserId := order.fields.UserInfo.UID
    CreatedAt := createdAt
    StartedAt := startedAt
    From :=
      { Name := order.fields.RouteInfo.FromName
        Lat := order.fields.RouteInfo.FromLat
        Lon := order.fields.RouteInfo.FromLng }
    To :=
      { Name := order.fields.RouteInfo.ToName
        Lat := order.fields.RouteInfo.ToLat
        Lon := order.fields.RouteInfo.ToLng }
    Passengers := order.getPassengers
    Amount := order.PayPrice }

/-- The routes built for one raw record in the body of the loop of `toOrders`:
the status-"4" members of the order group, else the record itself when its
own status is "4". -/
def originalOrder.routes (order : originalOrder) : List Route :=
  let routes := order.OrderGroup.foldl
    (fun routes o => if o.Status = "4" then routes ++ [o.toRoute] else routes) []
  if routes.length = 0 then
    if order.Status = "4" then routes ++ [order.toRoute] else routes
  else routes

def originalOrders.toOrders (o : originalOrders) : Didicarpool.Orders :=
  let orders := o.Orders.foldl
    (fun orders order =>
      let routes := order.routes
      if routes.length = 0 then orders  -- continue
      else
        let totalPassengers := routes.foldl (fun total r => total + r.Passengers) 0
        orders ++
          [{ Id := order.OrderID
             Exclusive := decide (order.IsCarpool = "0")
             TotalPassengers := totalPassengers
             TotalAmount := order.PayPrice
             Routes := routes }])
    []
  { Orders := orders, NextMonth := o.NextMonth }

/-! ## `cmd/didicarpool/main.go`: the report driver -/

namespace Main

/-- The two meanings of `for _, route := range order.Routes`: since language
version 1.22 every iteration declares a variable `route` of its own; before,
one variable is declared for the whole loop and assigned at every iteration.
The language version is set by the module file, which is not part of the two
source files, so `getTimes`, which keeps addresses of fields of `route`, is
given for both. -/
inductive LoopVar where
  | perIteration
  | perLoop
  deriving DecidableEq, Repr

/-- The state of the loop of `getTimes`: the contents of the instances of the
variable `route` (instance `i` at address `i`), the number of instances
declared so far, and the two pointers, `none` for `nil` and `some i` for the
address of the field `CreatedAt` (or `StartedAt`) of instance `i`. -/
structure GetTimesState where
  heap : Nat → Option Route
  next : Nat
  createdAt : Option Nat
  startedAt : Option Nat

/-- The value a pointer into the field `CreatedAt` points to. -/
def derefCreatedAt (heap : Nat → Option Route) (p : Option Nat) : Option time.Time :=
  (p.bind heap).map Route.CreatedAt

/-- The value a pointer into the field `StartedAt` points to. -/
def derefStartedAt (heap : Nat → Option Route) (p : Option Nat) : Option time.Time :=
  (p.bind heap).map Route.StartedAt

/-- One iteration of the loop of `getTimes` with the element `r`. -/
def getTimesStep (sem : LoopVar) (s : GetTimesState) (r : Route) : GetTimesState :=
  -- `route` of this iteration: a new instance, or the one instance of the loop
  let addr := match sem with
    | .perIteration => s.next
    | .perLoop => 0
  let heap := fun a => if a = addr then some r else s.heap a
  let createdAt :=
    match derefCreatedAt heap s.createdAt with
    | none => some addr
    | some c => if c.After r.CreatedAt = true then some addr else s.createdAt
  let startedAt :=
    match derefStartedAt heap s.startedAt with
    | none => some addr
    | some c => if c.After r.StartedAt = true then some addr else s.startedAt
  { heap := heap, next := addr + 1, createdAt := createdAt, startedAt := startedAt }

/-- The function `getTimes` of `main.go`; the two results are the values the
returned pointers point to when the function returns, `none` for `nil`. -/
def getTimes (sem : LoopVar) (order : Order) : Option time.Time × Option time.Time :=
  let s := order.Routes.foldl (getTimesStep sem) ⟨fun _ => none, 0, none, none⟩
  (derefCreatedAt s.heap s.createdAt, derefStartedAt s.heap s.startedAt)

def formatTime (t : Option time.Time) : String :=
  match t with
  | none => "-"
  | some t => t.Format time.layoutMinute

/-- The arguments of the `Fprintf` that writes the CSV row of `order`, one per
verb of `"%s,%s,%s,%s,%d,%s\n"`. -/
def csvColumns (sem : LoopVar) (order : Order) : List String :=
  let excl := if order.Exclusive = true then "是" else "否"
  let (createdAt, startedAt) := getTimes sem order
  [order.Id, formatTime createdAt, formatTime startedAt, excl,
    String.mk (time.appendInt order.TotalPassengers 0), order.TotalAmount]

/-- The CSV row of `order`. -/
def csvRow (sem : LoopVar) (order : Order) : String :=
  ",".intercalate (csvColumns sem order) ++ "\n"

/-- `Client.GetOrders` as the driver sees it: `http k month` is the decoded
body of the reply to the request made by call number `k` (from 0) for `month`,
`none` when the request or the decoding fails. -/
def GetOrders (http : Nat → String → Option originalOrders) (k : Nat) (month : String) :
    Option Orders :=
  (http k month).map originalOrders.toOrders

/-- The variables of the loop of `main`, and the `month` arguments of the
calls of `GetOrders` made so far (they are what the loop logs). -/
structure DriverState where
  month : String
  count : Int
  emptyMonth : Int
  orders : List Order
  requested : List String

/-- The state before the loop of `main`. -/
def DriverState.init : DriverState := ⟨"", 0, 0, [], []⟩

/-- The condition of the loop of `main`; `number` is the flag `-n`. -/
def loopCond (number : Int) (s : DriverState) : Bool :=
  decide (s.emptyMonth < 3) && (decide (number = 0) || decide (s.count < number))

/-- The body of the loop of `main`; `none` is `log.Fatal(err)`. -/
def loopBody (http : Nat → String → Option originalOrders) (s : DriverState) :
    Option DriverState :=
  match GetOrders http s.requested.length s.month with
  | none => none
  | some o =>
    some
      { month := o.NextMonth
        count := s.count + 1
        emptyMonth := if o.Orders.length = 0 then s.emptyMonth + 1 else 0
        orders := s.orders ++ o.Orders
        requested := s.requested ++ [s.month] }

/-- How a run of the loop of `main` ends. -/
inductive Outcome where
  | finished (s : DriverState)
  | fatal
  | running (s : DriverState)

/-- The loop of `main`, run for at most `fuel` iterations: `finished` when the
condition has become false, `fatal` when a fetch failed, `running` when the
condition still holds after `fuel` iterations. -/
def runLoop (number : Int) (http : Nat → String → Option originalOrders) :
    Nat → DriverState → Outcome
  | 0, s => if loopCond number s = true then .running s else .finished s
  | fuel + 1, s =>
    if loopCond number s = true then
      match loopBody http s with
      | none => .fatal
      | some s => runLoop number http fuel s
    else .finished s

end Main

/-! ## Vocabulary of the statements -/

/-- A member of an order group, or a raw record, carries the status "4". -/
def originalOrder.hasStatus4 (o : originalOrder) : Bool := decide (o.Status = "4")

/-- The members of the order group of a raw record that carry the status "4". -/
def originalOrder.completedGroup (order : originalOrder) : List originalOrder :=
  order.OrderGroup.filter originalOrder.hasStatus4

/-- A raw record has a status-"4" member in its order group or carries the
status "4" itself. -/
def originalOrder.qualifies (order : originalOrder) : Bool :=
  order.OrderGroup.any originalOrder.hasStatus4 || order.hasStatus4

/-- The order `toOrders` builds for a raw record that is kept. -/
def originalOrder.toOrder (order : originalOrder) : Order :=
  { Id := order.OrderID
    Exclusive := decide (order.IsCarpool = "0")
    TotalPassengers := (order.routes.map Route.Passengers).sum
    TotalAmount := order.PayPrice
    Routes := order.routes }

/-- Day of the year (from 0) of day `d` of month `m` in year `y`, as `Date`
counts it. -/
def time.ydayOf (y m d : Int) : Int :=
  time.daysBefore (m - 1) + (if time.isLeap y = true ∧ m ≥ 3 then 1 else 0) + (d - 1)

/-- The ranges kept by the fields of `parse` once they have been read. -/
def time.Fields.ok (f : time.Fields) : Prop :=
  (f.month = -1 ∨ (1 ≤ f.month ∧ f.month ≤ 12)) ∧ 0 ≤ f.hour ∧ f.hour < 24 ∧ 0 ≤ f.min ∧
    f.min < 60 ∧ 0 ≤ f.sec ∧ f.sec < 60 ∧ 0 ≤ f.nsec ∧ f.nsec < 1000000000

/-- A raw record with the given `strive_time` and `departure_time`, every other
field empty. -/
def rawRecord (striveTime departureTime : String) : originalOrder :=
  .mk
    { ID := "", OrderID := "", Status := "", StatusDescColor := "", OrderStateDesc := "",
      StatusTxt := "", Substatus := "", OrderNewStatus := "", DepartureTime := departureTime,
      DepartureTimeStatus := "", PayPrice := "", Type_ := "", StatusDesc := "",
      BusinessArea := "", SessionID := "", IsCarpool := "",
      UserInfo := ⟨"", "", "", "", ""⟩,
      RouteInfo := ⟨"", "", "", "", "", "", "", "", "", "", "", ""⟩,
      IscanDelete := "", CarpoolID := "", OrderStatus := "", StriveTime := striveTime,
      DepartureDistance := "", ToDepartureDistance := "", JumpScheme := "", TripDesc := [] }
    []

/-- The departure date-time of a raw record placed in the year of its
`CreatedAt`: the first value given to `startedAt` in `getTimes`. -/
def originalOrder.departureInCreationYear (order : originalOrder) : time.Time :=
  let createdAt := time.ParseInLocation time.layoutDateTime order.StriveTime timezone
  let month := time.ParseInLocation time.layoutMonthDay
    (reDepartureTimeMonth.FindString order.DepartureTime) timezone
  let t := time.ParseInLocation time.layoutClock
    (reDepartureTimeTime.FindString order.DepartureTime) timezone
  time.Date createdAt.Year month.Month month.Day t.Hour t.Minute 0 0 timezone

/-- The digits of all the occurrences of "<digit>人" in a text, left to right:
one for every position that holds a digit with 人 right after it. -/
def passengerCaptures : List Char → List Char
  | [] => []
  | d :: rest =>
    (if time.isDigit d = true ∧ rest.head? = some '人' then [d] else []) ++ passengerCaptures rest

/-- A raw record with the given trip-description messages, every other field
empty. -/
def rawRecordWithMessages (messages : List String) : originalOrder :=
  .mk { (rawRecord "" "").fields with TripDesc := messages.map (fun m => ⟨m, ""⟩) } []

/-- The passenger count in the words of the specification: the digits of all the
occurrences of "<digit>人" in all the messages, added up. -/
def originalOrder.passengersOfAllMatches (order : originalOrder) : Int :=
  (order.TripDesc.map (fun desc =>
    ((passengerCaptures desc.Message.data).map time.digitVal).sum)).sum

/-- The digits of the leftmost occurrence of "<digit>人" of every message that
has one, added up. -/
def originalOrder.passengersOfFirstMatches (order : originalOrder) : Int :=
  (order.TripDesc.map (fun desc =>
    ((passengerCaptures desc.Message.data).head?.map time.digitVal).getD 0)).sum

/-- A raw record with the given `order_id`, `status`, trip-description messages
and order group, created at 2023-12-30 10:00:00 for a departure on 01月05日
08:00, every other field empty. -/
def sampleRecord (orderId status : String) (messages : List String)
    (group : List originalOrder) : originalOrder :=
  .mk
    { (rawRecord "2023-12-30 10:00:00" "01月05日 08:00").fields with
      OrderID := orderId, Status := status, TripDesc := messages.map (fun m => ⟨m, ""⟩) }
    group

/-- A decoded reply with the given raw records and `next_month`. -/
def rawPage (orders : List originalOrder) (nextMonth : String) : originalOrders :=
  ⟨⟨"", ""⟩, orders, "", nextMonth, ⟨""⟩, "", "", "", ""⟩

/-- A page of three raw records: one completed, one with a completed member in
its order group, one cancelled. -/
def samplePage : originalOrders :=
  rawPage
    [sampleRecord "A" "4" ["3人", "2人"] [],
      sampleRecord "B" "3" [] [sampleRecord "B1" "4" ["1人"] [], sampleRecord "B2" "1" [] []],
      sampleRecord "C" "1" [] []]
    "202311"

/-- A server whose first reply is `samplePage` and whose later replies hold no
raw record. -/
def sampleServer : Nat → String → originalOrders :=
  fun k _ => if k = 0 then samplePage else rawPage [] ""

namespace Main

/-- A server that answers every request: the `http` of `GetOrders` when no
fetch fails. -/
def alwaysOk (srv : Nat → String → originalOrders) : Nat → String → Option originalOrders :=
  fun k month => some (srv k month)

/-- The variables of `main` after `k` turns of the body of its loop, the loop
condition left aside. -/
def stateAfter (http : Nat → String → Option originalOrders) : Nat → DriverState
  | 0 => DriverState.init
  | k + 1 => (loopBody http (stateAfter http k)).getD (stateAfter http k)

/-- The page fetched by turn number `k` of the loop (from 0). -/
def page (http : Nat → String → Option originalOrders) (k : Nat) : Option Orders :=
  GetOrders http (stateAfter http k).requested.length (stateAfter http k).month

/-- Turn number `k` of the loop fetched a page without orders. -/
def emptyPage (http : Nat → String → Option originalOrders) (k : Nat) : Bool :=
  match page http k with
  | some o => decide (o.Orders.length = 0)
  | none => false

/-- The stopping rule of the specification after `k` fetches: the last three
pages fetched had no orders, or the page limit is not zero and `k` has
reached it. -/
def stopsAfter (number : Int) (http : Nat → String → Option originalOrders) (k : Nat) : Prop :=
  (3 ≤ k ∧ emptyPage http (k - 1) = true ∧ emptyPage http (k - 2) = true
      ∧ emptyPage http (k - 3) = true)
    ∨ (number ≠ 0 ∧ (k : Int) = number)

end Main

/-- A route with the given `CreatedAt` and `StartedAt`, every other field empty. -/
def sampleRoute (createdAt startedAt : time.Time) : Route :=
  { Id := "", UserId := "", CreatedAt := createdAt, StartedAt := startedAt,
    From := ⟨"", "", ""⟩, To := ⟨"", "", ""⟩, Passengers := 0, Amount := "" }

/-- An order with two routes, created at 2024-01-02 10:00 and at 2024-01-01
09:00 (UTC+8), the first one starting earlier than the second. -/
def sampleOrder : Order :=
  { Id := "X", Exclusive := true, TotalPassengers := 0, TotalAmount := "9.5",
    Routes :=
      [sampleRoute (time.Date 2024 1 2 10 0 0 0 timezone) (time.Date 2024 1 3 8 0 0 0 timezone),
        sampleRoute (time.Date 2024 1 1 9 0 0 0 timezone)
          (time.Date 2024 1 4 18 30 0 0 timezone)] }

namespace Main

/-- The earlier of the time kept so far and the time of the next route, as the
loop of `getTimes` chooses it: the next one when nothing is kept yet or when
the kept one is after it. -/
def earlier (kept : Option time.Time) (t : time.Time) : Option time.Time :=
  match kept with
  | none => some t
  | some c => if c.After t = true then some t else some c

/-- Every pointer of the state points to an instance declared so far. -/
def GetTimesState.valid (s : GetTimesState) : Prop :=
  (∀ p, s.createdAt = some p → p < s.next ∧ (s.heap p).isSome = true)
    ∧ (∀ p, s.startedAt = some p → p < s.next ∧ (s.heap p).isSome = true)

end Main

/-- The two decimal digits of a number below 100. -/
def twoDigits (n : Nat) : List Char := [Nat.digitChar (n / 10), Nat.digitChar (n % 10)]

/-- The order `toOrders` builds from a raw record with status "4" whose
`strive_time` and `departure_time` are empty: the `CreatedAt` of its route is
the zero time. -/
def unparsedOrder : Order :=
  (originalOrder.mk { (rawRecord "" "").fields with OrderID := "Z", Status := "4" } []).toOrder

namespace Main

/-- The `month` argument of the fetch made by turn number `i` of the loop
(from 0). -/
def monthArg (http : Nat → String → Option originalOrders) (i : Nat) : String :=
  (stateAfter http i).month

/-- The orders of the page fetched by turn number `i` of the loop. -/
def pageOrders (http : Nat → String → Option originalOrders) (i : Nat) : List Order :=
  match page http i with
  | some o => o.Orders
  | none => []

end Main

namespace time

/-- A text accepted, as far as its shape goes, by the layout
"2006-01-02 15:04:05": four digits, "-", two digits, "-", two digits, one or
more spaces, one or two digits, ":", two digits, ":", two digits and, if
anything follows, a period or a comma and one or more digits. -/
def extendedDateTimeShape (v : List Char) : Prop :=
  ∃ (y0 y1 y2 y3 m0 m1 d0 d1 : Char) (spaces hour : List Char) (n0 n1 s0 s1 : Char)
    (frac : List Char),
    v = [y0, y1, y2, y3, '-', m0, m1, '-', d0, d1, ' '] ++ spaces ++ hour
          ++ [':', n0, n1, ':', s0, s1] ++ frac
      ∧ isDigit y0 = true ∧ isDigit y1 = true ∧ isDigit y2 = true ∧ isDigit y3 = true
      ∧ isDigit m0 = true ∧ isDigit m1 = true ∧ isDigit d0 = true ∧ isDigit d1 = true
      ∧ (∀ c ∈ spaces, c = ' ')
      ∧ (1 ≤ hour.length ∧ hour.length ≤ 2 ∧ ∀ c ∈ hour, isDigit c = true)
      ∧ isDigit n0 = true ∧ isDigit n1 = true ∧ isDigit s0 = true ∧ isDigit s1 = true
      ∧ (frac = [] ∨ ∃ p ds, frac = p :: ds ∧ commaOrPeriod p = true ∧ ds ≠ []
          ∧ ∀ c ∈ ds, isDigit c = true)

/-- The text `v` has the shape accepted by the layout "2006-01-02 15:04:05"
with these parts: the digits of the year, the month and the day, the further
spaces, the digits of the hour, of the minute and of the second, and what
follows the seconds. -/
def extendedDateTimeParts (v : List Char) (y0 y1 y2 y3 m0 m1 d0 d1 : Char)
    (spaces hour : List Char) (n0 n1 s0 s1 : Char) (frac : List Char) : Prop :=
  v = [y0, y1, y2, y3, '-', m0, m1, '-', d0, d1, ' '] ++ spaces ++ hour
        ++ [':', n0, n1, ':', s0, s1] ++ frac
    ∧ isDigit y0 = true ∧ isDigit y1 = true ∧ isDigit y2 = true ∧ isDigit y3 = true
    ∧ isDigit m0 = true ∧ isDigit m1 = true ∧ isDigit d0 = true ∧ isDigit d1 = true
    ∧ (∀ c ∈ spaces, c = ' ')
    ∧ (1 ≤ hour.length ∧ hour.length ≤ 2 ∧ ∀ c ∈ hour, isDigit c = true)
    ∧ isDigit n0 = true ∧ isDigit n1 = true ∧ isDigit s0 = true ∧ isDigit s1 = true
    ∧ (frac = [] ∨ ∃ p ds, frac = p :: ds ∧ commaOrPeriod p = true ∧ ds ≠ []
        ∧ ∀ c ∈ ds, isDigit c = true)

end time

/-- The four decimal digits of a number below 10000. -/
def fourDigits (n : Nat) : List Char := twoDigits (n / 100) ++ twoDigits (n % 100)

/-- The text "YYYY-MM-DD HH:MM:SS" of a date and a clock time. -/
def dateTimeText (y m d h mi s : Nat) : List Char :=
  fourDigits y ++ '-' :: twoDigits m ++ '-' :: twoDigits d ++ ' ' :: twoDigits h ++ ':' ::
    twoDigits mi ++ ':' :: twoDigits s

/-- A text is in the format YYYY-MM-DD HH:MM:SS: nineteen characters, digits
everywhere but for the two "-", the space and the two ":". -/
def dateTimeShape : List Char → Bool
  | [y0, y1, y2, y3, a, m0, m1, b, d0, d1, c, h0, h1, e, n0, n1, g, s0, s1] =>
    time.isDigit y0 && time.isDigit y1 && time.isDigit y2 && time.isDigit y3 && a == '-'
      && time.isDigit m0 && time.isDigit m1 && b == '-' && time.isDigit d0 && time.isDigit d1
      && c == ' ' && time.isDigit h0 && time.isDigit h1 && e == ':' && time.isDigit n0
      && time.isDigit n1 && g == ':' && time.isDigit s0 && time.isDigit s1
  | _ => false

/-! ## Go `time`: the RFC 3339 text of `Time.MarshalJSON` and `Time.UnmarshalJSON` -/

namespace time

/-- Go `appendNano` for the fraction ".999999999": nothing for a whole second,
otherwise a period and the nine digits of the nanoseconds without their
trailing zeros. -/
def appendNano (nanosec : Int) : List Char :=
  if nanosec = 0 then []
  else '.' :: (appendInt nanosec 9).rdropWhile (fun c => c == '0')

/-- Go `Time.appendFormatRFC3339` with `nanos = true`, for a time in a
location with one fixed zone (`Int.tdiv` is Go's division of signed integers). -/
def Time.appendFormatRFC3339 (t : Time) : List Char :=
  let date := appendInt t.Year 4 ++ '-' :: appendInt t.Month 2 ++ '-' :: appendInt t.Day 2
  let clock := appendInt t.Hour 2 ++ ':' :: appendInt t.Minute 2 ++ ':' :: appendInt t.Second 2
  let zone :=
    if t.loc.offset = 0 then ['Z']
    else
      let z := Int.tdiv t.loc.offset 60
      (if z < 0 then ['-'] else ['+']) ++ appendInt ((if z < 0 then -z else z) / 60) 2 ++ ':' ::
        appendInt ((if z < 0 then -z else z) % 60) 2
  date ++ 'T' :: clock ++ appendNano t.nsec ++ zone

/-- Go `Time.MarshalJSON` without the two quotes: the RFC 3339 text of the
time, or `none` for the error returned when the year is outside 0..9999 or the
hour of the zone offset is 24 or more. -/
def Time.MarshalJSON (t : Time) : Option (List Char) :=
  if t.Year < 0 ∨ 10000 ≤ t.Year then none
  else if 24 ≤ (if t.loc.offset < 0 then -t.loc.offset else t.loc.offset) / 3600 then none
  else some t.appendFormatRFC3339

/-- The closure `parseUint` of Go `parseRFC3339`: a run of decimal digits with
a value in `min .. max`. -/
def parseUint (s : List Char) (min max : Int) : Option Int :=
  if s.all isDigit = true then
    if digitsVal s < min ∨ max < digitsVal s then none else some (digitsVal s)
  else none

/-- The zone part of Go `parseRFC3339`: "Z", or a sign, two digits, ":" and two
digits; the result is the offset in seconds, `none` standing for "Z". -/
def parseZone (s : List Char) : Option (Option Int) :=
  match s with
  | ['Z'] => some none
  | [sign, h0, h1, c, m0, m1] =>
    match parseUint [h0, h1] 0 23, parseUint [m0, m1] 0 59 with
    | some hr, some mm =>
      if (sign = '-' ∨ sign = '+') ∧ c = ':' then
        some (some (if sign = '-' then -((hr * 60 + mm) * 60) else (hr * 60 + mm) * 60))
      else none
    | _, _ => none
  | _ => none

/-- Go `parseRFC3339(s, local)`, the parser behind `Time.UnmarshalJSON`;
`localZone` is the zone of the environment, which the result takes when its offset
is the one of the text. -/
def parseRFC3339 (s : List Char) (localZone : Location) : Option Time :=
  match s with
  | y0 :: y1 :: y2 :: y3 :: a :: m0 :: m1 :: b :: d0 :: d1 :: c :: h0 :: h1 :: e :: n0 :: n1 ::
      g :: s0 :: s1 :: rest =>
    match parseUint [y0, y1, y2, y3] 0 9999, parseUint [m0, m1] 1 12 with
    | some year, some month =>
      match parseUint [d0, d1] 1 (daysIn month year), parseUint [h0, h1] 0 23,
        parseUint [n0, n1] 0 59, parseUint [s0, s1] 0 59 with
      | some day, some hour, some min, some sec =>
        if a = '-' ∧ b = '-' ∧ c = 'T' ∧ e = ':' ∧ g = ':' then
          let (nsec, rest) :=
            match rest with
            | p :: d :: rest2 =>
              if p = '.' ∧ isDigit d = true then
                (parseNanoseconds (d :: rest2.takeWhile isDigit), rest2.dropWhile isDigit)
              else (0, rest)
            | _ => (0, rest)
          let t := Date year month day hour min sec nsec UTC
          match parseZone rest with
          | none => none
          | some none => some t
          | some (some zoneOffset) =>
            some
              { t with
                sec := t.sec - zoneOffset
                loc := if localZone.offset = zoneOffset then localZone else ⟨"", zoneOffset⟩ }
        else none
      | _, _, _, _ => none
    | _, _ => none
  | _ => none

/-- Go `Time.Equal`: the same instant, whatever the locations. -/
def Time.Equal (t u : Time) : Bool := decide (t.sec = u.sec) && decide (t.nsec = u.nsec)

/-- A time that is `Date` applied to a valid calendar date and a valid time of
day, in a location at offset 0 or +8 hours. -/
def Time.civil (t : Time) : Prop :=
  ∃ y m d h mi s ns : Int, t = Date y m d h mi s ns t.loc ∧ 1 ≤ m ∧ m ≤ 12 ∧ 1 ≤ d ∧
    d ≤ daysIn m y ∧ 0 ≤ h ∧ h < 24 ∧ 0 ≤ mi ∧ mi < 60 ∧ 0 ≤ s ∧ s < 60 ∧ 0 ≤ ns ∧
    ns < 1000000000 ∧ (t.loc.offset = 0 ∨ t.loc.offset = 28800)

end time

/-! ## Go `encoding/json`, as far as the JSON output mode uses it

The encoder and the decoder are modelled on JSON documents as values, not on
their text.  `marshal...` gives the document the encoder writes for a Go value
and `unmarshal...` stores a document into a Go variable, the way `Marshal` and
`Unmarshal` treat the kinds of Go types that occur in `[]Order`: structs
without field tags, strings, `bool`, `int`, slices, and `time.Time` with its
own `MarshalJSON` and `UnmarshalJSON`.  Writing a document as text (with the
indentation chosen by `SetIndent` and the escapes inside strings) and scanning
that text again is taken to give back the same document.  The text of a
timestamp inside its JSON string is modelled character by character.

The decoder compares the key of a member with the field names exactly; Go
also accepts a key that differs from a field name in the case of its letters,
which the encoder never writes. -/

namespace json

/-- A JSON document.  A `number` is a number written without fraction and
exponent, the only kind the encoder writes for an `int`. -/
inductive Value where
  | null : Value
  | bool : Bool → Value
  | number : Int → Value
  | string : String → Value
  | array : List Value → Value
  | object : List (String × Value) → Value

/-- The encoder on the elements of a slice, in order; the first error ends
the encoding. -/
def marshalAll {α : Type} (f : α → Option Value) : List α → Option (List Value)
  | [] => some []
  | a :: as =>
    match f a, marshalAll f as with
    | some v, some vs => some (v :: vs)
    | _, _ => none

/-- The encoder on a slice: `null` for a nil slice, else the array of its
elements.  The slices of `Order` and of `Route` in this program are built by
`append` from a nil slice, so they are nil exactly when they are empty. -/
def marshalSlice {α : Type} (f : α → Option Value) (s : List α) : Option Value :=
  match s with
  | [] => some .null
  | _ =>
    match marshalAll f s with
    | some vs => some (.array vs)
    | none => none

/-- The encoder on a `time.Time`, which implements `json.Marshaler`: the
string of `Time.MarshalJSON`, or its error. -/
def marshalTime (t : time.Time) : Option Value :=
  match t.MarshalJSON with
  | some text => some (.string (String.mk text))
  | none => none

/-- The encoder on a `Location`: an object with the fields in the order of
the struct. -/
def marshalLocation (l : Location) : Value :=
  .object [("Name", .string l.Name), ("Lat", .string l.Lat), ("Lon", .string l.Lon)]

/-- The encoder on a `Route`. -/
def marshalRoute (r : Route) : Option Value :=
  match marshalTime r.CreatedAt, marshalTime r.StartedAt with
  | some createdAt, some startedAt =>
    some (.object
      [("Id", .string r.Id), ("UserId", .string r.UserId), ("CreatedAt", createdAt),
        ("StartedAt", startedAt), ("From", marshalLocation r.From), ("To", marshalLocation r.To),
        ("Passengers", .number r.Passengers), ("Amount", .string r.Amount)])
  | _, _ => none

/-- The encoder on an `Order`. -/
def marshalOrder (o : Order) : Option Value :=
  match marshalSlice marshalRoute o.Routes with
  | some routes =>
    some (.object
      [("Id", .string o.Id), ("Exclusive", .bool o.Exclusive),
        ("TotalPassengers", .number o.TotalPassengers), ("TotalAmount", .string o.TotalAmount),
        ("Routes", routes)])
  | none => none

/-- Go `json.Marshal` on a `[]Order`; `none` stands for a non-nil error. -/
def Marshal (orders : List Order) : Option Value := marshalSlice marshalOrder orders

/-- The decoder on a `string`: a JSON string is stored, `null` leaves the
variable as it is, any other value is an error. -/
def unmarshalString (old : String) : Value → Option String
  | .string s => some s
  | .null => some old
  | _ => none

/-- The decoder on a `bool`. -/
def unmarshalBool (old : Bool) : Value → Option Bool
  | .bool b => some b
  | .null => some old
  | _ => none

/-- The decoder on an `int`. -/
def unmarshalInt (old : Int) : Value → Option Int
  | .number n => some n
  | .null => some old
  | _ => none

/-- The decoder on a `time.Time`, which implements `json.Unmarshaler`:
`Time.UnmarshalJSON` leaves the variable as it is for `null`, reads the text
of a string with `parseRFC3339` in the zone of the environment, and reports an
error for any other value.  A text that `parseRFC3339` rejects is an error
here; Go gives such a text a second chance with `Parse(RFC3339, ...)`, which
no text written by `Time.MarshalJSON` needs. -/
def unmarshalTime (localZone : time.Location) (old : time.Time) : Value → Option time.Time
  | .string s => time.parseRFC3339 s.data localZone
  | .null => some old
  | _ => none

/-- The decoder on the members of an object, in order: each member is stored
by `field` into the struct decoded so far; the first error ends the decoding. -/
def unmarshalMembers {α : Type} (field : α → String → Value → Option α) :
    α → List (String × Value) → Option α
  | a, [] => some a
  | a, (key, v) :: members =>
    match field a key v with
    | some a => unmarshalMembers field a members
    | none => none

/-- The decoder on the elements of an array, in order. -/
def unmarshalAll {α : Type} (item : Value → Option α) : List Value → Option (List α)
  | [] => some []
  | v :: vs =>
    match item v, unmarshalAll item vs with
    | some a, some as => some (a :: as)
    | _, _ => none

/-- The decoder on a slice: `null` gives the nil slice, an array gives its
elements, each decoded into a zero element. -/
def unmarshalSlice {α : Type} (item : Value → Option α) : Value → Option (List α)
  | .array items => unmarshalAll item items
  | .null => some []
  | _ => none

/-- One member of an object stored into a `Location`; a key that names no
field is skipped. -/
def locationField (l : Location) (key : String) (v : Value) : Option Location :=
  if key = "Name" then (unmarshalString l.Name v).map (fun s => { l with Name := s })
  else if key = "Lat" then (unmarshalString l.Lat v).map (fun s => { l with Lat := s })
  else if key = "Lon" then (unmarshalString l.Lon v).map (fun s => { l with Lon := s })
  else some l

/-- The decoder on a `Location`. -/
def unmarshalLocation (old : Location) : Value → Option Location
  | .object members => unmarshalMembers locationField old members
  | .null => some old
  | _ => none

/-- One member of an object stored into a `Route`. -/
def routeField (localZone : time.Location) (r : Route) (key : String) (v : Value) :
    Option Route :=
  if key = "Id" then (unmarshalString r.Id v).map (fun s => { r with Id := s })
  else if key = "UserId" then (unmarshalString r.UserId v).map (fun s => { r with UserId := s })
  else if key = "CreatedAt" then
    (unmarshalTime localZone r.CreatedAt v).map (fun t => { r with CreatedAt := t })
  else if key = "StartedAt" then
    (unmarshalTime localZone r.StartedAt v).map (fun t => { r with StartedAt := t })
  else if key = "From" then (unmarshalLocation r.From v).map (fun l => { r with From := l })
  else if key = "To" then (unmarshalLocation r.To v).map (fun l => { r with To := l })
  else if key = "Passengers" then
    (unmarshalInt r.Passengers v).map (fun n => { r with Passengers := n })
  else if key = "Amount" then (unmarshalString r.Amount v).map (fun s => { r with Amount := s })
  else some r

/-- The decoder on a `Route`. -/
def unmarshalRoute (localZone : time.Location) (old : Route) : Value → Option Route
  | .object members => unmarshalMembers (routeField localZone) old members
  | .null => some old
  | _ => none

/-- The zero value of `Route`. -/
def zeroRoute : Route := ⟨"", "", time.Time.zero, time.Time.zero, ⟨"", "", ""⟩, ⟨"", "", ""⟩, 0, ""⟩

/-- One member of an object stored into an `Order`. -/
def orderField (localZone : time.Location) (o : Order) (key : String) (v : Value) :
    Option Order :=
  if key = "Id" then (unmarshalString o.Id v).map (fun s => { o with Id := s })
  else if key = "Exclusive" then
    (unmarshalBool o.Exclusive v).map (fun b => { o with Exclusive := b })
  else if key = "TotalPassengers" then
    (unmarshalInt o.TotalPassengers v).map (fun n => { o with TotalPassengers := n })
  else if key = "TotalAmount" then
    (unmarshalString o.TotalAmount v).map (fun s => { o with TotalAmount := s })
  else if key = "Routes" then
    (unmarshalSlice (unmarshalRoute localZone zeroRoute) v).map (fun rs => { o with Routes := rs })
  else some o

/-- The decoder on an `Order`. -/
def unmarshalOrder (localZone : time.Location) (old : Order) : Value → Option Order
  | .object members => unmarshalMembers (orderField localZone) old members
  | .null => some old
  | _ => none

/-- The zero value of `Order`. -/
def zeroOrder : Order := ⟨"", false, 0, "", []⟩

/-- Go `json.Unmarshal` into a nil `[]Order`; `none` stands for a non-nil
error. -/
def Unmarshal (localZone : time.Location) (v : Value) : Option (List Order) :=
  unmarshalSlice (unmarshalOrder localZone zeroOrder) v

end json

namespace Main

/-- The document written by `e.Encode(orders)` in the JSON output mode.  When
`Encode` fails, `main` drops the error and nothing has been written: `none`. -/
def jsonOutput (orders : List Order) : Option json.Value := json.Marshal orders

/-- The JSON output decoded back into a `[]Order`; `none` when there is no
output to decode or the decoder reports an error. -/
def decodeOutput (localZone : time.Location) (orders : List Order) : Option (List Order) :=
  match jsonOutput orders with
  | some doc => json.Unmarshal localZone doc
  | none => none

end Main

/-- Two routes are equal field for field, their timestamps as instants. -/
def Route.same (a b : Route) : Prop :=
  a.Id = b.Id ∧ a.UserId = b.UserId ∧ a.CreatedAt.Equal b.CreatedAt = true
    ∧ a.StartedAt.Equal b.StartedAt = true ∧ a.From = b.From ∧ a.To = b.To
    ∧ a.Passengers = b.Passengers ∧ a.Amount = b.Amount

/-- Two orders are equal field for field, their routes pairwise the same. -/
def Order.same (a b : Order) : Prop :=
  a.Id = b.Id ∧ a.Exclusive = b.Exclusive ∧ a.TotalPassengers = b.TotalPassengers
    ∧ a.TotalAmount = b.TotalAmount ∧ List.Forall₂ Route.same a.Routes b.Routes

/-- A completed raw record accepted on the last second of year 9999 for a
departure on January 1 at 00:00. -/
def lateRecord : originalOrder :=
  .mk { (rawRecord "9999-12-31 23:59:59" "01月01日 00:00").fields with OrderID := "Z", Status := "4" }
    []

namespace time

/-- The nanoseconds named by what follows the seconds in a text: nothing, or a
period or comma and digits. -/
def fractionNanos (frac : List Char) : Int :=
  match frac with
  | [] => 0
  | _ :: ds => parseNanoseconds ds

end time

/-! ## The normaliser: `toOrders` -/

theorem foldl_append_if {α β : Type} (p : α → Bool) (f : α → β) (init : List β) (xs : List α) :
    xs.foldl (fun acc x => if p x = true then acc ++ [f x] else acc) init
      = init ++ (xs.filter p).map f := by
  induction xs generalizing init with
  | nil => simp
  | cons x xs ih =>
    rw [List.foldl_cons, ih]
    cases hp : p x <;> simp [List.filter_cons, hp]

theorem foldl_add_eq_sum (f : Route → Int) (init : Int) (rs : List Route) :
    rs.foldl (fun total r => total + f r) init = init + (rs.map f).sum := by
  induction rs generalizing init with
  | nil => simp
  | cons r rs ih => rw [List.foldl_cons, ih]; simp [add_assoc]

theorem filter_eq_nil_of_any_false {α : Type} (p : α → Bool) (xs : List α)
    (h : xs.any p = false) : xs.filter p = [] := by
  rw [List.filter_eq_nil_iff]
  intro x hx hpx
  rw [List.any_eq_false] at h
  exact h x hx hpx

theorem filter_ne_nil_of_any_true {α : Type} (p : α → Bool) (xs : List α)
    (h : xs.any p = true) : xs.filter p ≠ [] := by
  obtain ⟨x, hx, hpx⟩ := List.any_eq_true.mp h
  exact List.ne_nil_of_mem (List.mem_filter.mpr ⟨hx, hpx⟩)

/-- The routes of a raw record, without the loop. -/
theorem routes_eq (order : originalOrder) :
    order.routes =
      if order.OrderGroup.any originalOrder.hasStatus4 = true then
        order.completedGroup.map originalOrder.toRoute
      else if order.hasStatus4 = true then [order.toRoute] else [] := by
  have h := foldl_append_if originalOrder.hasStatus4 originalOrder.toRoute [] order.OrderGroup
  simp only [originalOrder.hasStatus4, decide_eq_true_eq, List.nil_append] at h
  unfold originalOrder.routes
  simp only [h, originalOrder.completedGroup]
  cases hany : order.OrderGroup.any originalOrder.hasStatus4
  · have hnil := filter_eq_nil_of_any_false _ _ hany
    simp only [originalOrder.hasStatus4] at hnil
    simp [hnil, originalOrder.hasStatus4]
  · have hne := filter_ne_nil_of_any_true _ _ hany
    simp only [originalOrder.hasStatus4] at hne
    simp [hne, originalOrder.hasStatus4]

theorem routes_eq_nil_iff (order : originalOrder) :
    order.routes = [] ↔ order.qualifies = false := by
  rw [routes_eq]
  unfold originalOrder.qualifies originalOrder.completedGroup
  cases hany : order.OrderGroup.any originalOrder.hasStatus4
  · cases hs : order.hasStatus4 <;> simp
  · have hne := filter_ne_nil_of_any_true _ _ hany
    simp [hne]

/-- The orders of a page, without the loop: the qualifying raw records, each
turned into its order. -/
theorem toOrders_Orders_eq (o : originalOrders) :
    o.toOrders.Orders = (o.Orders.filter originalOrder.qualifies).map originalOrder.toOrder := by
  have h := foldl_append_if originalOrder.qualifies originalOrder.toOrder [] o.Orders
  rw [List.nil_append] at h
  rw [← h]
  unfold originalOrders.toOrders
  simp only
  congr 1
  funext orders order
  have hq := routes_eq_nil_iff order
  by_cases hr : order.routes = []
  · have : order.qualifies = false := hq.mp hr
    simp [hr, this]
  · have : order.qualifies = true := by
      cases hc : order.qualifies
      · exact absurd (hq.mpr hc) hr
      · rfl
    simp [hr, this, originalOrder.toOrder, foldl_add_eq_sum]

/-- C1: every order in the output of `toOrders` has `TotalPassengers` equal to
the sum of the `Passengers` of the routes in its `Routes`. -/
theorem toOrders_totalPassengers (o : originalOrders) :
    ∀ order ∈ o.toOrders.Orders,
      order.TotalPassengers = (order.Routes.map Route.Passengers).sum := by
  intro order horder
  rw [toOrders_Orders_eq, List.mem_map] at horder
  obtain ⟨raw, -, rfl⟩ := horder
  rfl

/-- The first order of the sample page, an instance of C1. -/
theorem toOrders_totalPassengers_witness :
    (sampleRecord "A" "4" ["3人", "2人"] []).toOrder ∈ samplePage.toOrders.Orders
      ∧ (sampleRecord "A" "4" ["3人", "2人"] []).toOrder.TotalPassengers
          = (((sampleRecord "A" "4" ["3人", "2人"] []).toOrder.Routes).map Route.Passengers).sum :=
  ⟨by decide, toOrders_totalPassengers samplePage _ (by decide)⟩

/-- C2: the orders returned by `toOrders` correspond one to one, in the same
relative order, to the raw records that have a status-"4" member in their
order group or carry the status "4" themselves, each order taking its `Id`
from the `order_id` of its raw record; every other raw record is dropped, and
the output has at most as many orders as the page has raw records. -/
theorem toOrders_keeps_qualifying (o : originalOrders) :
    List.Forall₂ (fun (raw : originalOrder) (order : Order) => order.Id = raw.OrderID)
        (o.Orders.filter originalOrder.qualifies) o.toOrders.Orders
      ∧ o.toOrders.Orders.map Order.Id
          = (o.Orders.filter originalOrder.qualifies).map originalOrder.OrderID
      ∧ o.toOrders.Orders.length
          = o.Orders.length - (o.Orders.filter (fun raw => !raw.qualifies)).length
      ∧ o.toOrders.Orders.length ≤ o.Orders.length := by
  rw [toOrders_Orders_eq]
  refine ⟨?_, ?_, ?_, ?_⟩
  · rw [List.forall₂_map_right_iff]
    exact List.forall₂_same.mpr (fun _ _ => rfl)
  · rw [List.map_map]
    rfl
  · have h := List.length_eq_length_filter_add originalOrder.qualifies (l := o.Orders)
    rw [List.length_map]
    omega
  · rw [List.length_map]
    exact List.length_filter_le _ _

/-- C3: for every raw record kept by `toOrders`, the `Routes` of its order are
the `toRoute` conversions of the status-"4" members of the order group, in the
order of the group, when there is such a member (the record itself then adds
no route, whatever its status), and the single route `toRoute` of the record
itself when there is none. -/
theorem toOrders_routes (o : originalOrders) :
    List.Forall₂
      (fun (raw : originalOrder) (order : Order) =>
        (raw.OrderGroup.any originalOrder.hasStatus4 = true →
          order.Routes = (raw.OrderGroup.filter originalOrder.hasStatus4).map
            originalOrder.toRoute)
        ∧ (raw.OrderGroup.any originalOrder.hasStatus4 = false →
          raw.hasStatus4 = true ∧ order.Routes = [raw.toRoute]))
      (o.Orders.filter originalOrder.qualifies) o.toOrders.Orders := by
  rw [toOrders_Orders_eq, List.forall₂_map_right_iff]
  refine List.forall₂_same.mpr (fun raw hraw => ?_)
  have hq : raw.qualifies = true := (List.mem_filter.mp hraw).2
  have hr := routes_eq raw
  constructor
  · intro hany
    show raw.routes = _
    rw [hr, if_pos hany]
    rfl
  · intro hany
    have hs : raw.hasStatus4 = true := by
      unfold originalOrder.qualifies at hq
      rw [hany, Bool.false_or] at hq
      exact hq
    refine ⟨hs, ?_⟩
    show raw.routes = _
    rw [hr, hany, if_pos hs]
    simp

/-! ## Calendar arithmetic: `Date` and `absDate` are inverse to each other -/

namespace time

theorem isLeap_iff (y : Int) : isLeap y = true ↔ (y % 4 = 0 ∧ (y % 100 ≠ 0 ∨ y % 400 = 0)) := by
  simp [isLeap]

theorem cut1 (e yd : Int) (he0 : 0 ≤ e) (he : e < 4) (hyd0 : 0 ≤ yd)
    (hyd : yd < 365 ∨ (yd = 365 ∧ e = 3)) :
    (365 * e + yd) / 365 - (365 * e + yd) / 365 / 4 = e := by
  omega

theorem cut4 (c r : Int) (hr0 : 0 ≤ r) (hr : r < 1461) :
    (1461 * c + r) / 1461 = c := by
  omega

theorem cut100 (b r : Int) (hb0 : 0 ≤ b) (hb : b < 4) (hr0 : 0 ≤ r)
    (hr : r < 36524 ∨ (r = 36524 ∧ b = 3)) :
    (36524 * b + r) / 36524 - (36524 * b + r) / 36524 / 4 = b := by
  omega

theorem cut400 (a r : Int) (hr0 : 0 ≤ r) (hr : r < 146097) :
    (146097 * a + r) / 146097 = a := by
  omega

theorem absYday_decomp (a b c e yd s : Int) (hb0 : 0 ≤ b) (hb : b < 4)
    (hc0 : 0 ≤ c) (hc : c < 25) (he0 : 0 ≤ e) (he : e < 4) (hyd0 : 0 ≤ yd)
    (hyd : yd < 365 ∨ (yd = 365 ∧ e = 3 ∧ (c ≠ 24 ∨ b = 3)))
    (hs0 : 0 ≤ s) (hs : s < 86400) :
    absYday ((146097 * a + 36524 * b + 1461 * c + 365 * e + yd) * 86400 + s) =
      (absoluteZeroYear + 400 * a + 100 * b + 4 * c + e, yd) := by
  unfold absYday
  simp only [daysPer400Years, daysPer100Years, daysPer4Years, absoluteZeroYear, secondsPerDay,
    secondsPerHour, secondsPerMinute]
  norm_num
  have h0 : ((146097 * a + 36524 * b + 1461 * c + 365 * e + yd) * 86400 + s) / 86400
      = 146097 * a + (36524 * b + (1461 * c + (365 * e + yd))) := by omega
  rw [h0, cut400 a _ (by omega) (by omega)]
  have h2 : 146097 * a + (36524 * b + (1461 * c + (365 * e + yd))) - 146097 * a
      = 36524 * b + (1461 * c + (365 * e + yd)) := by omega
  rw [h2, cut100 b _ hb0 hb (by omega) (by omega)]
  have h4 : 36524 * b + (1461 * c + (365 * e + yd)) - 36524 * b
      = 1461 * c + (365 * e + yd) := by omega
  rw [h4, cut4 c _ (by omega) (by omega)]
  have h6 : 1461 * c + (365 * e + yd) - 1461 * c = 365 * e + yd := by omega
  rw [h6, cut1 e yd he0 he hyd0 (by omega)]
  constructor <;> omega

theorem daysSinceEpoch_decomp (y : Int) :
    ∃ a b c e : Int, 0 ≤ b ∧ b < 4 ∧ 0 ≤ c ∧ c < 25 ∧ 0 ≤ e ∧ e < 4 ∧
      y = absoluteZeroYear + 400 * a + 100 * b + 4 * c + e ∧
      daysSinceEpoch y = 146097 * a + 36524 * b + 1461 * c + 365 * e := by
  unfold daysSinceEpoch
  simp only [daysPer400Years, daysPer100Years, daysPer4Years, absoluteZeroYear] at *
  generalize hY : y - -292277022399 = Y
  generalize ha : Y / 400 = a
  have ha1 : 400 * a ≤ Y ∧ Y < 400 * a + 400 := by omega
  clear ha
  generalize hr : Y - 400 * a = r at *
  generalize hb : r / 100 = b
  have hb1 : 100 * b ≤ r ∧ r < 100 * b + 100 := by omega
  clear hb
  generalize hr2 : r - 100 * b = r2 at *
  generalize hc : r2 / 4 = c
  have hc1 : 4 * c ≤ r2 ∧ r2 < 4 * c + 4 := by omega
  clear hc
  exact ⟨a, b, c, r2 - 4 * c, by omega, by omega, by omega, by omega, by omega, by omega,
    by omega, by omega⟩

theorem isLeap_decomp (a b c e : Int) (hb0 : 0 ≤ b) (hb : b < 4) (hc0 : 0 ≤ c) (hc : c < 25)
    (he0 : 0 ≤ e) (he : e < 4) :
    isLeap (absoluteZeroYear + 400 * a + 100 * b + 4 * c + e) = true
      ↔ (e = 3 ∧ (c ≠ 24 ∨ b = 3)) := by
  rw [isLeap_iff]
  simp only [absoluteZeroYear]
  omega

/-- The year and the day of the year are read back from the absolute second
count of day `yd` (from 0) of year `y`. -/
theorem absYday_of_year (y yd s : Int) (hyd0 : 0 ≤ yd)
    (hyd : yd < 365 ∨ (yd = 365 ∧ isLeap y = true)) (hs0 : 0 ≤ s) (hs : s < 86400) :
    absYday ((daysSinceEpoch y + yd) * 86400 + s) = (y, yd) := by
  obtain ⟨a, b, c, e, hb0, hb, hc0, hc, he0, he, hy, hd⟩ := daysSinceEpoch_decomp y
  have hl := isLeap_decomp a b c e hb0 hb hc0 hc he0 he
  rw [← hy] at hl
  rw [hd, absYday_decomp a b c e yd s hb0 hb hc0 hc he0 he hyd0 ?_ hs0 hs, ← hy]
  rcases hyd with h | ⟨h1, h2⟩
  · exact Or.inl h
  · exact Or.inr ⟨h1, hl.mp h2⟩

theorem norm_id (hi lo base : Int) (h0 : 0 ≤ lo) (h1 : lo < base) : norm hi lo base = (hi, lo) := by
  unfold norm
  simp only [not_lt.mpr h0, if_false, ge_iff_le, not_le.mpr h1]

theorem Date_abs (y m d h mi s ns : Int) (loc : Location) (hm0 : 1 ≤ m) (hm : m ≤ 12)
    (hh0 : 0 ≤ h) (hh : h < 24) (hmi0 : 0 ≤ mi) (hmi : mi < 60) (hs0 : 0 ≤ s) (hs : s < 60)
    (hns0 : 0 ≤ ns) (hns : ns < 1000000000) :
    (Date y m d h mi s ns loc).abs
      = (daysSinceEpoch y + ydayOf y m d) * 86400 + (h * 3600 + mi * 60 + s)
    ∧ (Date y m d h mi s ns loc).nsec = ns ∧ (Date y m d h mi s ns loc).loc = loc := by
  unfold Date Time.abs
  simp only [norm_id y (m - 1) 12 (by omega) (by omega), norm_id s ns 1000000000 hns0 hns,
    norm_id mi s 60 hs0 hs, norm_id h mi 60 hmi0 hmi, norm_id d h 24 hh0 hh, ydayOf,
    secondsPerDay, secondsPerHour, secondsPerMinute, and_true]
  have e1 : m - 1 + 1 = m := by omega
  rw [e1]
  split_ifs <;> ring

theorem daysIn_le (m y : Int) (hm0 : 1 ≤ m) (hm : m ≤ 12) : daysIn m y ≤ daysIn m 0 := by
  have h0 : isLeap 0 = true := by decide
  unfold daysIn
  rw [h0]
  cases isLeap y <;> interval_cases m <;> simp [daysBefore]

theorem ydayOf_bounds (y m d : Int) (hm0 : 1 ≤ m) (hm : m ≤ 12) (hd0 : 1 ≤ d)
    (hd : d ≤ daysIn m 0) :
    0 ≤ ydayOf y m d ∧ (ydayOf y m d < 365 ∨ (ydayOf y m d = 365 ∧ isLeap y = true)) := by
  have h0 : isLeap 0 = true := by decide
  unfold daysIn at hd
  rw [h0] at hd
  unfold ydayOf
  cases isLeap y <;> interval_cases m <;> simp [daysBefore] at hd ⊢ <;> omega

theorem monthDay_of_day (m d day : Int) (hm0 : 1 ≤ m) (hm : m ≤ 12) (hd0 : 1 ≤ d)
    (hd : d ≤ daysBefore m - daysBefore (m - 1)) (hday : day = daysBefore (m - 1) + (d - 1)) :
    (if day ≥ daysBefore (day / 31 + 1) then (day / 31 + 1, daysBefore (day / 31 + 1))
      else (day / 31, daysBefore (day / 31))) = (m - 1, daysBefore (m - 1)) := by
  have hq : day / 31 = m - 2 ∨ day / 31 = m - 1 := by
    interval_cases m <;> simp [daysBefore] at hd hday <;> omega
  rcases hq with hq | hq <;> rw [hq] <;> interval_cases m <;>
    simp [daysBefore] at hd hday hq ⊢ <;> omega

/-- The calendar date read back from day `d` of month `m` of year `y`, for a
day that exists in that month of that year. -/
theorem absDate_of_date (y m d s : Int) (hm0 : 1 ≤ m) (hm : m ≤ 12) (hd0 : 1 ≤ d)
    (hd : d ≤ daysIn m y) (hs0 : 0 ≤ s) (hs : s < 86400) :
    absDate ((daysSinceEpoch y + ydayOf y m d) * 86400 + s) = (y, m, d, ydayOf y m d) := by
  obtain ⟨hb0, hb⟩ := ydayOf_bounds y m d hm0 hm hd0 (le_trans hd (daysIn_le m y hm0 hm))
  unfold absDate
  rw [absYday_of_year y _ s hb0 hb hs0 hs]
  simp only
  have hB1 : 0 ≤ daysBefore (m - 1) := by interval_cases m <;> simp [daysBefore]
  have hB2 : m ≥ 3 → 59 ≤ daysBefore (m - 1) := by
    intro h3; interval_cases m <;> simp [daysBefore] at h3 ⊢
  have hB3 : m ≤ 2 → daysBefore (m - 1) + (d - 1) ≤ 59 := by
    intro h2
    have := le_trans hd (daysIn_le m y hm0 hm)
    interval_cases m <;> simp [daysBefore, daysIn] at this ⊢ <;> omega
  unfold daysIn at hd
  by_cases hF : isLeap y = true ∧ ydayOf y m d = 31 + 29 - 1
  · rw [if_pos hF]
    obtain ⟨hl, hy⟩ := hF
    have hm2 : m = 2 := by
      unfold ydayOf at hy
      rw [hl] at hy
      by_cases h3 : m ≥ 3
      · have := hB2 h3
        simp [h3] at hy
        omega
      · interval_cases m
        · simp [daysBefore] at hy hd
          omega
        · rfl
    subst hm2
    have hd29 : d = 29 := by
      simp [ydayOf, daysBefore] at hy
      omega
    rw [hd29]
  · rw [if_neg hF]
    have key := monthDay_of_day m d (daysBefore (m - 1) + (d - 1)) hm0 hm hd0
    by_cases hl : isLeap y = true
    · by_cases h3 : m ≥ 3
      · have hd' : d ≤ daysBefore m - daysBefore (m - 1) := by
          rw [if_neg (by omega)] at hd; exact hd
        have hB := hB2 h3
        have hy : ydayOf y m d = daysBefore (m - 1) + (d - 1) + 1 := by
          simp [ydayOf, hl, h3]; ring
        have hgt : ydayOf y m d > 31 + 29 - 1 := by omega
        rw [if_pos (show isLeap y = true ∧ ydayOf y m d > 31 + 29 - 1 from ⟨hl, hgt⟩)]
        have e : ydayOf y m d - 1 = daysBefore (m - 1) + (d - 1) := by omega
        rw [e]
        have := key hd' rfl
        simp only [ge_iff_le] at this ⊢
        rw [this]
        simp only
        refine Prod.ext rfl (Prod.ext (by simp) (Prod.ext (by simp) rfl))
      · have h2 : m ≤ 2 := by omega
        have hy : ydayOf y m d = daysBefore (m - 1) + (d - 1) := by
          simp [ydayOf, hl, h3]
        have hne : ydayOf y m d ≠ 31 + 29 - 1 := fun h => hF ⟨hl, h⟩
        have hle := hB3 h2
        have hd' : d ≤ daysBefore m - daysBefore (m - 1) := by
          interval_cases m
          · simpa [daysBefore] using hd
          · simp [daysBefore, hl] at hd hy ⊢
            omega
        have hngt : ¬ (isLeap y = true ∧ ydayOf y m d > 31 + 29 - 1) := by
          intro h; omega
        rw [if_neg hngt, hy]
        have := key hd' rfl
        simp only [ge_iff_le] at this ⊢
        rw [this]
        simp only
        refine Prod.ext rfl (Prod.ext (by simp) (Prod.ext (by simp) rfl))
    · have hd' : d ≤ daysBefore m - daysBefore (m - 1) := by
        rw [if_neg (show ¬ (m = 2 ∧ isLeap y = true) from fun h => hl h.2)] at hd; exact hd
      have hy : ydayOf y m d = daysBefore (m - 1) + (d - 1) := by
        simp [ydayOf, hl]
      rw [if_neg (show ¬ (isLeap y = true ∧ ydayOf y m d > 31 + 29 - 1) from fun h => hl h.1), hy]
      have := key hd' rfl
      simp only [ge_iff_le] at this ⊢
      rw [this]
      simp only
      refine Prod.ext rfl (Prod.ext (by simp) (Prod.ext (by simp) rfl))

/-! ## What `parse` returns -/

theorem digitVal_bounds (c : Char) (h : isDigit c = true) : 0 ≤ digitVal c ∧ digitVal c ≤ 9 := by
  unfold isDigit at h
  simp only [Bool.and_eq_true, decide_eq_true_eq] at h
  obtain ⟨h1, h2⟩ := h
  have h1' : (48 : Nat) ≤ c.toNat := h1
  have h2' : c.toNat ≤ 57 := h2
  unfold digitVal
  omega

theorem foldl_digits (acc : Int) (ds : List Char) :
    ds.foldl (fun acc c => acc * 10 + digitVal c) acc = acc * 10 ^ ds.length + digitsVal ds := by
  induction ds generalizing acc with
  | nil => simp [digitsVal]
  | cons c ds ih =>
    unfold digitsVal
    rw [List.foldl_cons, List.foldl_cons, ih, ih (0 * 10 + digitVal c), List.length_cons, pow_succ]
    ring

theorem digitsVal_cons (c : Char) (ds : List Char) :
    digitsVal (c :: ds) = digitVal c * 10 ^ ds.length + digitsVal ds := by
  unfold digitsVal
  rw [List.foldl_cons, foldl_digits]
  simp [digitsVal]

theorem digitsVal_bounds (ds : List Char) (h : ∀ c ∈ ds, isDigit c = true) :
    0 ≤ digitsVal ds ∧ digitsVal ds < 10 ^ ds.length := by
  induction ds with
  | nil => simp [digitsVal]
  | cons c ds ih =>
    have hc := digitVal_bounds c (h c (List.mem_cons_self c ds))
    have hds := ih (fun x hx => h x (List.mem_cons_of_mem c hx))
    rw [digitsVal_cons, List.length_cons, pow_succ]
    have hp : (0 : Int) < 10 ^ ds.length := by positivity
    constructor
    · nlinarith [hc.1, hds.1]
    · nlinarith [hc.2, hds.2]

theorem parseNanoseconds_bounds (ds : List Char) (h : ∀ c ∈ ds, isDigit c = true) :
    0 ≤ parseNanoseconds ds ∧ parseNanoseconds ds < 1000000000 := by
  unfold parseNanoseconds
  simp only
  obtain ⟨k, hk⟩ : ∃ k, k = min (1 + ds.length) 10 - 1 := ⟨_, rfl⟩
  have hk9 : k ≤ 9 := by omega
  have hkl : k ≤ ds.length := by omega
  have hb := digitsVal_bounds (ds.take k) (fun c hc => h c (List.mem_of_mem_take hc))
  rw [List.length_take, min_eq_left hkl] at hb
  have e : 10 - min (1 + ds.length) 10 = 9 - k := by omega
  rw [← hk, e]
  have hp : (0 : Int) < 10 ^ (9 - k) := by positivity
  have hpk : (10 : Int) ^ k * 10 ^ (9 - k) = 1000000000 := by
    rw [← pow_add]
    have : k + (9 - k) = 9 := by omega
    rw [this]
    norm_num
  constructor
  · exact mul_nonneg hb.1 (le_of_lt hp)
  · calc digitsVal (List.take k ds) * 10 ^ (9 - k) < 10 ^ k * 10 ^ (9 - k) :=
          mul_lt_mul_of_pos_right hb.2 hp
      _ = 1000000000 := hpk

theorem parseStd_ok (std : StdChunk) (f f' : Fields) (v v' : List Char) (hf : f.ok)
    (h : parseStd std f v = some (f', v')) : f'.ok := by
  have key : ∀ (d : Char) (r : List Char), isDigit d = true →
      0 ≤ parseNanoseconds (d :: r.takeWhile isDigit)
        ∧ parseNanoseconds (d :: r.takeWhile isDigit) < 1000000000 := by
    intro d r hd
    refine parseNanoseconds_bounds _ (fun c hc => ?_)
    rcases List.mem_cons.mp hc with rfl | hc
    · exact hd
    · exact List.mem_takeWhile_imp hc
  unfold Fields.ok at hf ⊢
  cases std <;> simp only [parseStd] at h
  · split at h
    · split at h
      · simp only [Option.some.injEq, Prod.mk.injEq] at h
        obtain ⟨rfl, -⟩ := h
        exact hf
      · exact absurd h (by simp)
    · exact absurd h (by simp)
  · split at h
    · split at h
      · exact absurd h (by simp)
      · simp only [Option.some.injEq, Prod.mk.injEq] at h
        obtain ⟨rfl, -⟩ := h
        simp only
        omega
    · exact absurd h (by simp)
  · split at h
    · simp only [Option.some.injEq, Prod.mk.injEq] at h
      obtain ⟨rfl, -⟩ := h
      exact hf
    · exact absurd h (by simp)
  · split at h
    · split at h
      · exact absurd h (by simp)
      · simp only [Option.some.injEq, Prod.mk.injEq] at h
        obtain ⟨rfl, -⟩ := h
        simp only
        omega
    · exact absurd h (by simp)
  · split at h
    · split at h
      · exact absurd h (by simp)
      · simp only [Option.some.injEq, Prod.mk.injEq] at h
        obtain ⟨rfl, -⟩ := h
        simp only
        omega
    · exact absurd h (by simp)
  · split at h
    · split at h
      · exact absurd h (by simp)
      · split at h
        · split at h
          · simp only [Option.some.injEq, Prod.mk.injEq] at h
            obtain ⟨rfl, -⟩ := h
            rename_i d r _ hcd
            simp only [Bool.and_eq_true] at hcd
            have hb := key d r hcd.2
            simp only
            omega
          · simp only [Option.some.injEq, Prod.mk.injEq] at h
            obtain ⟨rfl, -⟩ := h
            simp only
            omega
        · simp only [Option.some.injEq, Prod.mk.injEq] at h
          obtain ⟨rfl, -⟩ := h
          simp only
          omega
    · exact absurd h (by simp)

theorem parseChunks_ok (chunks : List (List Char × StdChunk)) (f f' : Fields) (v v' : List Char)
    (hf : f.ok) (h : parseChunks chunks f v = some (f', v')) : f'.ok := by
  induction chunks generalizing f v with
  | nil =>
    simp only [parseChunks, Option.some.injEq, Prod.mk.injEq] at h
    obtain ⟨rfl, -⟩ := h
    exact hf
  | cons c chunks ih =>
    obtain ⟨pre, std⟩ := c
    simp only [parseChunks] at h
    split at h
    · exact absurd h (by simp)
    · split at h
      · exact absurd h (by simp)
      · rename_i hstd
        exact ih _ _ (parseStd_ok _ _ _ _ _ hf hstd) h

/-- A time that `parse` returns is `Date` applied to a valid calendar date and
a valid clock time. -/
theorem parse_eq_Date (layout : Layout) (value : List Char) (loc : Location) (t : Time)
    (h : parse layout value loc = some t) :
    ∃ y m d hh mi s ns : Int, t = Date y m d hh mi s ns loc ∧ 1 ≤ m ∧ m ≤ 12 ∧ 1 ≤ d ∧
      d ≤ daysIn m y ∧ 0 ≤ hh ∧ hh < 24 ∧ 0 ≤ mi ∧ mi < 60 ∧ 0 ≤ s ∧ s < 60 ∧ 0 ≤ ns ∧
      ns < 1000000000 := by
  unfold parse at h
  split at h
  · exact absurd h (by simp)
  · rename_i f v hchunks
    have hok : f.ok := parseChunks_ok _ _ _ _ _ (by unfold Fields.ok Fields.init; decide) hchunks
    unfold Fields.ok at hok
    split at h
    · exact absurd h (by simp)
    · split at h
      · exact absurd h (by simp)
      · dsimp only at h
        generalize hm : (if f.month < 0 then 1 else f.month) = m at h
        generalize hd : (if f.day < 0 then 1 else f.day) = d at h
        split at h
        · exact absurd h (by simp)
        · rename_i hday
          simp only [Option.some.injEq] at h
          refine ⟨_, _, _, _, _, _, _, h.symm, ?_⟩
          split_ifs at hm <;> omega

theorem absDate_fst (abs : Int) : (absDate abs).1 = (absYday abs).1 := by
  unfold absDate
  simp only
  split_ifs <;> rfl

/-- The year and the clock time read back from `Date`, for a month and a day
that exist in a leap year and a valid clock time. -/
theorem Date_Year (y m d h mi s ns : Int) (loc : Location) (hm0 : 1 ≤ m) (hm : m ≤ 12)
    (hd0 : 1 ≤ d) (hd : d ≤ daysIn m 0)
    (hh0 : 0 ≤ h) (hh : h < 24) (hmi0 : 0 ≤ mi) (hmi : mi < 60) (hs0 : 0 ≤ s) (hs : s < 60)
    (hns0 : 0 ≤ ns) (hns : ns < 1000000000) :
    (Date y m d h mi s ns loc).Year = y ∧ (Date y m d h mi s ns loc).Hour = h
      ∧ (Date y m d h mi s ns loc).Minute = mi ∧ (Date y m d h mi s ns loc).Second = s := by
  obtain ⟨habs, -, -⟩ := Date_abs y m d h mi s ns loc hm0 hm hh0 hh hmi0 hmi hs0 hs hns0 hns
  obtain ⟨hb0, hb⟩ := ydayOf_bounds y m d hm0 hm hd0 hd
  unfold Time.Year Time.Hour Time.Minute Time.Second
  rw [absDate_fst, habs, absYday_of_year y _ _ hb0 hb (by omega) (by omega)]
  simp only [secondsPerDay, secondsPerHour, secondsPerMinute]
  refine ⟨?_, ?_, ?_, ?_⟩ <;> first | trivial | omega

/-- The month and the day read back from `Date`, for a day that exists in
that month of that year. -/
theorem Date_Month_Day (y m d h mi s ns : Int) (loc : Location) (hm0 : 1 ≤ m) (hm : m ≤ 12)
    (hd0 : 1 ≤ d) (hd : d ≤ daysIn m y)
    (hh0 : 0 ≤ h) (hh : h < 24) (hmi0 : 0 ≤ mi) (hmi : mi < 60) (hs0 : 0 ≤ s) (hs : s < 60)
    (hns0 : 0 ≤ ns) (hns : ns < 1000000000) :
    (Date y m d h mi s ns loc).Month = m ∧ (Date y m d h mi s ns loc).Day = d := by
  obtain ⟨habs, -, -⟩ := Date_abs y m d h mi s ns loc hm0 hm hh0 hh hmi0 hmi hs0 hs hns0 hns
  unfold Time.Month Time.Day
  rw [habs, absDate_of_date y m d _ hm0 hm hd0 hd (by omega) (by omega)]
  exact ⟨rfl, rfl⟩

/-- February 29 of a year that is not a leap year is March 1 of that year. -/
theorem Date_feb29 (y h mi s ns : Int) (loc : Location) (hl : isLeap y = false)
    (hh0 : 0 ≤ h) (hh : h < 24) (hmi0 : 0 ≤ mi) (hmi : mi < 60) (hs0 : 0 ≤ s) (hs : s < 60)
    (hns0 : 0 ≤ ns) (hns : ns < 1000000000) :
    Date y 2 29 h mi s ns loc = Date y 3 1 h mi s ns loc := by
  unfold Date
  simp only [norm_id y _ 12 (by omega : (0 : Int) ≤ 2 - 1) (by omega),
    norm_id y _ 12 (by omega : (0 : Int) ≤ 3 - 1) (by omega), norm_id s ns 1000000000 hns0 hns,
    norm_id mi s 60 hs0 hs, norm_id h mi 60 hmi0 hmi, norm_id _ h 24 hh0 hh]
  simp [hl, daysBefore]
  left
  ring

theorem zero_eq_Date : Time.zero = Date 1 1 1 0 0 0 0 UTC := by decide

/-- The time kept from `ParseInLocation`, the parsed one or the zero time, is
`Date` applied to a valid calendar date and a valid clock time. -/
theorem ParseInLocation_eq_Date (layout : Layout) (value : String) (loc : Location) :
    ∃ (y m d hh mi s ns : Int) (loc' : Location),
      ParseInLocation layout value loc = Date y m d hh mi s ns loc' ∧ 1 ≤ m ∧ m ≤ 12 ∧ 1 ≤ d ∧
      d ≤ daysIn m y ∧ 0 ≤ hh ∧ hh < 24 ∧ 0 ≤ mi ∧ mi < 60 ∧ 0 ≤ s ∧ s < 60 ∧ 0 ≤ ns ∧
      ns < 1000000000 := by
  unfold ParseInLocation
  cases h : parse layout value.data loc with
  | none =>
    exact ⟨1, 1, 1, 0, 0, 0, 0, UTC, zero_eq_Date, by decide⟩
  | some t =>
    obtain ⟨y, m, d, hh, mi, s, ns, ht, hr⟩ := parse_eq_Date layout value.data loc t h
    exact ⟨y, m, d, hh, mi, s, ns, loc, ht, hr⟩

/-- The accessors of a time kept from `ParseInLocation` are in range. -/
theorem ParseInLocation_ranges (layout : Layout) (value : String) (loc : Location) :
    1 ≤ (ParseInLocation layout value loc).Month ∧ (ParseInLocation layout value loc).Month ≤ 12
    ∧ 1 ≤ (ParseInLocation layout value loc).Day
    ∧ (ParseInLocation layout value loc).Day ≤ daysIn (ParseInLocation layout value loc).Month 0
    ∧ 0 ≤ (ParseInLocation layout value loc).Hour ∧ (ParseInLocation layout value loc).Hour < 24
    ∧ 0 ≤ (ParseInLocation layout value loc).Minute
    ∧ (ParseInLocation layout value loc).Minute < 60 := by
  obtain ⟨y, m, d, hh, mi, s, ns, loc', ht, hm0, hm, hd0, hd, hh0, hh1, hmi0, hmi, hs0, hs, hns0,
    hns⟩ := ParseInLocation_eq_Date layout value loc
  have hd' := le_trans hd (daysIn_le m y hm0 hm)
  obtain ⟨-, h2, h3, -⟩ := Date_Year y m d hh mi s ns loc' hm0 hm hd0 hd' hh0 hh1 hmi0 hmi hs0 hs
    hns0 hns
  obtain ⟨h4, h5⟩ := Date_Month_Day y m d hh mi s ns loc' hm0 hm hd0 hd hh0 hh1 hmi0 hmi hs0 hs
    hns0 hns
  rw [ht, h2, h3, h4, h5]
  exact ⟨hm0, hm, hd0, hd', hh0, hh1, hmi0, hmi⟩

end time

/-! ## `getTimes`: the year of `StartedAt` -/

/-- C4: the year of the `StartedAt` returned by `getTimes` is the year of
`CreatedAt` when the departure date-time placed in that year (UTC+8) is not
earlier than `CreatedAt`, and the following year otherwise; `Date` never moves
the departure into another year.  This holds for every raw record, so for
those whose three texts parse; `strive_time` "2023-12-30 10:00:00" with
departure "01月05日 08:00" gives 2024-01-05 08:00 UTC+8, not 2023-01-05. -/
theorem getTimes_startedAt_year (order : originalOrder) :
    order.departureInCreationYear.Year = order.getTimes.1.Year
    ∧ (order.departureInCreationYear.Before order.getTimes.1 = false →
        order.getTimes.2 = order.departureInCreationYear
          ∧ order.getTimes.2.Year = order.getTimes.1.Year)
    ∧ (order.departureInCreationYear.Before order.getTimes.1 = true →
        order.getTimes.2.Year = order.getTimes.1.Year + 1)
    ∧ (rawRecord "2023-12-30 10:00:00" "01月05日 08:00").getTimes.2
        = time.Date 2024 1 5 8 0 0 0 timezone
    ∧ (rawRecord "2023-12-30 10:00:00" "01月05日 08:00").getTimes.2.Format time.layoutMinute
        = "2024-01-05 08:00"
    ∧ (rawRecord "2023-12-30 10:00:00" "01月05日 08:00").getTimes.2
        ≠ time.Date 2023 1 5 8 0 0 0 timezone := by
  obtain ⟨hm0, hm, hd0, hd, -⟩ := time.ParseInLocation_ranges time.layoutMonthDay
    (reDepartureTimeMonth.FindString order.DepartureTime) timezone
  obtain ⟨-, -, -, -, hh0, hh, hmi0, hmi⟩ := time.ParseInLocation_ranges time.layoutClock
    (reDepartureTimeTime.FindString order.DepartureTime) timezone
  have key := fun y => time.Date_Year y _ _ _ _ 0 0 timezone hm0 hm hd0 hd hh0 hh hmi0 hmi
    (le_refl 0) (by decide) (le_refl 0) (by decide)
  refine ⟨(key _).1, ?_, ?_, by decide, by decide, by decide⟩
  · intro hb
    have e : order.getTimes.2 = order.departureInCreationYear := by
      unfold originalOrder.getTimes originalOrder.departureInCreationYear at *
      simp only [] at hb ⊢
      rw [if_neg (by rw [hb]; simp)]
    exact ⟨e, by rw [e]; exact (key _).1⟩
  · intro hb
    unfold originalOrder.getTimes originalOrder.departureInCreationYear at *
    simp only [] at hb ⊢
    rw [if_pos hb]
    exact (key _).1

/-! ## `getPassengers` -/

theorem rePassengersAt_cons (d : Char) (rest : List Char) :
    rePassengersAt (d :: rest)
      = if time.isDigit d = true ∧ rest.head? = some '人' then some d else none := by
  unfold rePassengersAt
  split
  · rename_i d' r heq
    simp only [List.cons.injEq] at heq
    obtain ⟨rfl, rfl⟩ := heq
    simp
  · rename_i h
    cases rest with
    | nil => simp
    | cons c r =>
      by_cases hc : c = '人'
      · subst hc
        exact absurd rfl (h d r)
      · simp [hc]

theorem findFirst_rePassengers (s : List Char) :
    findFirst rePassengersAt s = (passengerCaptures s).head? := by
  induction s with
  | nil => rfl
  | cons d rest ih =>
    unfold findFirst
    rw [rePassengersAt_cons]
    simp only [passengerCaptures]
    by_cases h : time.isDigit d = true ∧ rest.head? = some '人'
    · simp [h]
    · simp only [h, if_false, List.nil_append]
      exact ih

theorem Atoi_digit (d : Char) (h : time.isDigit d = true) :
    strconv.Atoi (String.mk [d]) = time.digitVal d := by
  unfold strconv.Atoi
  simp [h, time.digitsVal]

theorem passengerCaptures_isDigit (s : List Char) :
    ∀ d ∈ passengerCaptures s, time.isDigit d = true := by
  induction s with
  | nil => simp [passengerCaptures]
  | cons d rest ih =>
    intro x hx
    simp only [passengerCaptures, List.mem_append] at hx
    rcases hx with hx | hx
    · split_ifs at hx with h
      · simp only [List.mem_singleton] at hx
        rw [hx]; exact h.1
      · simp at hx
    · exact ih x hx

/-- What `getPassengers` returns, without the loop. -/
theorem getPassengers_eq (order : originalOrder) :
    order.getPassengers = order.passengersOfFirstMatches := by
  unfold originalOrder.getPassengers originalOrder.passengersOfFirstMatches
  have h : ∀ (l : List TripDesc) (init : Int),
      l.foldl (fun passengers desc =>
        match rePassengers.FindStringSubmatch desc.Message with
        | some d => passengers + strconv.Atoi (String.mk [d])
        | none => passengers) init
      = init + (l.map (fun desc =>
          ((passengerCaptures desc.Message.data).head?.map time.digitVal).getD 0)).sum := by
    intro l
    induction l with
    | nil => simp
    | cons desc l ih =>
      intro init
      rw [List.foldl_cons, ih, List.map_cons, List.sum_cons, ← add_assoc]
      congr 1
      unfold rePassengers.FindStringSubmatch
      rw [findFirst_rePassengers]
      cases hc : (passengerCaptures desc.Message.data).head? with
      | none => simp
      | some d =>
        have hd := passengerCaptures_isDigit _ d (List.mem_of_mem_head? hc)
        simp [Atoi_digit d hd]
  rw [h, zero_add]

theorem getPassengers_no_match (order : originalOrder)
    (h : ∀ desc ∈ order.TripDesc, passengerCaptures desc.Message.data = []) :
    order.getPassengers = 0 := by
  rw [getPassengers_eq]
  unfold originalOrder.passengersOfFirstMatches
  apply List.sum_eq_zero
  intro x hx
  obtain ⟨desc, hdesc, rfl⟩ := List.mem_map.mp hx
  rw [h desc hdesc]
  rfl

/-- C5, counterexample: the one message "3人2人" holds two occurrences, whose
digits add up to 5, and `getPassengers` returns 3: only the leftmost
occurrence of a message is counted. -/
theorem getPassengers_ignores_second_match :
    (rawRecordWithMessages ["3人2人"]).passengersOfAllMatches = 5
      ∧ (rawRecordWithMessages ["3人2人"]).getPassengers = 3 := by
  decide

/-- C5, amended: `getPassengers` returns the sum, over the messages, of the
digit of the leftmost occurrence of "<digit>人" in each message that has one,
and 0 when no message has an occurrence. -/
theorem getPassengers_first_matches (order : originalOrder) :
    order.getPassengers = order.passengersOfFirstMatches
      ∧ ((∀ desc ∈ order.TripDesc, passengerCaptures desc.Message.data = []) →
          order.getPassengers = 0) := by
  exact ⟨getPassengers_eq order, getPassengers_no_match order⟩

/-- C6: when every message holds at most one occurrence of a digit followed by
人, `getPassengers` returns the sum of those digits over all the messages; the
messages "3人" and "2人" give 5, and messages without an occurrence give 0. -/
theorem getPassengers_single_matches (order : originalOrder)
    (h : ∀ desc ∈ order.TripDesc, (passengerCaptures desc.Message.data).length ≤ 1) :
    order.getPassengers = order.passengersOfAllMatches
      ∧ (rawRecordWithMessages ["3人", "2人"]).getPassengers = 5
      ∧ ((∀ desc ∈ order.TripDesc, passengerCaptures desc.Message.data = []) →
          order.getPassengers = 0) := by
  refine ⟨?_, by decide, getPassengers_no_match order⟩
  rw [getPassengers_eq]
  unfold originalOrder.passengersOfFirstMatches originalOrder.passengersOfAllMatches
  congr 1
  apply List.map_congr_left
  intro desc hdesc
  have hl := h desc hdesc
  match hc : passengerCaptures desc.Message.data with
  | [] => rfl
  | [d] => simp
  | d :: e :: r => rw [hc] at hl; simp at hl

/-- Three messages with at most one occurrence each, an instance of C6. -/
theorem getPassengers_single_matches_witness :
    (∀ desc ∈ (rawRecordWithMessages ["共3人", "拼车", "2人"]).TripDesc,
        (passengerCaptures desc.Message.data).length ≤ 1)
      ∧ (rawRecordWithMessages ["共3人", "拼车", "2人"]).getPassengers = 5 :=
  ⟨by decide,
    (getPassengers_single_matches (rawRecordWithMessages ["共3人", "拼车", "2人"])
      (by decide)).1.trans (by decide)⟩

/-! ## The report driver: the loop of `main` -/

namespace Main

theorem stateAfter_succ (srv : Nat → String → originalOrders) (k : Nat) :
    ∃ o, page (alwaysOk srv) k = some o ∧
      stateAfter (alwaysOk srv) (k + 1) =
        { month := o.NextMonth
          count := (stateAfter (alwaysOk srv) k).count + 1
          emptyMonth := if o.Orders.length = 0 then (stateAfter (alwaysOk srv) k).emptyMonth + 1
            else 0
          orders := (stateAfter (alwaysOk srv) k).orders ++ o.Orders
          requested := (stateAfter (alwaysOk srv) k).requested
            ++ [(stateAfter (alwaysOk srv) k).month] }
      ∧ loopBody (alwaysOk srv) (stateAfter (alwaysOk srv) k)
          = some (stateAfter (alwaysOk srv) (k + 1)) := by
  refine ⟨(srv (stateAfter (alwaysOk srv) k).requested.length
    (stateAfter (alwaysOk srv) k).month).toOrders, rfl, rfl, rfl⟩

theorem emptyMonth_succ (srv : Nat → String → originalOrders) (k : Nat) :
    (stateAfter (alwaysOk srv) (k + 1)).emptyMonth
      = if emptyPage (alwaysOk srv) k = true then (stateAfter (alwaysOk srv) k).emptyMonth + 1
        else 0 := by
  obtain ⟨o, ho, hs, -⟩ := stateAfter_succ srv k
  rw [hs]
  unfold emptyPage
  rw [ho]
  simp

theorem count_stateAfter (srv : Nat → String → originalOrders) (k : Nat) :
    (stateAfter (alwaysOk srv) k).count = k
      ∧ (stateAfter (alwaysOk srv) k).requested.length = k := by
  induction k with
  | zero => exact ⟨rfl, rfl⟩
  | succ k ih =>
    obtain ⟨o, -, hs, -⟩ := stateAfter_succ srv k
    rw [hs]
    simp only [List.length_append, List.length_singleton, ih.1, ih.2]
    constructor
    · push_cast; ring
    · trivial

/-- The counter `emptyMonth` is the number of pages without orders fetched
last, one after the other. -/
theorem emptyMonth_stateAfter (srv : Nat → String → originalOrders) (k : Nat) :
    0 ≤ (stateAfter (alwaysOk srv) k).emptyMonth
    ∧ (1 ≤ (stateAfter (alwaysOk srv) k).emptyMonth ↔
        (1 ≤ k ∧ emptyPage (alwaysOk srv) (k - 1) = true))
    ∧ (2 ≤ (stateAfter (alwaysOk srv) k).emptyMonth ↔
        (2 ≤ k ∧ emptyPage (alwaysOk srv) (k - 1) = true
          ∧ emptyPage (alwaysOk srv) (k - 2) = true))
    ∧ (3 ≤ (stateAfter (alwaysOk srv) k).emptyMonth ↔
        (3 ≤ k ∧ emptyPage (alwaysOk srv) (k - 1) = true
          ∧ emptyPage (alwaysOk srv) (k - 2) = true ∧ emptyPage (alwaysOk srv) (k - 3) = true)) := by
  induction k with
  | zero =>
    have e : (stateAfter (alwaysOk srv) 0).emptyMonth = 0 := rfl
    rw [e]
    refine ⟨le_refl _, ?_, ?_, ?_⟩ <;>
      exact ⟨fun h => absurd h (by decide), fun h => absurd h.1 (by decide)⟩
  | succ k ih =>
    obtain ⟨h0, h1, h2, h3⟩ := ih
    rw [emptyMonth_succ]
    simp only [Nat.add_sub_cancel]
    have e2 : k + 1 - 2 = k - 1 := by omega
    have e3 : k + 1 - 3 = k - 2 := by omega
    rw [e2, e3]
    cases hp : emptyPage (alwaysOk srv) k
    · simp
    · simp only [if_true, true_and, and_true]
      refine ⟨by omega, ⟨fun _ => by omega, fun _ => by omega⟩, ⟨fun h => ?_, fun h => ?_⟩,
        ⟨fun h => ?_, fun h => ?_⟩⟩
      · have := h1.mp (by omega)
        exact ⟨by omega, this.2⟩
      · have := h1.mpr ⟨by omega, h.2⟩
        omega
      · have := h2.mp (by omega)
        exact ⟨by omega, this.2.1, this.2.2⟩
      · have := h2.mpr ⟨by omega, h.2.1, h.2.2⟩
        omega

/-- The loop condition fails after `k` turns exactly when the stopping rule
holds or the page limit has been passed. -/
theorem loopCond_stateAfter (number : Int) (srv : Nat → String → originalOrders) (k : Nat) :
    loopCond number (stateAfter (alwaysOk srv) k) = false ↔
      ((3 ≤ k ∧ emptyPage (alwaysOk srv) (k - 1) = true ∧ emptyPage (alwaysOk srv) (k - 2) = true
          ∧ emptyPage (alwaysOk srv) (k - 3) = true)
        ∨ (number ≠ 0 ∧ number ≤ k)) := by
  obtain ⟨-, -, -, h3⟩ := emptyMonth_stateAfter srv k
  unfold loopCond
  rw [(count_stateAfter srv k).1, ← h3]
  simp only [Bool.and_eq_false_imp, decide_eq_true_eq, Bool.or_eq_false_iff, decide_eq_false_iff_not]
  constructor
  · intro h
    by_cases he : (stateAfter (alwaysOk srv) k).emptyMonth < 3
    · have := h he
      right; omega
    · left; omega
  · rintro (h | h) he
    · omega
    · omega

theorem runLoop_add (number : Int) (srv : Nat → String → originalOrders) (j fuel : Nat)
    (h : ∀ i < j, loopCond number (stateAfter (alwaysOk srv) i) = true) :
    runLoop number (alwaysOk srv) (j + fuel) DriverState.init
      = runLoop number (alwaysOk srv) fuel (stateAfter (alwaysOk srv) j) := by
  induction j generalizing fuel with
  | zero => rw [Nat.zero_add]; rfl
  | succ j ih =>
    have e : j + 1 + fuel = j + (fuel + 1) := by omega
    rw [e, ih (fuel + 1) (fun i hi => h i (by omega))]
    obtain ⟨o, -, -, hb⟩ := stateAfter_succ srv j
    simp only [runLoop, h j (by omega), if_true, hb]

theorem runLoop_finished (number : Int) (http : Nat → String → Option originalOrders)
    (fuel : Nat) (s : DriverState) (h : loopCond number s = false) :
    runLoop number http fuel s = .finished s := by
  cases fuel <;> simp [runLoop, h]

/-- C7: when no fetch fails and the page limit `number` is not negative, the
loop of `main` stops after exactly `k` fetches, `k` being the least number of
fetches after which the last three pages fetched had no orders or the limit,
if not zero, is reached: run for `k` turns or more the loop has finished in
the state reached after `k` turns, run for fewer it is still running.  A page
with orders sets the counter of empty pages back to zero, a page without adds
one to it. -/
theorem driver_stops_at_least_k (number : Int) (hn : 0 ≤ number)
    (srv : Nat → String → originalOrders) (k : Nat)
    (hk : stopsAfter number (alwaysOk srv) k)
    (hleast : ∀ j < k, ¬ stopsAfter number (alwaysOk srv) j) :
    (∀ fuel, k ≤ fuel → runLoop number (alwaysOk srv) fuel DriverState.init
        = .finished (stateAfter (alwaysOk srv) k))
    ∧ (∀ fuel, fuel < k → runLoop number (alwaysOk srv) fuel DriverState.init
        = .running (stateAfter (alwaysOk srv) fuel))
    ∧ (stateAfter (alwaysOk srv) k).count = k
    ∧ (stateAfter (alwaysOk srv) k).requested.length = k
    ∧ (∀ j, (stateAfter (alwaysOk srv) (j + 1)).emptyMonth
        = if emptyPage (alwaysOk srv) j = true then (stateAfter (alwaysOk srv) j).emptyMonth + 1
          else 0) := by
  have hrun : ∀ j < k, loopCond number (stateAfter (alwaysOk srv) j) = true := by
    intro j hj
    cases hc : loopCond number (stateAfter (alwaysOk srv) j)
    · exfalso
      rcases (loopCond_stateAfter number srv j).mp hc with h | ⟨h0, hle⟩
      · exact hleast j hj (Or.inl h)
      · refine hleast number.toNat (by omega) (Or.inr ⟨h0, ?_⟩)
        omega
    · rfl
  have hstop : loopCond number (stateAfter (alwaysOk srv) k) = false := by
    rw [loopCond_stateAfter]
    rcases hk with h | ⟨h0, he⟩
    · exact Or.inl h
    · exact Or.inr ⟨h0, by omega⟩
  refine ⟨fun fuel hfuel => ?_, fun fuel hfuel => ?_, (count_stateAfter srv k).1,
    (count_stateAfter srv k).2, emptyMonth_succ srv⟩
  · obtain ⟨f, rfl⟩ := Nat.exists_eq_add_of_le hfuel
    rw [runLoop_add number srv k f hrun]
    exact runLoop_finished number _ f _ hstop
  · have h := runLoop_add number srv fuel 0 (fun i hi => hrun i (by omega))
    rw [Nat.add_zero] at h
    rw [h]
    simp [runLoop, hrun fuel hfuel]

/-- A page with orders followed by empty pages, under a limit of ten pages:
the loop stops after four fetches, an instance of C7. -/
theorem driver_stops_at_least_k_witness :
    stopsAfter 10 (alwaysOk sampleServer) 4
      ∧ (∀ j < 4, ¬ stopsAfter 10 (alwaysOk sampleServer) j)
      ∧ (∀ fuel, 4 ≤ fuel → runLoop 10 (alwaysOk sampleServer) fuel DriverState.init
          = .finished (stateAfter (alwaysOk sampleServer) 4))
      ∧ (stateAfter (alwaysOk sampleServer) 4).count = 4 :=
  have hk : stopsAfter 10 (alwaysOk sampleServer) 4 :=
    Or.inl ⟨by decide, by decide, by decide, by decide⟩
  have hleast : ∀ j < 4, ¬ stopsAfter 10 (alwaysOk sampleServer) j := by
    intro j hj
    unfold stopsAfter
    interval_cases j <;> decide
  have h := driver_stops_at_least_k 10 (by decide) sampleServer 4 hk hleast
  ⟨hk, hleast, h.1, h.2.2.1⟩

/-! ## The report driver: `getTimes` and `formatTime` of `main.go` -/

theorem After_iff (t u : time.Time) :
    t.After u = true ↔ (u.sec < t.sec ∨ (u.sec = t.sec ∧ u.nsec < t.nsec)) := by
  unfold time.Time.After
  simp only [Bool.or_eq_true, Bool.and_eq_true, decide_eq_true_eq, gt_iff_lt]
  constructor
  · rintro (h | ⟨h1, h2⟩)
    · exact Or.inl h
    · exact Or.inr ⟨h1.symm, h2⟩
  · rintro (h | ⟨h1, h2⟩)
    · exact Or.inl h
    · exact Or.inr ⟨h1.symm, h2⟩

theorem Before_iff (t u : time.Time) :
    t.Before u = true ↔ (t.sec < u.sec ∨ (t.sec = u.sec ∧ t.nsec < u.nsec)) := by
  unfold time.Time.Before
  simp only [Bool.or_eq_true, Bool.and_eq_true, decide_eq_true_eq]

/-- With a variable per iteration, one turn of the loop keeps the earlier time. -/
theorem getTimesStep_perIteration (s : GetTimesState) (r : Route) (hs : s.valid) :
    (getTimesStep .perIteration s r).valid
    ∧ derefCreatedAt (getTimesStep .perIteration s r).heap (getTimesStep .perIteration s r).createdAt
        = earlier (derefCreatedAt s.heap s.createdAt) r.CreatedAt
    ∧ derefStartedAt (getTimesStep .perIteration s r).heap (getTimesStep .perIteration s r).startedAt
        = earlier (derefStartedAt s.heap s.startedAt) r.StartedAt := by
  obtain ⟨hc, hst⟩ := hs
  have key : ∀ (f : Route → time.Time) (ptr : Option Nat) (heap : Nat → Option Route),
      (∀ p, ptr = some p → p < s.next ∧ (s.heap p).isSome = true) →
      (∀ a, heap a = if a = s.next then some r else s.heap a) →
      (∀ p, (match (ptr.bind heap).map f with
          | none => some s.next
          | some c => if c.After (f r) = true then some s.next else ptr) = some p →
        p < s.next + 1 ∧ (heap p).isSome = true)
      ∧ ((match (ptr.bind heap).map f with
          | none => some s.next
          | some c => if c.After (f r) = true then some s.next else ptr).bind heap).map f
        = earlier ((ptr.bind s.heap).map f) (f r) := by
    intro f ptr heap hp hheap
    have hnew : heap s.next = some r := by rw [hheap, if_pos rfl]
    cases ptr with
    | none =>
      simp only [Option.none_bind, Option.map_none', Option.some.injEq, Option.some_bind, hnew,
        Option.map_some', earlier, and_true]
      intro q hq
      subst hq
      exact ⟨by omega, by rw [hnew]; rfl⟩
    | some p =>
      obtain ⟨hlt, hsome⟩ := hp p rfl
      have hne : p ≠ s.next := by omega
      obtain ⟨v, hv⟩ := Option.isSome_iff_exists.mp hsome
      have hold : heap p = some v := by rw [hheap, if_neg hne, hv]
      simp only [Option.some_bind, hold, hv, Option.map_some', earlier]
      by_cases ha : (f v).After (f r) = true
      · simp only [ha, if_true, Option.some.injEq, Option.some_bind, hnew, Option.map_some',
          and_true]
        intro q hq
        subst hq
        exact ⟨by omega, by rw [hnew]; rfl⟩
      · simp only [ha, Bool.false_eq_true, if_false, Option.some.injEq, Option.some_bind, hold,
          Option.map_some', and_true]
        intro q hq
        subst hq
        exact ⟨by omega, by rw [hold]; rfl⟩
  have k1 := key Route.CreatedAt s.createdAt _ hc (fun _ => rfl)
  have k2 := key Route.StartedAt s.startedAt _ hst (fun _ => rfl)
  exact ⟨⟨k1.1, k2.1⟩, k1.2, k2.2⟩

theorem foldl_getTimesStep_perIteration (routes : List Route) (s : GetTimesState) (hs : s.valid) :
    derefCreatedAt (routes.foldl (getTimesStep .perIteration) s).heap
        (routes.foldl (getTimesStep .perIteration) s).createdAt
      = (routes.map Route.CreatedAt).foldl earlier (derefCreatedAt s.heap s.createdAt)
    ∧ derefStartedAt (routes.foldl (getTimesStep .perIteration) s).heap
        (routes.foldl (getTimesStep .perIteration) s).startedAt
      = (routes.map Route.StartedAt).foldl earlier (derefStartedAt s.heap s.startedAt) := by
  induction routes generalizing s with
  | nil => exact ⟨rfl, rfl⟩
  | cons r routes ih =>
    obtain ⟨hv, h1, h2⟩ := getTimesStep_perIteration s r hs
    have := ih _ hv
    simp only [List.foldl_cons, List.map_cons]
    rw [this.1, this.2, h1, h2]
    exact ⟨rfl, rfl⟩

/-- Folding `earlier` over a list of times, starting from a kept time that is
not after any time seen before, yields an earliest time. -/
theorem foldl_earlier (ts : List time.Time) (c : time.Time) :
    ∃ m, ts.foldl earlier (some c) = some m ∧ m ∈ c :: ts
      ∧ ∀ t ∈ c :: ts, t.Before m = false := by
  induction ts generalizing c with
  | nil =>
    refine ⟨c, rfl, List.mem_singleton.mpr rfl, ?_⟩
    intro t ht
    rw [List.mem_singleton.mp ht, Bool.eq_false_iff, Ne, Before_iff]
    omega
  | cons t ts ih =>
    rw [List.foldl_cons]
    unfold earlier
    by_cases ha : c.After t = true
    · simp only [ha, if_true]
      obtain ⟨m, hm, hmem, hmin⟩ := ih t
      refine ⟨m, hm, List.mem_cons_of_mem c hmem, ?_⟩
      intro x hx
      rcases List.mem_cons.mp hx with rfl | hx
      · have h1 := hmin t (List.mem_cons_self t ts)
        rw [Bool.eq_false_iff, Ne, Before_iff] at h1 ⊢
        rw [After_iff] at ha
        omega
      · exact hmin x hx
    · simp only [ha, if_false]
      obtain ⟨m, hm, hmem, hmin⟩ := ih c
      refine ⟨m, hm, ?_, ?_⟩
      · rcases List.mem_cons.mp hmem with rfl | h
        · exact List.mem_cons_self _ _
        · exact List.mem_cons_of_mem _ (List.mem_cons_of_mem _ h)
      · intro x hx
        rcases List.mem_cons.mp hx with rfl | hx
        · exact hmin x (List.mem_cons_self _ _)
        · rcases List.mem_cons.mp hx with rfl | hx
          · have h1 := hmin c (List.mem_cons_self c ts)
            rw [Bool.eq_false_iff, Ne, Before_iff] at h1 ⊢
            rw [After_iff] at ha
            omega
          · exact hmin x (List.mem_cons_of_mem _ hx)

theorem Format_layoutMinute (t : time.Time) :
    (t.Format time.layoutMinute).data
      = time.appendInt t.Year 4 ++ '-' :: time.appendInt t.Month 2 ++ '-' ::
          time.appendInt t.Day 2 ++ ' ' :: time.appendInt t.Hour 2 ++ ':' ::
            time.appendInt t.Minute 2 := by
  simp [time.Time.Format, time.layoutMinute, time.formatStd]

/-- With a variable per iteration, `getTimes` returns an earliest `CreatedAt`
and an earliest `StartedAt` of the routes. -/
theorem getTimes_perIteration_min (order : Order) (h : order.Routes ≠ []) :
    ∃ c s, getTimes .perIteration order = (some c, some s)
      ∧ c ∈ order.Routes.map Route.CreatedAt
      ∧ (∀ r ∈ order.Routes, r.CreatedAt.Before c = false)
      ∧ s ∈ order.Routes.map Route.StartedAt
      ∧ (∀ r ∈ order.Routes, r.StartedAt.Before s = false) := by
  obtain ⟨r, rs, hr⟩ := List.exists_cons_of_ne_nil h
  have hfold := foldl_getTimesStep_perIteration order.Routes ⟨fun _ => none, 0, none, none⟩
    ⟨fun p hp => absurd hp (by simp), fun p hp => absurd hp (by simp)⟩
  have e1 : derefCreatedAt (fun _ => none) none = none := rfl
  have e2 : derefStartedAt (fun _ => none) none = none := rfl
  simp only [e1, e2, hr, List.map_cons, List.foldl_cons] at hfold
  obtain ⟨c, hc, hcmem, hcmin⟩ := foldl_earlier (rs.map Route.CreatedAt) r.CreatedAt
  obtain ⟨s, hs, hsmem, hsmin⟩ := foldl_earlier (rs.map Route.StartedAt) r.StartedAt
  have hg : getTimes .perIteration order = (some c, some s) := by
    unfold getTimes
    simp only [hr, List.foldl_cons]
    rw [hfold.1, hfold.2]
    exact Prod.ext hc hs
  refine ⟨c, s, hg, ?_, ?_, ?_, ?_⟩
  · rw [hr]; exact hcmem
  · intro x hx
    rw [hr] at hx
    exact hcmin _ (by
      rw [← List.map_cons]
      exact List.mem_map_of_mem _ hx)
  · rw [hr]; exact hsmem
  · intro x hx
    rw [hr] at hx
    exact hsmin _ (by
      rw [← List.map_cons]
      exact List.mem_map_of_mem _ hx)

/-- With one variable `route` for the whole loop (language versions before
1.22) both pointers end up pointing into that variable, which holds the last
route when `getTimes` returns. -/
theorem getTimes_perLoop_last (order : Order) (h : order.Routes ≠ []) :
    getTimes .perLoop order
      = (some (order.Routes.getLast h).CreatedAt, some (order.Routes.getLast h).StartedAt) := by
  have step : ∀ (s : GetTimesState) (r : Route),
      (s.createdAt = none ∨ s.createdAt = some 0) → (s.startedAt = none ∨ s.startedAt = some 0) →
      (getTimesStep .perLoop s r).createdAt = some 0
        ∧ (getTimesStep .perLoop s r).startedAt = some 0
        ∧ (getTimesStep .perLoop s r).heap 0 = some r := by
    intro s r hc hs
    have hirr : ∀ t : time.Time, t.After t = false := by
      intro t
      rw [Bool.eq_false_iff, Ne, After_iff]
      omega
    refine ⟨?_, ?_, ?_⟩
    · rcases hc with hc | hc <;>
        simp [getTimesStep, derefCreatedAt, hc, hirr]
    · rcases hs with hs | hs <;>
        simp [getTimesStep, derefStartedAt, hs, hirr]
    · simp [getTimesStep]
  have fold : ∀ (rs : List Route) (r : Route) (s : GetTimesState),
      (s.createdAt = none ∨ s.createdAt = some 0) → (s.startedAt = none ∨ s.startedAt = some 0) →
      ((r :: rs).foldl (getTimesStep .perLoop) s).createdAt = some 0
        ∧ ((r :: rs).foldl (getTimesStep .perLoop) s).startedAt = some 0
        ∧ ((r :: rs).foldl (getTimesStep .perLoop) s).heap 0
            = some ((r :: rs).getLast (List.cons_ne_nil r rs)) := by
    intro rs
    induction rs with
    | nil =>
      intro r s hc hs
      exact step s r hc hs
    | cons r' rs ih =>
      intro r s hc hs
      obtain ⟨h1, h2, -⟩ := step s r hc hs
      rw [List.foldl_cons, List.getLast_cons (List.cons_ne_nil r' rs)]
      exact ih r' _ (Or.inr h1) (Or.inr h2)
  obtain ⟨id, excl, total, amount, routes⟩ := order
  cases routes with
  | nil => exact absurd rfl h
  | cons r rs =>
    obtain ⟨h1, h2, h3⟩ := fold rs r ⟨fun _ => none, 0, none, none⟩ (Or.inl rfl) (Or.inl rfl)
    unfold getTimes
    simp only [derefCreatedAt, derefStartedAt, h1, h2, Option.some_bind, h3, Option.map_some']

/-- C8 as stated fails when the loop of `getTimes` has one variable `route` for
all its iterations, the rule of the language before version 1.22 (the module
file that fixes the version is not among the sources): both pointers then
point into that variable, and for the sample order, whose first route starts
on 2024-01-03 08:00, the start time returned and printed is that of the last
route, 2024-01-04 18:30. -/
theorem getTimes_perLoop_not_earliest :
    getTimes .perLoop sampleOrder
        = (some (time.Date 2024 1 1 9 0 0 0 timezone), some (time.Date 2024 1 4 18 30 0 0 timezone))
      ∧ sampleOrder.Routes.map Route.StartedAt
          = [time.Date 2024 1 3 8 0 0 0 timezone, time.Date 2024 1 4 18 30 0 0 timezone]
      ∧ (time.Date 2024 1 3 8 0 0 0 timezone).Before (time.Date 2024 1 4 18 30 0 0 timezone) = true
      ∧ csvColumns .perLoop sampleOrder
          = ["X", "2024-01-01 09:00", "2024-01-04 18:30", "是", "0", "9.5"] := by
  decide

/-- C8, amended: for an order with at least one route, whichever way the loop
variable is declared, `getTimes` of `main.go` returns the `CreatedAt` of one of
the routes and the `StartedAt` of one of the routes, and the second and third
columns of the CSV row are these two times written as YYYY-MM-DD HH:MM.  When
each iteration of the loop has a variable `route` of its own (the language
from version 1.22 on), no route's `CreatedAt` is before the `CreatedAt`
returned and, independently, no route's `StartedAt` is before the `StartedAt`
returned.  With routes created at 2024-01-02 10:00 and at 2024-01-01 09:00 the
row shows 2024-01-01 09:00 as the received time. -/
theorem getTimes_earliest (sem : LoopVar) (order : Order) (h : order.Routes ≠ []) :
    ∃ c s, getTimes sem order = (some c, some s)
      ∧ c ∈ order.Routes.map Route.CreatedAt
      ∧ s ∈ order.Routes.map Route.StartedAt
      ∧ (sem = .perIteration →
          (∀ r ∈ order.Routes, r.CreatedAt.Before c = false)
            ∧ (∀ r ∈ order.Routes, r.StartedAt.Before s = false))
      ∧ (csvColumns sem order).take 3
          = [order.Id, c.Format time.layoutMinute, s.Format time.layoutMinute]
      ∧ (c.Format time.layoutMinute).data
          = time.appendInt c.Year 4 ++ '-' :: time.appendInt c.Month 2 ++ '-' ::
              time.appendInt c.Day 2 ++ ' ' :: time.appendInt c.Hour 2 ++ ':' ::
                time.appendInt c.Minute 2
      ∧ csvColumns .perIteration sampleOrder
          = ["X", "2024-01-01 09:00", "2024-01-03 08:00", "是", "0", "9.5"]
      ∧ (csvColumns sem sampleOrder).take 2 = ["X", "2024-01-01 09:00"] := by
  have hsample : (csvColumns sem sampleOrder).take 2 = ["X", "2024-01-01 09:00"] := by
    cases sem <;> decide
  cases sem with
  | perIteration =>
    obtain ⟨c, s, hg, h1, h2, h3, h4⟩ := getTimes_perIteration_min order h
    refine ⟨c, s, hg, h1, h3, fun _ => ⟨h2, h4⟩, ?_, Format_layoutMinute c, by decide, hsample⟩
    unfold csvColumns
    rw [hg]
    rfl
  | perLoop =>
    have hg := getTimes_perLoop_last order h
    refine ⟨_, _, hg, List.mem_map_of_mem _ (List.getLast_mem h),
      List.mem_map_of_mem _ (List.getLast_mem h), fun hs => absurd hs (by decide), ?_,
      Format_layoutMinute _, by decide, hsample⟩
    unfold csvColumns
    rw [hg]
    rfl

/-- The sample order, whose second route was created first and whose first
route starts first, an instance of C8 for a loop with a variable per
iteration. -/
theorem getTimes_earliest_witness :
    sampleOrder.Routes ≠ []
      ∧ ∃ c s, getTimes .perIteration sampleOrder = (some c, some s)
        ∧ c = time.Date 2024 1 1 9 0 0 0 timezone ∧ s = time.Date 2024 1 3 8 0 0 0 timezone
        ∧ (∀ r ∈ sampleOrder.Routes, r.CreatedAt.Before c = false)
        ∧ (∀ r ∈ sampleOrder.Routes, r.StartedAt.Before s = false) := by
  refine ⟨by decide, ?_⟩
  obtain ⟨c, s, hg, -, -, hmin, -⟩ := getTimes_earliest .perIteration sampleOrder (by decide)
  refine ⟨c, s, hg, ?_, ?_, (hmin rfl).1, (hmin rfl).2⟩
  · have : (getTimes .perIteration sampleOrder).1 = some (time.Date 2024 1 1 9 0 0 0 timezone) := by
      decide
    rw [hg] at this
    exact Option.some.inj this
  · have : (getTimes .perIteration sampleOrder).2 = some (time.Date 2024 1 3 8 0 0 0 timezone) := by
      decide
    rw [hg] at this
    exact Option.some.inj this

end Main

namespace time

/-! ## `getTimes`: month, day, hour and minute of `StartedAt` -/

theorem getnum_two (c0 c1 : Char) (rest : List Char) (fixed : Bool) (h0 : isDigit c0 = true)
    (h1 : isDigit c1 = true) :
    getnum (c0 :: c1 :: rest) fixed = some (digitVal c0 * 10 + digitVal c1, rest) := by
  simp [getnum, h0, h1]

theorem getnum_one (c0 c1 : Char) (rest : List Char) (h0 : isDigit c0 = true)
    (h1 : isDigit c1 = false) :
    getnum (c0 :: c1 :: rest) false = some (digitVal c0, c1 :: rest) := by
  simp [getnum, h0, h1]

theorem skip_char (p v : Char) (value : List Char) (hp : p ≠ ' ') :
    skip (v :: value) [p] = if v ≠ p then none else some value := by
  simp [skip, skipLoop, hp]

theorem skip_nil (value : List Char) : skip value [] = some value := rfl

theorem isDigit_colon : isDigit ':' = false := by decide

/-- The text "MM月DD日" of a month and a day that exists in that month of a leap
year parses, with the layout "01月02日", to that day of year 0. -/
theorem parse_layoutMonthDay (m1 m2 d1 d2 : Char) (loc : Location)
    (hm1 : isDigit m1 = true) (hm2 : isDigit m2 = true) (hd1 : isDigit d1 = true)
    (hd2 : isDigit d2 = true)
    (hm0 : 1 ≤ digitVal m1 * 10 + digitVal m2) (hm : digitVal m1 * 10 + digitVal m2 ≤ 12)
    (hd0 : 1 ≤ digitVal d1 * 10 + digitVal d2)
    (hd : digitVal d1 * 10 + digitVal d2 ≤ daysIn (digitVal m1 * 10 + digitVal m2) 0) :
    parse layoutMonthDay [m1, m2, '月', d1, d2, '日'] loc
      = some (Date 0 (digitVal m1 * 10 + digitVal m2) (digitVal d1 * 10 + digitVal d2) 0 0 0 0
          loc) := by
  have hs1 : ('月' : Char) ≠ ' ' := by decide
  have hs2 : ('日' : Char) ≠ ' ' := by decide
  have hlt : ¬ digitVal m1 * 10 + digitVal m2 < 0 := by omega
  have hlt2 : ¬ digitVal d1 * 10 + digitVal d2 < 0 := by omega
  have hok : ¬ (digitVal m1 * 10 + digitVal m2 ≤ 0 ∨ 12 < digitVal m1 * 10 + digitVal m2) := by
    omega
  have hdok : ¬ (digitVal d1 * 10 + digitVal d2 < 1
      ∨ digitVal d1 * 10 + digitVal d2 > daysIn (digitVal m1 * 10 + digitVal m2) 0) := by
    omega
  simp only [parse, layoutMonthDay, parseChunks, skip_nil, parseStd, getnum_two _ _ _ _ hm1 hm2,
    getnum_two _ _ _ _ hd1 hd2, skip_char _ _ _ hs1, skip_char _ _ _ hs2, hok, if_false, Fields.init,
    ne_eq, not_true_eq_false, hlt, hlt2, hdok]

/-- The text "H:MM" or "HH:MM" of a valid clock time parses, with the layout
"15:04", to that time on January 1 of year 0. -/
theorem parse_layoutClock (hs : List Char) (n1 n2 : Char) (loc : Location) (h : Int)
    (hhs : (∃ c, hs = [c] ∧ isDigit c = true ∧ h = digitVal c)
      ∨ (∃ c0 c1, hs = [c0, c1] ∧ isDigit c0 = true ∧ isDigit c1 = true
          ∧ h = digitVal c0 * 10 + digitVal c1))
    (hn1 : isDigit n1 = true) (hn2 : isDigit n2 = true) (hh : h < 24)
    (hmi : digitVal n1 * 10 + digitVal n2 < 60) :
    parse layoutClock (hs ++ [':', n1, n2]) loc
      = some (Date 0 1 1 h (digitVal n1 * 10 + digitVal n2) 0 0 loc) := by
  have hs1 : (':' : Char) ≠ ' ' := by decide
  have hd : ¬ ((1 : Int) < 1 ∨ 1 > daysIn 1 0) := by decide
  have b1 := digitVal_bounds n1 hn1
  have b2 := digitVal_bounds n2 hn2
  have hmok : ¬ (digitVal n1 * 10 + digitVal n2 < 0 ∨ 60 ≤ digitVal n1 * 10 + digitVal n2) := by
    omega
  rcases hhs with ⟨c, rfl, hc, rfl⟩ | ⟨c0, c1, rfl, hc0, hc1, rfl⟩
  · have b := digitVal_bounds c hc
    have hhok : ¬ (digitVal c < 0 ∨ 24 ≤ digitVal c) := by omega
    simp only [parse, layoutClock, parseChunks, skip_nil, parseStd, List.cons_append,
      List.nil_append, getnum_one _ _ _ hc isDigit_colon, hhok, if_false, skip_char _ _ _ hs1,
      ne_eq, not_true_eq_false, getnum_two _ _ _ _ hn1 hn2, hmok, Fields.init, hd]
    simp
    decide
  · have b0 := digitVal_bounds c0 hc0
    have b1' := digitVal_bounds c1 hc1
    have hhok : ¬ (digitVal c0 * 10 + digitVal c1 < 0 ∨ 24 ≤ digitVal c0 * 10 + digitVal c1) := by
      omega
    simp only [parse, layoutClock, parseChunks, skip_nil, parseStd, List.cons_append,
      List.nil_append, getnum_two _ _ _ _ hc0 hc1, hhok, if_false, skip_char _ _ _ hs1,
      ne_eq, not_true_eq_false, getnum_two _ _ _ _ hn1 hn2, hmok, Fields.init, hd]
    simp
    decide

end time

theorem digitChar_isDigit (k : Nat) (hk : k < 10) :
    time.isDigit (Nat.digitChar k) = true ∧ time.digitVal (Nat.digitChar k) = k := by
  interval_cases k <;> decide

theorem twoDigits_val (n : Nat) (hn : n < 100) :
    time.isDigit (Nat.digitChar (n / 10)) = true ∧ time.isDigit (Nat.digitChar (n % 10)) = true
      ∧ time.digitVal (Nat.digitChar (n / 10)) * 10 + time.digitVal (Nat.digitChar (n % 10))
          = (n : Int) := by
  obtain ⟨h1, h2⟩ := digitChar_isDigit (n / 10) (by omega)
  obtain ⟨h3, h4⟩ := digitChar_isDigit (n % 10) (by omega)
  refine ⟨h1, h3, ?_⟩
  rw [h2, h4]
  omega

/-- C9, counterexample: the departure text "7月4日 08:00" holds the token 7月4日
of the valid date July 4 and the valid clock time 08:00, yet a record created
on 2023-06-01 gets `StartedAt` 2024-01-01 08:00: the layout "01月02日" wants two
digits for the month and for the day, the parse fails and January 1 stands.
Likewise "02月29日" in 2023 gives March 1, and the clock text "8:5" (one-digit
minute) gives 00:00. -/
theorem getTimes_one_digit_token :
    reDepartureTimeMonth.FindString "7月4日 08:00" = "7月4日"
      ∧ reDepartureTimeTime.FindString "7月4日 08:00" = "08:00"
      ∧ (rawRecord "2023-06-01 10:00:00" "7月4日 08:00").getTimes.1
          = time.Date 2023 6 1 10 0 0 0 timezone
      ∧ (rawRecord "2023-06-01 10:00:00" "7月4日 08:00").getTimes.2
          = time.Date 2024 1 1 8 0 0 0 timezone
      ∧ (rawRecord "2023-06-01 10:00:00" "7月4日 08:00").getTimes.2.Month = 1
      ∧ (rawRecord "2023-06-01 10:00:00" "7月4日 08:00").getTimes.2.Day = 1
      ∧ (rawRecord "2023-01-15 10:00:00" "02月29日 08:00").getTimes.2
          = time.Date 2023 3 1 8 0 0 0 timezone
      ∧ reDepartureTimeTime.FindString "07月04日 8:5" = "8:5"
      ∧ (rawRecord "2023-06-01 10:00:00" "07月04日 8:5").getTimes.2
          = time.Date 2023 7 4 0 0 0 0 timezone := by
  decide

/-- C9, amended: when the leftmost text matching `\d+月\d+日` in the departure
text is a two-digit month `m` (01 to 12) and a two-digit day `d` that exists
in month `m` of a leap year, and the leftmost text matching `\d+:\d+` is a
one- or two-digit hour `h` below 24 and a two-digit minute `mi` below 60, the
`StartedAt` returned by `getTimes` is in UTC+8, has hour `h`, minute `mi`,
second zero, the year of `CreatedAt` or the year after, and month `m` and day
`d`, except that February 29 of a year that is not a leap year is March 1. -/
theorem getTimes_startedAt_fields (order : originalOrder) (m d h mi : Nat)
    (hourText : List Char)
    (hmonth : (reDepartureTimeMonth.FindString order.DepartureTime).data
      = twoDigits m ++ '月' :: twoDigits d ++ ['日'])
    (hm0 : 1 ≤ m) (hm : m ≤ 12) (hd0 : 1 ≤ d) (hd : (d : Int) ≤ time.daysIn m 0)
    (hclock : (reDepartureTimeTime.FindString order.DepartureTime).data
      = hourText ++ ':' :: twoDigits mi)
    (hhour : hourText = twoDigits h ∨ (h < 10 ∧ hourText = [Nat.digitChar h]))
    (hh : h < 24) (hmi : mi < 60) :
    order.getTimes.2.Hour = h ∧ order.getTimes.2.Minute = mi ∧ order.getTimes.2.Second = 0
      ∧ order.getTimes.2.nsec = 0 ∧ order.getTimes.2.loc = timezone
      ∧ (order.getTimes.2.Year = order.getTimes.1.Year
          ∨ order.getTimes.2.Year = order.getTimes.1.Year + 1)
      ∧ ((d : Int) ≤ time.daysIn m order.getTimes.2.Year →
          order.getTimes.2.Month = m ∧ order.getTimes.2.Day = d)
      ∧ (time.daysIn m order.getTimes.2.Year < (d : Int) →
          m = 2 ∧ d = 29 ∧ order.getTimes.2.Month = 3 ∧ order.getTimes.2.Day = 1) := by
  have hd31 : d ≤ 31 := by
    have : time.daysIn m 0 ≤ 31 := by
      have hm' : (1 : Int) ≤ m := by omega
      have hm'' : (m : Int) ≤ 12 := by omega
      unfold time.daysIn
      generalize (m : Int) = mm at *
      interval_cases mm <;> simp only [time.daysBefore] <;> decide
    omega
  obtain ⟨hM1, hM2, hMv⟩ := twoDigits_val m (by omega)
  obtain ⟨hD1, hD2, hDv⟩ := twoDigits_val d (by omega)
  obtain ⟨hN1, hN2, hNv⟩ := twoDigits_val mi (by omega)
  -- the month and the day read from the departure text
  have pm : time.ParseInLocation time.layoutMonthDay
      (reDepartureTimeMonth.FindString order.DepartureTime) timezone
      = time.Date 0 m d 0 0 0 0 timezone := by
    unfold time.ParseInLocation
    rw [hmonth]
    have := time.parse_layoutMonthDay _ _ _ _ timezone hM1 hM2 hD1 hD2 (by omega) (by omega)
      (by omega) (by rw [hMv, hDv]; exact hd)
    rw [hMv, hDv] at this
    simp only [twoDigits, List.cons_append, List.nil_append]
    rw [this]
    rfl
  -- the hour and the minute read from the departure text
  have pt : time.ParseInLocation time.layoutClock
      (reDepartureTimeTime.FindString order.DepartureTime) timezone
      = time.Date 0 1 1 h mi 0 0 timezone := by
    unfold time.ParseInLocation
    rw [hclock]
    have hx : (∃ c, hourText = [c] ∧ time.isDigit c = true ∧ (h : Int) = time.digitVal c)
        ∨ (∃ c0 c1, hourText = [c0, c1] ∧ time.isDigit c0 = true ∧ time.isDigit c1 = true
            ∧ (h : Int) = time.digitVal c0 * 10 + time.digitVal c1) := by
      rcases hhour with hh2 | ⟨h10, hh1⟩
      · obtain ⟨a1, a2, a3⟩ := twoDigits_val h (by omega)
        exact Or.inr ⟨_, _, hh2, a1, a2, a3.symm⟩
      · obtain ⟨a1, a2⟩ := digitChar_isDigit h h10
        exact Or.inl ⟨_, hh1, a1, a2.symm⟩
    have := time.parse_layoutClock hourText _ _ timezone h hx hN1 hN2 (by omega)
      (by rw [hNv]; omega)
    rw [hNv] at this
    simp only [twoDigits]
    rw [this]
    rfl
  have hm0' : (1 : Int) ≤ m := by omega
  have hm' : (m : Int) ≤ 12 := by omega
  have hd0' : (1 : Int) ≤ d := by omega
  have hh0' : (0 : Int) ≤ h := by omega
  have hh' : (h : Int) < 24 := by omega
  have hmi0' : (0 : Int) ≤ mi := by omega
  have hmi' : (mi : Int) < 60 := by omega
  have acc0 := time.Date_Month_Day 0 m d 0 0 0 0 timezone hm0' hm' hd0' hd (le_refl 0) (by decide)
    (le_refl 0) (by decide) (le_refl 0) (by decide) (le_refl 0) (by decide)
  have acc1 := time.Date_Year 0 1 1 h mi 0 0 timezone (by decide) (by decide) (by decide)
    (by decide) hh0' hh' hmi0' hmi' (le_refl 0) (by decide) (le_refl 0) (by decide)
  -- `StartedAt` is `Date` of these four values in one of two years
  have key : ∀ y : Int,
      (time.Date y m d h mi 0 0 timezone).Hour = h ∧ (time.Date y m d h mi 0 0 timezone).Minute = mi
      ∧ (time.Date y m d h mi 0 0 timezone).Second = 0
      ∧ (time.Date y m d h mi 0 0 timezone).nsec = 0
      ∧ (time.Date y m d h mi 0 0 timezone).loc = timezone
      ∧ (time.Date y m d h mi 0 0 timezone).Year = y
      ∧ ((d : Int) ≤ time.daysIn m y →
          (time.Date y m d h mi 0 0 timezone).Month = m ∧ (time.Date y m d h mi 0 0 timezone).Day = d)
      ∧ (time.daysIn m y < (d : Int) →
          m = 2 ∧ d = 29 ∧ (time.Date y m d h mi 0 0 timezone).Month = 3
            ∧ (time.Date y m d h mi 0 0 timezone).Day = 1) := by
    intro y
    obtain ⟨a1, a2, a3, a4⟩ := time.Date_Year y m d h mi 0 0 timezone hm0' hm' hd0' hd hh0' hh'
      hmi0' hmi' (le_refl 0) (by decide) (le_refl 0) (by decide)
    obtain ⟨-, b2, b3⟩ := time.Date_abs y m d h mi 0 0 timezone hm0' hm' hh0' hh' hmi0' hmi'
      (le_refl 0) (by decide) (le_refl 0) (by decide)
    refine ⟨a2, a3, a4, b2, b3, a1, ?_, ?_⟩
    · intro hdy
      exact time.Date_Month_Day y m d h mi 0 0 timezone hm0' hm' hd0' hdy hh0' hh' hmi0' hmi'
        (le_refl 0) (by decide) (le_refl 0) (by decide)
    · intro hdy
      have h0 : time.isLeap 0 = true := by decide
      have hcase : (m : Int) = 2 ∧ (d : Int) = 29 ∧ time.isLeap y = false := by
        unfold time.daysIn at hd hdy
        rw [h0] at hd
        cases hl : time.isLeap y <;> rw [hl] at hdy <;> generalize (m : Int) = mm at * <;>
          interval_cases mm <;> simp [time.daysBefore] at hd hdy ⊢ <;> omega
      obtain ⟨e1, e2, e3⟩ := hcase
      have e1' : m = 2 := by omega
      have e2' : d = 29 := by omega
      subst e1' e2'
      have hfeb := time.Date_feb29 y h mi 0 0 timezone e3 hh0' hh' hmi0' hmi' (le_refl 0)
        (by decide) (le_refl 0) (by decide)
      have hmar := time.Date_Month_Day y 3 1 h mi 0 0 timezone (by decide) (by decide)
        (by decide) (by unfold time.daysIn; simp [time.daysBefore]) hh0' hh' hmi0' hmi'
        (le_refl 0) (by decide) (le_refl 0) (by decide)
      refine ⟨rfl, rfl, ?_, ?_⟩
      · show (time.Date y ((2 : Nat) : Int) ((29 : Nat) : Int) h mi 0 0 timezone).Month = 3
        have : (time.Date y ((2 : Nat) : Int) ((29 : Nat) : Int) h mi 0 0 timezone)
            = time.Date y 2 29 h mi 0 0 timezone := rfl
        rw [this, hfeb]; exact hmar.1
      · show (time.Date y ((2 : Nat) : Int) ((29 : Nat) : Int) h mi 0 0 timezone).Day = 1
        have : (time.Date y ((2 : Nat) : Int) ((29 : Nat) : Int) h mi 0 0 timezone)
            = time.Date y 2 29 h mi 0 0 timezone := rfl
        rw [this, hfeb]; exact hmar.2
  have hstart : order.getTimes.2 = time.Date order.getTimes.1.Year m d h mi 0 0 timezone
      ∨ order.getTimes.2 = time.Date (order.getTimes.1.Year + 1) m d h mi 0 0 timezone := by
    unfold originalOrder.getTimes
    simp only [pm, pt, acc0.1, acc0.2, acc1.2.1, acc1.2.2.1]
    split_ifs
    · exact Or.inr rfl
    · exact Or.inl rfl
  rcases hstart with e | e
  · rw [e]
    obtain ⟨k1, k2, k3, k4, k5, k6, k7, k8⟩ := key order.getTimes.1.Year
    exact ⟨k1, k2, k3, k4, k5, Or.inl k6, by rw [k6]; exact k7, by rw [k6]; exact k8⟩
  · rw [e]
    obtain ⟨k1, k2, k3, k4, k5, k6, k7, k8⟩ := key (order.getTimes.1.Year + 1)
    exact ⟨k1, k2, k3, k4, k5, Or.inr k6, by rw [k6]; exact k7, by rw [k6]; exact k8⟩

/-- The record created on 2023-12-30 for 01月05日 08:00, an instance of C9 as
amended. -/
theorem getTimes_startedAt_fields_witness :
    (rawRecord "2023-12-30 10:00:00" "01月05日 08:00").getTimes.2.Hour = 8
      ∧ (rawRecord "2023-12-30 10:00:00" "01月05日 08:00").getTimes.2.Minute = 0
      ∧ (rawRecord "2023-12-30 10:00:00" "01月05日 08:00").getTimes.2.loc = timezone
      ∧ ((rawRecord "2023-12-30 10:00:00" "01月05日 08:00").getTimes.2.Month = 1
          ∧ (rawRecord "2023-12-30 10:00:00" "01月05日 08:00").getTimes.2.Day = 5) :=
  have h := getTimes_startedAt_fields (rawRecord "2023-12-30 10:00:00" "01月05日 08:00") 1 5 8 0
    (twoDigits 8) (by decide) (by decide) (by decide) (by decide) (by decide) (by decide)
    (Or.inl rfl) (by decide) (by decide)
  ⟨h.1, h.2.1, h.2.2.2.2.1, h.2.2.2.2.2.2.1 (by decide)⟩

namespace Main

/-! ## The report driver: the columns that hold "-" -/

theorem Format_ne_dash (t : time.Time) : t.Format time.layoutMinute ≠ "-" := by
  intro h
  have h1 := congrArg (fun s => s.data.length) h
  simp only [Format_layoutMinute, List.length_append, List.length_cons, List.length_nil] at h1
  omega

/-- Whichever way the loop variable is declared, `getTimes` returns no `nil`
for an order with a route. -/
theorem getTimes_some (sem : LoopVar) (order : Order) (h : order.Routes ≠ []) :
    ∃ c s, getTimes sem order = (some c, some s) := by
  cases sem with
  | perIteration =>
    obtain ⟨c, s, hg, -⟩ := getTimes_perIteration_min order h
    exact ⟨c, s, hg⟩
  | perLoop => exact ⟨_, _, getTimes_perLoop_last order h⟩

/-- C10, counterexample: the order built from a raw record whose `strive_time`
does not parse has a route whose `CreatedAt` is the zero time, and the
received-time column of its CSV row is "0001-01-01 00:00", not "-". -/
theorem zero_time_is_formatted :
    unparsedOrder.Routes.map Route.CreatedAt = [time.Time.zero]
      ∧ (getTimes .perIteration unparsedOrder).1 = some time.Time.zero
      ∧ csvColumns .perIteration unparsedOrder
          = ["Z", "0001-01-01 00:00", "0002-01-01 00:00", "否", "0", ""]
      ∧ csvColumns .perLoop unparsedOrder
          = ["Z", "0001-01-01 00:00", "0002-01-01 00:00", "否", "0", ""] := by
  decide

/-- C10, amended: the received-time column and the start-time column of the
CSV row of an order are "-" when the order has no route, the case in which
`getTimes` returns `nil` for the missing timestamp; for an order with a route
each of the two columns is a formatted time and never "-", the zero time
being written 0001-01-01 00:00 like any other. -/
theorem csv_dash_iff_no_route (sem : LoopVar) (order : Order) :
    (order.Routes = [] →
        getTimes sem order = (none, none)
          ∧ (csvColumns sem order).take 3 = [order.Id, "-", "-"])
      ∧ (order.Routes ≠ [] →
        ∃ c s, getTimes sem order = (some c, some s)
          ∧ (csvColumns sem order).take 3
              = [order.Id, c.Format time.layoutMinute, s.Format time.layoutMinute]
          ∧ c.Format time.layoutMinute ≠ "-" ∧ s.Format time.layoutMinute ≠ "-")
      ∧ formatTime (some time.Time.zero) = "0001-01-01 00:00" := by
  refine ⟨fun h => ?_, fun h => ?_, by decide⟩
  · have hg : getTimes sem order = (none, none) := by
      unfold getTimes
      rw [h]
      rfl
    refine ⟨hg, ?_⟩
    unfold csvColumns
    rw [hg]
    rfl
  · obtain ⟨c, s, hg⟩ := getTimes_some sem order h
    refine ⟨c, s, hg, ?_, Format_ne_dash c, Format_ne_dash s⟩
    unfold csvColumns
    rw [hg]
    rfl

end Main

/-! ## `toOrders`: no order without a route -/

theorem toOrders_routes_ne_nil (o : originalOrders) (order : Order)
    (h : order ∈ o.toOrders.Orders) : order.Routes ≠ [] := by
  rw [toOrders_Orders_eq, List.mem_map] at h
  obtain ⟨raw, hraw, rfl⟩ := h
  have hq : raw.qualifies = true := (List.mem_filter.mp hraw).2
  intro hnil
  have := (routes_eq_nil_iff raw).mp hnil
  rw [hq] at this
  exact absurd this (by decide)

/-- C11: every order in the output of `toOrders` has a non-empty `Routes`
list. -/
theorem toOrders_routes_nonempty (o : originalOrders) :
    ∀ order ∈ o.toOrders.Orders, order.Routes ≠ [] ∧ 1 ≤ order.Routes.length := by
  intro order horder
  have h := toOrders_routes_ne_nil o order horder
  exact ⟨h, List.length_pos.mpr h⟩

/-- The second order of the sample page, whose only route comes from its order
group, an instance of C11. -/
theorem toOrders_routes_nonempty_witness :
    (sampleRecord "B" "3" [] [sampleRecord "B1" "4" ["1人"] [], sampleRecord "B2" "1" [] []]).toOrder
        ∈ samplePage.toOrders.Orders
      ∧ (sampleRecord "B" "3" [] [sampleRecord "B1" "4" ["1人"] [],
          sampleRecord "B2" "1" [] []]).toOrder.Routes.length = 1 :=
  have h := toOrders_routes_nonempty samplePage
    (sampleRecord "B" "3" [] [sampleRecord "B1" "4" ["1人"] [], sampleRecord "B2" "1" [] []]).toOrder
    (by decide)
  ⟨by decide, le_antisymm (by decide) h.2⟩

namespace time

theorem Date_loc (y m d h mi s ns : Int) (loc : Location) :
    (Date y m d h mi s ns loc).loc = loc := by
  unfold Date
  rfl

theorem parse_loc (layout : Layout) (value : List Char) (loc : Location) (t : Time)
    (h : parse layout value loc = some t) : t.loc = loc := by
  obtain ⟨y, m, d, hh, mi, s, ns, ht, -⟩ := parse_eq_Date layout value loc t h
  rw [ht, Date_loc]

end time

/-! ## `toRoute`: the zone of the two timestamps -/

theorem getTimes_createdAt (order : originalOrder) :
    order.getTimes.1 = time.ParseInLocation time.layoutDateTime order.StriveTime timezone := rfl

theorem getTimes_startedAt_loc (order : originalOrder) : order.getTimes.2.loc = timezone := by
  unfold originalOrder.getTimes
  simp only
  split_ifs <;> exact time.Date_loc _ _ _ _ _ _ _ _

theorem toRoute_times (order : originalOrder) :
    order.toRoute.CreatedAt = order.getTimes.1 ∧ order.toRoute.StartedAt = order.getTimes.2 :=
  ⟨rfl, rfl⟩

/-- C13, counterexample: a raw record whose `strive_time` is empty gets the zero
time as `CreatedAt`, and the zone of the zero time is UTC, offset 0, not
UTC+8; its `StartedAt` is in UTC+8. -/
theorem toRoute_createdAt_utc :
    (rawRecord "" "01月05日 08:00").toRoute.CreatedAt = time.Time.zero
      ∧ (rawRecord "" "01月05日 08:00").toRoute.CreatedAt.loc = time.UTC
      ∧ (rawRecord "" "01月05日 08:00").toRoute.CreatedAt.loc.offset = 0
      ∧ timezone.offset = 28800
      ∧ (rawRecord "" "01月05日 08:00").toRoute.StartedAt.loc = timezone := by
  decide

/-- C13, amended: for every raw record the `StartedAt` of the route built by
`toRoute` carries the fixed zone UTC+8, and so does its `CreatedAt` whenever
`strive_time` is accepted by the layout; when it is not, `CreatedAt` is the
zero time, whose zone is UTC.  No function involved takes the local zone of
the environment as an input. -/
theorem toRoute_zone (order : originalOrder) :
    order.toRoute.StartedAt.loc = timezone
      ∧ (∀ t, time.parse time.layoutDateTime order.StriveTime.data timezone = some t →
          order.toRoute.CreatedAt = t ∧ order.toRoute.CreatedAt.loc = timezone)
      ∧ (time.parse time.layoutDateTime order.StriveTime.data timezone = none →
          order.toRoute.CreatedAt = time.Time.zero ∧ order.toRoute.CreatedAt.loc = time.UTC) := by
  refine ⟨getTimes_startedAt_loc order, fun t ht => ?_, fun hnone => ?_⟩
  · have e : order.toRoute.CreatedAt = t := by
      show order.getTimes.1 = t
      rw [getTimes_createdAt]
      unfold time.ParseInLocation
      rw [ht]
      rfl
    exact ⟨e, by rw [e]; exact time.parse_loc _ _ _ _ ht⟩
  · have e : order.toRoute.CreatedAt = time.Time.zero := by
      show order.getTimes.1 = time.Time.zero
      rw [getTimes_createdAt]
      unfold time.ParseInLocation
      rw [hnone]
      rfl
    exact ⟨e, by rw [e]; rfl⟩

namespace Main

/-! ## The report driver: no "-" in the rows of normalised orders -/

theorem getTimes_nil_iff (sem : LoopVar) (order : Order) :
    ((getTimes sem order).1 = none ↔ order.Routes = [])
      ∧ ((getTimes sem order).2 = none ↔ order.Routes = []) := by
  by_cases h : order.Routes = []
  · have hg : getTimes sem order = (none, none) := by
      unfold getTimes
      rw [h]
      rfl
    rw [hg]
    exact ⟨⟨fun _ => h, fun _ => rfl⟩, ⟨fun _ => h, fun _ => rfl⟩⟩
  · obtain ⟨c, s, hg⟩ := getTimes_some sem order h
    rw [hg]
    exact ⟨⟨fun hn => absurd hn (by simp), fun hn => absurd hn h⟩,
      ⟨fun hn => absurd hn (by simp), fun hn => absurd hn h⟩⟩

/-- C18: for every order produced by `toOrders`, `getTimes` of `main.go`
returns two pointers that are not `nil`, whichever way the loop variable is
declared, so `formatTime` does not take its "-" branch for the two time
columns of the order's CSV row; for an arbitrary order a pointer is `nil`
exactly when the order has no route. -/
theorem getTimes_non_nil (sem : LoopVar) (o : originalOrders) :
    ∀ order ∈ o.toOrders.Orders,
      (∃ c s, getTimes sem order = (some c, some s)
        ∧ (csvColumns sem order).take 3 = [order.Id, formatTime (some c), formatTime (some s)]
        ∧ formatTime (some c) ≠ "-" ∧ formatTime (some s) ≠ "-")
      ∧ (∀ other : Order, ((getTimes sem other).1 = none ↔ other.Routes = [])
          ∧ ((getTimes sem other).2 = none ↔ other.Routes = [])) := by
  intro order horder
  obtain ⟨c, s, hg⟩ := getTimes_some sem order (toOrders_routes_ne_nil o order horder)
  refine ⟨⟨c, s, hg, ?_, Format_ne_dash c, Format_ne_dash s⟩, getTimes_nil_iff sem⟩
  unfold csvColumns
  rw [hg]
  rfl

/-- The first order of the sample page, an instance of C18. -/
theorem getTimes_non_nil_witness :
    (sampleRecord "A" "4" ["3人", "2人"] []).toOrder ∈ samplePage.toOrders.Orders
      ∧ ∃ c s, getTimes .perIteration (sampleRecord "A" "4" ["3人", "2人"] []).toOrder
          = (some c, some s) :=
  have h := getTimes_non_nil .perIteration samplePage
    (sampleRecord "A" "4" ["3人", "2人"] []).toOrder (by decide)
  ⟨by decide, h.1.imp (fun _ hc => hc.imp (fun _ hs => hs.1))⟩

/-! ## The report driver: termination under a page limit -/

theorem loopCond_at_limit (number : Int) (hn : 0 < number) (srv : Nat → String → originalOrders) :
    loopCond number (stateAfter (alwaysOk srv) number.toNat) = false := by
  rw [loopCond_stateAfter]
  exact Or.inr ⟨by omega, by omega⟩

/-- C14: for a positive page limit `number`, when no fetch fails, the loop of
`main` finishes after `k` calls of `GetOrders` for some `k ≤ number`, whatever
the pages hold: run for `k` turns or more it has finished in the state reached
after `k` turns, in which `k` calls have been made.  When every page has
orders, `k` is `number`. -/
theorem driver_terminates_within_limit (number : Int) (hn : 0 < number)
    (srv : Nat → String → originalOrders) :
    ∃ k : Nat, (k : Int) ≤ number
      ∧ (∀ fuel, k ≤ fuel → runLoop number (alwaysOk srv) fuel DriverState.init
          = .finished (stateAfter (alwaysOk srv) k))
      ∧ (stateAfter (alwaysOk srv) k).requested.length = k
      ∧ (stateAfter (alwaysOk srv) k).count = k
      ∧ ((∀ i, emptyPage (alwaysOk srv) i = false) → (k : Int) = number) := by
  have hex : ∃ k, loopCond number (stateAfter (alwaysOk srv) k) = false :=
    ⟨number.toNat, loopCond_at_limit number hn srv⟩
  have hle : Nat.find hex ≤ number.toNat := Nat.find_min' hex (loopCond_at_limit number hn srv)
  have hstop := Nat.find_spec hex
  have hrun : ∀ j < Nat.find hex, loopCond number (stateAfter (alwaysOk srv) j) = true := by
    intro j hj
    have := Nat.find_min hex hj
    cases hc : loopCond number (stateAfter (alwaysOk srv) j)
    · exact absurd hc this
    · rfl
  refine ⟨Nat.find hex, by omega, fun fuel hfuel => ?_, (count_stateAfter srv _).2,
    (count_stateAfter srv _).1, fun hall => ?_⟩
  · obtain ⟨f, rfl⟩ := Nat.exists_eq_add_of_le hfuel
    rw [runLoop_add number srv _ f hrun]
    exact runLoop_finished number _ f _ hstop
  · rcases (loopCond_stateAfter number srv _).mp hstop with ⟨-, h1, -⟩ | ⟨-, h2⟩
    · rw [hall] at h1
      exact absurd h1 (by decide)
    · omega

/-- A server all of whose pages have orders, under a limit of three pages: the
loop finishes within three fetches, an instance of C14. -/
theorem driver_terminates_within_limit_witness :
    ∃ k : Nat, (k : Int) ≤ 3
      ∧ (∀ fuel, k ≤ fuel → runLoop 3 (alwaysOk (fun _ _ => samplePage)) fuel DriverState.init
          = .finished (stateAfter (alwaysOk (fun _ _ => samplePage)) k)) :=
  (driver_terminates_within_limit 3 (by decide) (fun _ _ => samplePage)).imp
    (fun _ h => ⟨h.1, h.2.1⟩)

/-! ## The report driver: the cursor and the accumulated orders -/

theorem runLoop_outcome (number : Int) (srv : Nat → String → originalOrders) (fuel j : Nat) :
    ∃ k, j ≤ k ∧ k ≤ j + fuel
      ∧ (runLoop number (alwaysOk srv) fuel (stateAfter (alwaysOk srv) j)
            = .finished (stateAfter (alwaysOk srv) k)
          ∨ runLoop number (alwaysOk srv) fuel (stateAfter (alwaysOk srv) j)
            = .running (stateAfter (alwaysOk srv) k)) := by
  induction fuel generalizing j with
  | zero =>
    refine ⟨j, le_refl _, le_refl _, ?_⟩
    unfold runLoop
    split_ifs
    · exact Or.inr rfl
    · exact Or.inl rfl
  | succ fuel ih =>
    unfold runLoop
    by_cases hc : loopCond number (stateAfter (alwaysOk srv) j) = true
    · obtain ⟨o, -, -, hb⟩ := stateAfter_succ srv j
      obtain ⟨k, h1, h2, h3⟩ := ih (j + 1)
      simp only [hc, if_true, hb]
      exact ⟨k, by omega, by omega, h3⟩
    · simp only [hc, if_false]
      exact ⟨j, le_refl _, by omega, Or.inl rfl⟩

theorem requested_stateAfter (srv : Nat → String → originalOrders) (k : Nat) :
    (stateAfter (alwaysOk srv) k).requested = (List.range k).map (monthArg (alwaysOk srv))
      ∧ (stateAfter (alwaysOk srv) k).orders
          = ((List.range k).map (pageOrders (alwaysOk srv))).flatten := by
  induction k with
  | zero => exact ⟨rfl, rfl⟩
  | succ k ih =>
    obtain ⟨o, ho, hs, -⟩ := stateAfter_succ srv k
    rw [hs, List.range_succ, List.map_append, List.map_append, List.flatten_append]
    simp only [ih.1, ih.2, List.map_singleton, List.flatten_singleton, monthArg, pageOrders, ho,
      and_self]

theorem page_alwaysOk (srv : Nat → String → originalOrders) (i : Nat) :
    page (alwaysOk srv) i = some (srv i (monthArg (alwaysOk srv) i)).toOrders
      ∧ monthArg (alwaysOk srv) (i + 1) = (srv i (monthArg (alwaysOk srv) i)).NextMonth := by
  obtain ⟨o, ho, hs, -⟩ := stateAfter_succ srv i
  have e : page (alwaysOk srv) i = some (srv i (monthArg (alwaysOk srv) i)).toOrders := by
    have hl := (count_stateAfter srv i).2
    unfold page GetOrders monthArg
    rw [hl]
    rfl
  refine ⟨e, ?_⟩
  rw [e] at ho
  have : o = (srv i (monthArg (alwaysOk srv) i)).toOrders := (Option.some.inj ho).symm
  unfold monthArg at *
  rw [hs, this]
  rfl

/-- C15: in every run of the loop of `main` in which no fetch fails, stopped
or still running after `fuel` turns, the state is the one reached after some
number `k` of fetches; fetch 0 is made with the empty month, fetch `i + 1`
with the `NextMonth` of the page fetched by fetch `i` (which `toOrders` copies
from the reply), the months requested are these, in this order, and the
accumulated order list is the concatenation, in fetch order, of the `Orders`
of the pages fetched, each as the page holds them. -/
theorem driver_follows_cursor (number : Int) (srv : Nat → String → originalOrders) (fuel : Nat) :
    ∃ k, k ≤ fuel
      ∧ (runLoop number (alwaysOk srv) fuel DriverState.init
            = .finished (stateAfter (alwaysOk srv) k)
          ∨ runLoop number (alwaysOk srv) fuel DriverState.init
            = .running (stateAfter (alwaysOk srv) k))
      ∧ (stateAfter (alwaysOk srv) k).requested = (List.range k).map (monthArg (alwaysOk srv))
      ∧ monthArg (alwaysOk srv) 0 = ""
      ∧ (∀ i, page (alwaysOk srv) i = some (srv i (monthArg (alwaysOk srv) i)).toOrders
          ∧ monthArg (alwaysOk srv) (i + 1)
              = (srv i (monthArg (alwaysOk srv) i)).toOrders.NextMonth
          ∧ (srv i (monthArg (alwaysOk srv) i)).toOrders.NextMonth
              = (srv i (monthArg (alwaysOk srv) i)).NextMonth)
      ∧ (stateAfter (alwaysOk srv) k).orders
          = ((List.range k).map (pageOrders (alwaysOk srv))).flatten
      ∧ (∀ i, pageOrders (alwaysOk srv) i
          = (srv i (monthArg (alwaysOk srv) i)).toOrders.Orders) := by
  obtain ⟨k, -, hk, hrun⟩ := runLoop_outcome number srv fuel 0
  refine ⟨k, by omega, hrun, (requested_stateAfter srv k).1, rfl, fun i => ?_,
    (requested_stateAfter srv k).2, fun i => ?_⟩
  · exact ⟨(page_alwaysOk srv i).1, (page_alwaysOk srv i).2, rfl⟩
  · unfold pageOrders
    rw [(page_alwaysOk srv i).1]

end Main

namespace time

theorem daysSinceEpoch_closed (y : Int) :
    daysSinceEpoch y = 365 * (y - absoluteZeroYear) + (y - absoluteZeroYear) / 4
      - (y - absoluteZeroYear) / 100 + (y - absoluteZeroYear) / 400 := by
  obtain ⟨a, b, c, e, hb0, hb, hc0, hc, he0, he, hy, hd⟩ := daysSinceEpoch_decomp y
  rw [hd]
  have hY : y - absoluteZeroYear = 400 * a + 100 * b + 4 * c + e := by omega
  rw [hY]
  have h4 : (400 * a + 100 * b + 4 * c + e) / 4 = 100 * a + 25 * b + c := by omega
  have h100 : (400 * a + 100 * b + 4 * c + e) / 100 = 4 * a + b := by omega
  have h400 : (400 * a + 100 * b + 4 * c + e) / 400 = a := by omega
  rw [h4, h100, h400]
  ring

theorem daysSinceEpoch_succ (y : Int) :
    daysSinceEpoch (y + 1) = daysSinceEpoch y + 365 + (if isLeap y = true then 1 else 0) := by
  rw [daysSinceEpoch_closed, daysSinceEpoch_closed]
  have hl := isLeap_iff y
  simp only [absoluteZeroYear] at *
  by_cases h : isLeap y = true
  · rw [if_pos h]
    have := hl.mp h
    omega
  · rw [if_neg h]
    have : ¬ (y % 4 = 0 ∧ (y % 100 ≠ 0 ∨ y % 400 = 0)) := fun hh => h (hl.mpr hh)
    omega

end time

/-! ## `getTimes`: `StartedAt` is not before `CreatedAt` -/

theorem Date_sec (y m d h mi s ns : Int) (loc : time.Location) (hm0 : 1 ≤ m) (hm : m ≤ 12)
    (hh0 : 0 ≤ h) (hh : h < 24) (hmi0 : 0 ≤ mi) (hmi : mi < 60) (hs0 : 0 ≤ s) (hs : s < 60)
    (hns0 : 0 ≤ ns) (hns : ns < 1000000000) :
    (time.Date y m d h mi s ns loc).sec
      = (time.daysSinceEpoch y + time.ydayOf y m d) * 86400 + (h * 3600 + mi * 60 + s)
          - time.internalToAbsolute - loc.offset := by
  obtain ⟨habs, -, hloc⟩ := time.Date_abs y m d h mi s ns loc hm0 hm hh0 hh hmi0 hmi hs0 hs hns0 hns
  unfold time.Time.abs at habs
  rw [hloc] at habs
  omega

/-- The departure placed in the year after the one of a time kept from
`ParseInLocation` with the layout of `strive_time` is not before that time. -/
theorem next_year_not_before (value : String) (m d h mi : Int) (hm0 : 1 ≤ m) (hm : m ≤ 12)
    (hd0 : 1 ≤ d) (hd : d ≤ time.daysIn m 0) (hh0 : 0 ≤ h) (hh : h < 24) (hmi0 : 0 ≤ mi)
    (hmi : mi < 60) :
    (time.Date ((time.ParseInLocation time.layoutDateTime value timezone).Year + 1) m d h mi 0 0
        timezone).Before (time.ParseInLocation time.layoutDateTime value timezone) = false := by
  rw [Bool.eq_false_iff, Ne, Main.Before_iff]
  have hstart := fun y => Date_sec y m d h mi 0 0 timezone hm0 hm hh0 hh hmi0 hmi (le_refl 0)
    (by decide) (le_refl 0) (by decide)
  have hyd := fun y => (time.ydayOf_bounds y m d hm0 hm hd0 hd).1
  have htz : timezone.offset = 28800 := rfl
  unfold time.ParseInLocation
  cases hp : time.parse time.layoutDateTime value.data timezone with
  | none =>
    have hy : time.Time.zero.Year = 1 := by decide
    have hs : time.Time.zero.sec = 0 := rfl
    have h2 : time.daysSinceEpoch 2 * 86400 = time.internalToAbsolute + 365 * 86400 := by decide
    simp only [Option.getD_none, hy, hs]
    have e := hstart (1 + 1)
    have e' := hyd (1 + 1)
    rw [e, htz]
    norm_num at e' h2 ⊢
    omega
  | some t =>
    obtain ⟨y, m', d', h', mi', s', ns', ht, hm0', hm', hd0', hd', hh0', hh', hmi0', hmi', hs0',
      hs', hns0', hns'⟩ := time.parse_eq_Date _ _ _ _ hp
    simp only [Option.getD_some]
    have hle := le_trans hd' (time.daysIn_le m' y hm0' hm')
    have hyear := (time.Date_Year y m' d' h' mi' s' ns' timezone hm0' hm' hd0' hle hh0' hh' hmi0'
      hmi' hs0' hs' hns0' hns').1
    have hsec := Date_sec y m' d' h' mi' s' ns' timezone hm0' hm' hh0' hh' hmi0' hmi' hs0' hs'
      hns0' hns'
    obtain ⟨hb0, hb⟩ := time.ydayOf_bounds y m' d' hm0' hm' hd0' hle
    have hsucc := time.daysSinceEpoch_succ y
    rw [ht, hyear, hsec, hstart (y + 1), hsucc]
    have e' := hyd (y + 1)
    by_cases hl : time.isLeap y = true
    · rw [if_pos hl]
      omega
    · rw [if_neg hl]
      have : time.ydayOf y m' d' < 365 := by
        rcases hb with hb | ⟨-, hb⟩
        · exact hb
        · exact absurd hb hl
      omega

/-- C17: for every raw record, whatever its `strive_time` and `departure_time`,
the `StartedAt` returned by `getTimes` is not before the `CreatedAt` it
returns: when the departure placed in the year of `CreatedAt` is before
`CreatedAt`, the departure placed in the next year is not. -/
theorem getTimes_startedAt_not_before (order : originalOrder) :
    order.getTimes.2.Before order.getTimes.1 = false
      ∧ (order.departureInCreationYear.Before order.getTimes.1 = true →
          order.getTimes.2.Year = order.getTimes.1.Year + 1
            ∧ order.getTimes.2.Before order.getTimes.1 = false) := by
  obtain ⟨hm0, hm, hd0, hd, -⟩ := time.ParseInLocation_ranges time.layoutMonthDay
    (reDepartureTimeMonth.FindString order.DepartureTime) timezone
  obtain ⟨-, -, -, -, hh0, hh, hmi0, hmi⟩ := time.ParseInLocation_ranges time.layoutClock
    (reDepartureTimeTime.FindString order.DepartureTime) timezone
  have key := next_year_not_before order.StriveTime _ _ _ _ hm0 hm hd0 hd hh0 hh hmi0 hmi
  have hyear := fun y => (time.Date_Year y _ _ _ _ 0 0 timezone hm0 hm hd0 hd hh0 hh hmi0 hmi
    (le_refl 0) (by decide) (le_refl 0) (by decide)).1
  have main : order.getTimes.2.Before order.getTimes.1 = false := by
    unfold originalOrder.getTimes
    simp only
    split_ifs with hb
    · exact key
    · exact Bool.eq_false_iff.mpr hb
  refine ⟨main, fun hb => ⟨?_, main⟩⟩
  unfold originalOrder.getTimes originalOrder.departureInCreationYear at *
  simp only at hb ⊢
  rw [if_pos hb]
  exact hyear _

namespace time

theorem getnum_fixed_inv (v rest : List Char) (n : Int) (h : getnum v true = some (n, rest)) :
    ∃ c0 c1, v = c0 :: c1 :: rest ∧ isDigit c0 = true ∧ isDigit c1 = true
      ∧ n = digitVal c0 * 10 + digitVal c1 := by
  unfold getnum at h
  split at h
  · exact absurd h (by simp)
  · rename_i c0 r
    split at h
    · exact absurd h (by simp)
    · rename_i h0
      split at h
      · simp at h
      · rename_i c1 r2
        split at h
        · simp at h
        · rename_i h1
          simp only [Option.some.injEq, Prod.mk.injEq] at h
          obtain ⟨rfl, rfl⟩ := h
          exact ⟨c0, c1, rfl, by simpa using h0, by simpa using h1, rfl⟩

theorem getnum_free_inv (v rest : List Char) (n : Int) (h : getnum v false = some (n, rest)) :
    ∃ hs, v = hs ++ rest ∧ 1 ≤ hs.length ∧ hs.length ≤ 2 ∧ (∀ c ∈ hs, isDigit c = true) := by
  unfold getnum at h
  split at h
  · exact absurd h (by simp)
  · rename_i c0 r
    split at h
    · exact absurd h (by simp)
    · rename_i h0
      have h0' : isDigit c0 = true := by simpa using h0
      split at h
      · simp only [Bool.false_eq_true, if_false, Option.some.injEq, Prod.mk.injEq] at h
        obtain ⟨-, rfl⟩ := h
        exact ⟨[c0], rfl, by simp, by simp, by simpa using h0'⟩
      · rename_i c1 r2
        split at h
        · simp only [Bool.false_eq_true, if_false, Option.some.injEq, Prod.mk.injEq] at h
          obtain ⟨-, rfl⟩ := h
          exact ⟨[c0], rfl, by simp, by simp, by simpa using h0'⟩
        · rename_i h1
          simp only [Option.some.injEq, Prod.mk.injEq] at h
          obtain ⟨-, rfl⟩ := h
          refine ⟨[c0, c1], rfl, by simp, by simp, ?_⟩
          intro c hc
          simp only [List.mem_cons, List.mem_singleton, List.not_mem_nil, or_false] at hc
          rcases hc with rfl | rfl
          · exact h0'
          · simpa using h1

theorem skip_char_inv (value rest : List Char) (p : Char) (hp : p ≠ ' ')
    (h : skip value [p] = some rest) : value = p :: rest := by
  cases value with
  | nil => simp [skip, skipLoop, hp] at h
  | cons v vs =>
    rw [skip_char _ _ _ hp] at h
    split_ifs at h with hv
    simp only [Option.some.injEq] at h
    rw [h]
    have : v = p := by
      by_contra hne
      exact hv hne
    rw [this]

theorem skip_space_inv (value rest : List Char) (h : skip value [' '] = some rest) :
    (value = [] ∧ rest = [])
      ∨ ∃ spaces, value = ' ' :: spaces ++ rest ∧ ∀ c ∈ spaces, c = ' ' := by
  cases value with
  | nil =>
    simp [skip, skipLoop, cutspace] at h
    exact Or.inl ⟨rfl, h⟩
  | cons v vs =>
    right
    simp only [skip, skipLoop, List.length_singleton, if_true] at h
    split_ifs at h with hv
    simp only [Option.some.injEq] at h
    have hv' : v = ' ' := by
      by_contra hne
      exact hv hne
    subst hv'
    have hc : cutspace (' ' :: vs) = vs.dropWhile (fun c => c == ' ') := by
      simp [cutspace, List.dropWhile]
    rw [hc] at h
    refine ⟨vs.takeWhile (fun c => c == ' '), ?_, ?_⟩
    · rw [← h, List.cons_append, List.takeWhile_append_dropWhile]
    · intro c hc'
      have := List.mem_takeWhile_imp hc'
      simpa using this

theorem parseChunks_cons_inv (pre : List Char) (std : StdChunk)
    (chunks : List (List Char × StdChunk)) (f : Fields) (v : List Char) (r : Fields × List Char)
    (h : parseChunks ((pre, std) :: chunks) f v = some r) :
    ∃ v1 f1 v2, skip v pre = some v1 ∧ parseStd std f v1 = some (f1, v2)
      ∧ parseChunks chunks f1 v2 = some r := by
  simp only [parseChunks] at h
  split at h
  · exact absurd h (by simp)
  · rename_i v1 hv1
    split at h
    · exact absurd h (by simp)
    · rename_i f1 v2 hstd
      exact ⟨v1, f1, v2, hv1, hstd, h⟩

theorem parseStd_year_inv (f f1 : Fields) (v rest : List Char)
    (h : parseStd .stdLongYear f v = some (f1, rest)) :
    ∃ c0 c1 c2 c3, v = c0 :: c1 :: c2 :: c3 :: rest ∧ isDigit c0 = true ∧ isDigit c1 = true
      ∧ isDigit c2 = true ∧ isDigit c3 = true := by
  simp only [parseStd] at h
  split at h
  · rename_i c0 c1 c2 c3 r
    split_ifs at h with hd
    simp only [Option.some.injEq, Prod.mk.injEq] at h
    simp only [Bool.and_eq_true] at hd
    exact ⟨c0, c1, c2, c3, by rw [h.2], hd.1.1.1, hd.1.1.2, hd.1.2, hd.2⟩
  · exact absurd h (by simp)

theorem parseStd_two_inv (std : StdChunk) (f f1 : Fields) (v rest : List Char)
    (hstd : std = .stdZeroMonth ∨ std = .stdZeroDay ∨ std = .stdZeroMinute)
    (h : parseStd std f v = some (f1, rest)) :
    ∃ c0 c1, v = c0 :: c1 :: rest ∧ isDigit c0 = true ∧ isDigit c1 = true := by
  rcases hstd with rfl | rfl | rfl <;> simp only [parseStd] at h <;> split at h
  · rename_i n r hg
    split_ifs at h
    simp only [Option.some.injEq, Prod.mk.injEq] at h
    obtain ⟨c0, c1, hv, h0, h1, -⟩ := getnum_fixed_inv _ _ _ hg
    exact ⟨c0, c1, by rw [hv, h.2], h0, h1⟩
  · exact absurd h (by simp)
  · rename_i n r hg
    simp only [Option.some.injEq, Prod.mk.injEq] at h
    obtain ⟨c0, c1, hv, h0, h1, -⟩ := getnum_fixed_inv _ _ _ hg
    exact ⟨c0, c1, by rw [hv, h.2], h0, h1⟩
  · exact absurd h (by simp)
  · rename_i n r hg
    split_ifs at h
    simp only [Option.some.injEq, Prod.mk.injEq] at h
    obtain ⟨c0, c1, hv, h0, h1, -⟩ := getnum_fixed_inv _ _ _ hg
    exact ⟨c0, c1, by rw [hv, h.2], h0, h1⟩
  · exact absurd h (by simp)

theorem parseStd_hour_inv (f f1 : Fields) (v rest : List Char)
    (h : parseStd .stdHour f v = some (f1, rest)) :
    ∃ hs, v = hs ++ rest ∧ 1 ≤ hs.length ∧ hs.length ≤ 2 ∧ (∀ c ∈ hs, isDigit c = true) := by
  simp only [parseStd] at h
  split at h
  · rename_i n r hg
    split_ifs at h
    simp only [Option.some.injEq, Prod.mk.injEq] at h
    obtain ⟨hs, hv, h1, h2, h3⟩ := getnum_free_inv _ _ _ hg
    exact ⟨hs, by rw [hv, h.2], h1, h2, h3⟩
  · exact absurd h (by simp)

theorem parseStd_second_inv (f f1 : Fields) (v : List Char)
    (h : parseStd .stdZeroSecond f v = some (f1, [])) :
    ∃ s0 s1 frac, v = s0 :: s1 :: frac ∧ isDigit s0 = true ∧ isDigit s1 = true
      ∧ (frac = [] ∨ ∃ p ds, frac = p :: ds ∧ commaOrPeriod p = true ∧ ds ≠ []
          ∧ ∀ c ∈ ds, isDigit c = true) := by
  simp only [parseStd] at h
  split at h
  · rename_i n r hg
    obtain ⟨s0, s1, hv, h0, h1, -⟩ := getnum_fixed_inv _ _ _ hg
    split_ifs at h
    split at h
    · rename_i p d r2
      split_ifs at h with hcd
      · simp only [Option.some.injEq, Prod.mk.injEq] at h
        simp only [Bool.and_eq_true] at hcd
        refine ⟨s0, s1, p :: d :: r2, hv, h0, h1, Or.inr ⟨p, d :: r2, rfl, hcd.1, by simp, ?_⟩⟩
        intro c hc
        rcases List.mem_cons.mp hc with rfl | hc
        · exact hcd.2
        · have hall : r2.takeWhile isDigit = r2 := by
            have := List.takeWhile_append_dropWhile isDigit r2
            rw [h.2, List.append_nil] at this
            exact this
          rw [← hall] at hc
          exact List.mem_takeWhile_imp hc
      · simp at h
    · simp only [Option.some.injEq, Prod.mk.injEq] at h
      exact ⟨s0, s1, [], by rw [hv, h.2], h0, h1, Or.inl rfl⟩
  · exact absurd h (by simp)

/-- A text that the layout "2006-01-02 15:04:05" accepts has the extended
shape. -/
theorem parse_layoutDateTime_shape (v : List Char) (loc : Location) (t : Time)
    (h : parse layoutDateTime v loc = some t) : extendedDateTimeShape v := by
  unfold parse at h
  split at h
  · exact absurd h (by simp)
  · rename_i f rest hchunks
    have hrest : rest = [] := by
      have hsuf : layoutDateTime.suffix = [] := rfl
      rw [hsuf, skip_nil] at h
      simp only at h
      by_contra hne
      rw [if_pos hne] at h
      exact absurd h (by simp)
    subst hrest
    simp only [layoutDateTime] at hchunks
    obtain ⟨a1, f1, b1, ha1, hp1, hchunks⟩ := parseChunks_cons_inv _ _ _ _ _ _ hchunks
    obtain ⟨a2, f2, b2, ha2, hp2, hchunks⟩ := parseChunks_cons_inv _ _ _ _ _ _ hchunks
    obtain ⟨a3, f3, b3, ha3, hp3, hchunks⟩ := parseChunks_cons_inv _ _ _ _ _ _ hchunks
    obtain ⟨a4, f4, b4, ha4, hp4, hchunks⟩ := parseChunks_cons_inv _ _ _ _ _ _ hchunks
    obtain ⟨a5, f5, b5, ha5, hp5, hchunks⟩ := parseChunks_cons_inv _ _ _ _ _ _ hchunks
    obtain ⟨a6, f6, b6, ha6, hp6, hchunks⟩ := parseChunks_cons_inv _ _ _ _ _ _ hchunks
    simp only [parseChunks, Option.some.injEq, Prod.mk.injEq] at hchunks
    obtain ⟨-, rfl⟩ := hchunks
    rw [skip_nil, Option.some.injEq] at ha1
    subst ha1
    obtain ⟨y0, y1, y2, y3, hv1, hy0, hy1, hy2, hy3⟩ := parseStd_year_inv _ _ _ _ hp1
    have e2 := skip_char_inv _ _ '-' (by decide) ha2
    obtain ⟨m0, m1, hv2, hm0, hm1⟩ := parseStd_two_inv _ _ _ _ _ (Or.inl rfl) hp2
    have e3 := skip_char_inv _ _ '-' (by decide) ha3
    obtain ⟨d0, d1, hv3, hd0, hd1⟩ := parseStd_two_inv _ _ _ _ _ (Or.inr (Or.inl rfl)) hp3
    obtain ⟨hs, hv4, hl1, hl2, hhs⟩ := parseStd_hour_inv _ _ _ _ hp4
    have e5 := skip_char_inv _ _ ':' (by decide) ha5
    obtain ⟨n0, n1, hv5, hn0, hn1⟩ := parseStd_two_inv _ _ _ _ _ (Or.inr (Or.inr rfl)) hp5
    have e6 := skip_char_inv _ _ ':' (by decide) ha6
    obtain ⟨s0, s1, frac, hv6, hs0, hs1, hfrac⟩ := parseStd_second_inv _ _ _ hp6
    rcases skip_space_inv _ _ ha4 with ⟨-, hnil⟩ | ⟨spaces, hsp, hspaces⟩
    · rw [hnil] at hv4
      have : hs = [] := (List.append_eq_nil.mp hv4.symm).1
      rw [this] at hl1
      simp at hl1
    · refine ⟨y0, y1, y2, y3, m0, m1, d0, d1, spaces, hs, n0, n1, s0, s1, frac, ?_, hy0, hy1, hy2,
        hy3, hm0, hm1, hd0, hd1, hspaces, ⟨hl1, hl2, hhs⟩, hn0, hn1, hs0, hs1, hfrac⟩
      rw [hv1, e2, hv2, e3, hv3, hsp, hv4, e5, hv5, e6, hv6]
      simp

theorem skip_space_one (c : Char) (rest : List Char) (hc : isDigit c = true) :
    skip (' ' :: c :: rest) [' '] = some (c :: rest) := by
  have hne : c ≠ ' ' := by
    intro h
    rw [h] at hc
    exact absurd hc (by decide)
  have hb : (c == ' ') = false := by simpa using hne
  simp [skip, skipLoop, cutspace, List.dropWhile, hb]

theorem digitsVal_four (c0 c1 c2 c3 : Char) :
    digitsVal [c0, c1, c2, c3]
      = (digitVal c0 * 10 + digitVal c1) * 100 + (digitVal c2 * 10 + digitVal c3) := by
  simp [digitsVal]
  ring

/-- A text "YYYY-MM-DD HH:MM:SS" that names a day that exists and a valid clock
time parses, with the layout "2006-01-02 15:04:05", to that date and time. -/
theorem parse_layoutDateTime (y0 y1 y2 y3 m0 m1 d0 d1 h0 h1 n0 n1 s0 s1 : Char) (loc : Location)
    (hy0 : isDigit y0 = true) (hy1 : isDigit y1 = true) (hy2 : isDigit y2 = true)
    (hy3 : isDigit y3 = true) (hm0 : isDigit m0 = true) (hm1 : isDigit m1 = true)
    (hd0 : isDigit d0 = true) (hd1 : isDigit d1 = true) (hh0 : isDigit h0 = true)
    (hh1 : isDigit h1 = true) (hn0 : isDigit n0 = true) (hn1 : isDigit n1 = true)
    (hs0 : isDigit s0 = true) (hs1 : isDigit s1 = true)
    (hmlo : 1 ≤ digitVal m0 * 10 + digitVal m1) (hmhi : digitVal m0 * 10 + digitVal m1 ≤ 12)
    (hdlo : 1 ≤ digitVal d0 * 10 + digitVal d1)
    (hdhi : digitVal d0 * 10 + digitVal d1
      ≤ daysIn (digitVal m0 * 10 + digitVal m1) (digitsVal [y0, y1, y2, y3]))
    (hh : digitVal h0 * 10 + digitVal h1 < 24) (hn : digitVal n0 * 10 + digitVal n1 < 60)
    (hs : digitVal s0 * 10 + digitVal s1 < 60) :
    parse layoutDateTime
        [y0, y1, y2, y3, '-', m0, m1, '-', d0, d1, ' ', h0, h1, ':', n0, n1, ':', s0, s1] loc
      = some (Date (digitsVal [y0, y1, y2, y3]) (digitVal m0 * 10 + digitVal m1)
          (digitVal d0 * 10 + digitVal d1) (digitVal h0 * 10 + digitVal h1)
          (digitVal n0 * 10 + digitVal n1) (digitVal s0 * 10 + digitVal s1) 0 loc) := by
  have hdash : ('-' : Char) ≠ ' ' := by decide
  have hcolon : (':' : Char) ≠ ' ' := by decide
  have bh0 := digitVal_bounds h0 hh0
  have bh1 := digitVal_bounds h1 hh1
  have bn0 := digitVal_bounds n0 hn0
  have bn1 := digitVal_bounds n1 hn1
  have bs0 := digitVal_bounds s0 hs0
  have bs1 := digitVal_bounds s1 hs1
  have hmok : ¬ (digitVal m0 * 10 + digitVal m1 ≤ 0 ∨ 12 < digitVal m0 * 10 + digitVal m1) := by
    omega
  have hhok : ¬ (digitVal h0 * 10 + digitVal h1 < 0 ∨ 24 ≤ digitVal h0 * 10 + digitVal h1) := by
    omega
  have hnok : ¬ (digitVal n0 * 10 + digitVal n1 < 0 ∨ 60 ≤ digitVal n0 * 10 + digitVal n1) := by
    omega
  have hsok : ¬ (digitVal s0 * 10 + digitVal s1 < 0 ∨ 60 ≤ digitVal s0 * 10 + digitVal s1) := by
    omega
  have hmneg : ¬ digitVal m0 * 10 + digitVal m1 < 0 := by omega
  have hdneg : ¬ digitVal d0 * 10 + digitVal d1 < 0 := by omega
  have hdok : ¬ (digitVal d0 * 10 + digitVal d1 < 1
      ∨ digitVal d0 * 10 + digitVal d1
        > daysIn (digitVal m0 * 10 + digitVal m1) (digitsVal [y0, y1, y2, y3])) := by
    omega
  simp only [parse, layoutDateTime, parseChunks, skip_nil, parseStd, hy0, hy1, hy2, hy3,
    Bool.and_self, if_true, skip_char _ _ _ hdash, skip_char _ _ _ hcolon, ne_eq,
    not_true_eq_false, if_false, getnum_two _ _ _ _ hm0 hm1, getnum_two _ _ _ _ hd0 hd1,
    getnum_two _ _ _ _ hh0 hh1, getnum_two _ _ _ _ hn0 hn1, getnum_two _ _ _ _ hs0 hs1, hmok,
    hhok, hnok, hsok, skip_space_one _ _ hh0, Fields.init, hmneg, hdneg, hdok]

theorem cutspace_spaces (spaces : List Char) (c : Char) (rest : List Char)
    (hsp : ∀ x ∈ spaces, x = ' ') (hc : c ≠ ' ') :
    cutspace (spaces ++ c :: rest) = c :: rest := by
  induction spaces with
  | nil =>
    have hb : (c == ' ') = false := by simpa using hc
    simp [cutspace, List.dropWhile, hb]
  | cons a spaces ih =>
    have ha : a = ' ' := hsp a (List.mem_cons_self _ _)
    have ih := ih (fun x hx => hsp x (List.mem_cons_of_mem _ hx))
    subst ha
    unfold cutspace at ih ⊢
    rw [List.cons_append, List.dropWhile_cons]
    simpa using ih

/-- The space of the layout takes one or more spaces of the text. -/
theorem skip_spaces (spaces : List Char) (c : Char) (rest : List Char)
    (hsp : ∀ x ∈ spaces, x = ' ') (hc : isDigit c = true) :
    skip (' ' :: (spaces ++ c :: rest)) [' '] = some (c :: rest) := by
  have hne : c ≠ ' ' := by
    intro h
    rw [h] at hc
    exact absurd hc (by decide)
  have e := cutspace_spaces (' ' :: spaces) c rest (by
    intro x hx
    rcases List.mem_cons.mp hx with rfl | hx
    · rfl
    · exact hsp x hx) hne
  rw [List.cons_append] at e
  simp [skip, skipLoop, e]

/-- The hour of the layout "15" takes one or two digits in front of a colon. -/
theorem getnum_hour (hour rest : List Char) (h1 : 1 ≤ hour.length) (h2 : hour.length ≤ 2)
    (hd : ∀ c ∈ hour, isDigit c = true) :
    ∃ c tl, hour ++ ':' :: rest = c :: tl ∧ isDigit c = true
      ∧ getnum (c :: tl) false = some (digitsVal hour, ':' :: rest) := by
  rcases hour with _ | ⟨a, _ | ⟨b, _ | ⟨c, l⟩⟩⟩
  · simp at h1
  · have ha := hd a (by simp)
    refine ⟨a, ':' :: rest, rfl, ha, ?_⟩
    rw [getnum_one a ':' rest ha isDigit_colon]
    simp [digitsVal]
  · have ha := hd a (by simp)
    have hb := hd b (by simp)
    refine ⟨a, b :: ':' :: rest, rfl, ha, ?_⟩
    rw [getnum_two a b _ false ha hb]
    simp [digitsVal]
  · simp at h2

theorem digitsVal_two (a b : Char) : digitsVal [a, b] = digitVal a * 10 + digitVal b := by
  simp [digitsVal]

/-- The seconds of the layout "05" with what may follow them in the text:
nothing, or a fraction, which is read although the layout has none. -/
theorem parseStd_second (f : Fields) (s0 s1 : Char) (frac : List Char)
    (hs0 : isDigit s0 = true) (hs1 : isDigit s1 = true)
    (hfrac : frac = [] ∨ ∃ p ds, frac = p :: ds ∧ commaOrPeriod p = true ∧ ds ≠ []
      ∧ ∀ c ∈ ds, isDigit c = true) :
    parseStd .stdZeroSecond f (s0 :: s1 :: frac)
      = if digitsVal [s0, s1] < 60 then
          some ({ f with sec := digitsVal [s0, s1],
                         nsec := if frac = [] then f.nsec else fractionNanos frac }, [])
        else none := by
  have b0 := digitVal_bounds s0 hs0
  have b1 := digitVal_bounds s1 hs1
  rw [digitsVal_two]
  simp only [parseStd, getnum_two _ _ _ _ hs0 hs1]
  by_cases hs : digitVal s0 * 10 + digitVal s1 < 60
  · have hok : ¬ (digitVal s0 * 10 + digitVal s1 < 0 ∨ 60 ≤ digitVal s0 * 10 + digitVal s1) := by
      omega
    rw [if_neg hok, if_pos hs]
    rcases hfrac with rfl | ⟨p, ds, rfl, hp, hne, hds⟩
    · simp
    · obtain ⟨d, ds', rfl⟩ := List.exists_cons_of_ne_nil hne
      have hd := hds d (List.mem_cons_self _ _)
      have htw : ds'.takeWhile isDigit = ds' :=
        List.takeWhile_eq_self_iff.mpr (fun c hc => hds c (List.mem_cons_of_mem _ hc))
      have hdw : ds'.dropWhile isDigit = [] :=
        List.dropWhile_eq_nil_iff.mpr (fun c hc => hds c (List.mem_cons_of_mem _ hc))
      simp [hp, hd, htw, hdw, fractionNanos]
  · have hbad : digitVal s0 * 10 + digitVal s1 < 0 ∨ 60 ≤ digitVal s0 * 10 + digitVal s1 := by
      omega
    rw [if_pos hbad, if_neg hs]

theorem parseStd_year_eq (f : Fields) (y0 y1 y2 y3 : Char) (rest : List Char)
    (h0 : isDigit y0 = true) (h1 : isDigit y1 = true) (h2 : isDigit y2 = true)
    (h3 : isDigit y3 = true) :
    parseStd .stdLongYear f (y0 :: y1 :: y2 :: y3 :: rest)
      = some ({ f with year := digitsVal [y0, y1, y2, y3] }, rest) := by
  simp [parseStd, h0, h1, h2, h3]

theorem parseStd_month_eq (f : Fields) (m0 m1 : Char) (rest : List Char)
    (h0 : isDigit m0 = true) (h1 : isDigit m1 = true) :
    parseStd .stdZeroMonth f (m0 :: m1 :: rest)
      = if digitsVal [m0, m1] ≤ 0 ∨ 12 < digitsVal [m0, m1] then none
        else some ({ f with month := digitsVal [m0, m1] }, rest) := by
  rw [digitsVal_two]
  simp only [parseStd, getnum_two _ _ _ _ h0 h1]

theorem parseStd_day_eq (f : Fields) (d0 d1 : Char) (rest : List Char)
    (h0 : isDigit d0 = true) (h1 : isDigit d1 = true) :
    parseStd .stdZeroDay f (d0 :: d1 :: rest)
      = some ({ f with day := digitsVal [d0, d1] }, rest) := by
  rw [digitsVal_two]
  simp only [parseStd, getnum_two _ _ _ _ h0 h1]

theorem parseStd_hour_eq (f : Fields) (v rest : List Char) (n : Int)
    (h : getnum v false = some (n, rest)) :
    parseStd .stdHour f v
      = if n < 0 ∨ 24 ≤ n then none else some ({ f with hour := n }, rest) := by
  simp only [parseStd, h]

theorem parseStd_minute_eq (f : Fields) (n0 n1 : Char) (rest : List Char)
    (h0 : isDigit n0 = true) (h1 : isDigit n1 = true) :
    parseStd .stdZeroMinute f (n0 :: n1 :: rest)
      = if digitsVal [n0, n1] < 0 ∨ 60 ≤ digitsVal [n0, n1] then none
        else some ({ f with min := digitsVal [n0, n1] }, rest) := by
  rw [digitsVal_two]
  simp only [parseStd, getnum_two _ _ _ _ h0 h1]

/-- What `parse` with the layout "2006-01-02 15:04:05" gives for a text of the
extended shape: the date and time the text names, fraction included, when the
month, the day, the hour, the minute and the second are in range, and an
error otherwise. -/
theorem parse_extended (y0 y1 y2 y3 m0 m1 d0 d1 n0 n1 s0 s1 : Char)
    (spaces hour frac : List Char) (loc : Location)
    (hy0 : isDigit y0 = true) (hy1 : isDigit y1 = true) (hy2 : isDigit y2 = true)
    (hy3 : isDigit y3 = true) (hm0 : isDigit m0 = true) (hm1 : isDigit m1 = true)
    (hd0 : isDigit d0 = true) (hd1 : isDigit d1 = true)
    (hsp : ∀ c ∈ spaces, c = ' ')
    (hhour : 1 ≤ hour.length ∧ hour.length ≤ 2 ∧ ∀ c ∈ hour, isDigit c = true)
    (hn0 : isDigit n0 = true) (hn1 : isDigit n1 = true)
    (hs0 : isDigit s0 = true) (hs1 : isDigit s1 = true)
    (hfrac : frac = [] ∨ ∃ p ds, frac = p :: ds ∧ commaOrPeriod p = true ∧ ds ≠ []
      ∧ ∀ c ∈ ds, isDigit c = true) :
    parse layoutDateTime
        ([y0, y1, y2, y3, '-', m0, m1, '-', d0, d1, ' '] ++ spaces ++ hour
          ++ [':', n0, n1, ':', s0, s1] ++ frac) loc
      = if 1 ≤ digitsVal [m0, m1] ∧ digitsVal [m0, m1] ≤ 12 ∧ 1 ≤ digitsVal [d0, d1]
            ∧ digitsVal [d0, d1] ≤ daysIn (digitsVal [m0, m1]) (digitsVal [y0, y1, y2, y3])
            ∧ digitsVal hour < 24 ∧ digitsVal [n0, n1] < 60 ∧ digitsVal [s0, s1] < 60 then
          some (Date (digitsVal [y0, y1, y2, y3]) (digitsVal [m0, m1]) (digitsVal [d0, d1])
            (digitsVal hour) (digitsVal [n0, n1]) (digitsVal [s0, s1]) (fractionNanos frac) loc)
        else none := by
  obtain ⟨c, tl, htl, hc, hget⟩ := getnum_hour hour (n0 :: n1 :: ':' :: s0 :: s1 :: frac)
    hhour.1 hhour.2.1 hhour.2.2
  have hv : [y0, y1, y2, y3, '-', m0, m1, '-', d0, d1, ' '] ++ spaces ++ hour
      ++ [':', n0, n1, ':', s0, s1] ++ frac
      = y0 :: y1 :: y2 :: y3 :: '-' :: m0 :: m1 :: '-' :: d0 :: d1 :: ' ' :: (spaces ++ c :: tl) := by
    rw [← htl]
    simp
  rw [hv]
  have hskip := skip_spaces spaces c tl hsp hc
  have hdash : ('-' : Char) ≠ ' ' := by decide
  have hcolon : (':' : Char) ≠ ' ' := by decide
  have bm := digitsVal_bounds [m0, m1] (by
    intro x hx
    simp only [List.mem_cons, List.mem_singleton, List.not_mem_nil, or_false] at hx
    rcases hx with rfl | rfl <;> assumption)
  have bd := digitsVal_bounds [d0, d1] (by
    intro x hx
    simp only [List.mem_cons, List.mem_singleton, List.not_mem_nil, or_false] at hx
    rcases hx with rfl | rfl <;> assumption)
  have bh := digitsVal_bounds hour hhour.2.2
  have bn := digitsVal_bounds [n0, n1] (by
    intro x hx
    simp only [List.mem_cons, List.mem_singleton, List.not_mem_nil, or_false] at hx
    rcases hx with rfl | rfl <;> assumption)
  have hns : (if frac = [] then (0 : Int) else fractionNanos frac) = fractionNanos frac := by
    split_ifs with h
    · rw [h]; rfl
    · rfl
  generalize hY : digitsVal [y0, y1, y2, y3] = Y at *
  generalize hM : digitsVal [m0, m1] = M at *
  generalize hD : digitsVal [d0, d1] = D at *
  generalize hH : digitsVal hour = H at *
  generalize hMi : digitsVal [n0, n1] = Mi at *
  generalize hS : digitsVal [s0, s1] = S at *
  by_cases hm : M ≤ 0 ∨ 12 < M
  · rw [if_neg (by omega)]
    simp only [parse, layoutDateTime, parseChunks, skip_nil, skip_char _ _ _ hdash, ne_eq,
      not_true_eq_false, if_false, parseStd_year_eq _ _ _ _ _ _ hy0 hy1 hy2 hy3, hY,
      parseStd_month_eq _ _ _ _ hm0 hm1, hM, hm, if_true]
  by_cases hh : H < 0 ∨ 24 ≤ H
  · rw [if_neg (by omega)]
    simp only [parse, layoutDateTime, parseChunks, skip_nil, skip_char _ _ _ hdash, ne_eq,
      not_true_eq_false, if_false, parseStd_year_eq _ _ _ _ _ _ hy0 hy1 hy2 hy3, hY,
      parseStd_month_eq _ _ _ _ hm0 hm1, hM, hm, parseStd_day_eq _ _ _ _ hd0 hd1, hD, hskip,
      parseStd_hour_eq _ _ _ _ hget, hh, if_true]
  by_cases hmi : Mi < 0 ∨ 60 ≤ Mi
  · rw [if_neg (by omega)]
    simp only [parse, layoutDateTime, parseChunks, skip_nil, skip_char _ _ _ hdash,
      skip_char _ _ _ hcolon, ne_eq,
      not_true_eq_false, if_false, parseStd_year_eq _ _ _ _ _ _ hy0 hy1 hy2 hy3, hY,
      parseStd_month_eq _ _ _ _ hm0 hm1, hM, hm, parseStd_day_eq _ _ _ _ hd0 hd1, hD, hskip,
      parseStd_hour_eq _ _ _ _ hget, hh, parseStd_minute_eq _ _ _ _ hn0 hn1, hMi, hmi, if_true]
  by_cases hs : S < 60
  · have hmneg : ¬ M < 0 := by omega
    have hdneg : ¬ D < 0 := by omega
    by_cases hd : D < 1 ∨ D > daysIn M Y
    · rw [if_neg (by omega)]
      simp only [parse, layoutDateTime, parseChunks, skip_nil, skip_char _ _ _ hdash,
        skip_char _ _ _ hcolon, ne_eq,
        not_true_eq_false, if_false, parseStd_year_eq _ _ _ _ _ _ hy0 hy1 hy2 hy3, hY,
        parseStd_month_eq _ _ _ _ hm0 hm1, hM, hm, parseStd_day_eq _ _ _ _ hd0 hd1, hD, hskip,
        parseStd_hour_eq _ _ _ _ hget, hh, parseStd_minute_eq _ _ _ _ hn0 hn1, hMi, hmi,
        parseStd_second _ _ _ _ hs0 hs1 hfrac, hS, hs, if_true, Fields.init, hmneg, hdneg, hd]
    · rw [if_pos (by omega)]
      simp only [parse, layoutDateTime, parseChunks, skip_nil, skip_char _ _ _ hdash,
        skip_char _ _ _ hcolon, ne_eq,
        not_true_eq_false, if_false, parseStd_year_eq _ _ _ _ _ _ hy0 hy1 hy2 hy3, hY,
        parseStd_month_eq _ _ _ _ hm0 hm1, hM, hm, parseStd_day_eq _ _ _ _ hd0 hd1, hD, hskip,
        parseStd_hour_eq _ _ _ _ hget, hh, parseStd_minute_eq _ _ _ _ hn0 hn1, hMi, hmi,
        parseStd_second _ _ _ _ hs0 hs1 hfrac, hS, hs, if_true, Fields.init, hmneg, hdneg, hd,
        hns]
  · rw [if_neg (by omega)]
    simp only [parse, layoutDateTime, parseChunks, skip_nil, skip_char _ _ _ hdash,
      skip_char _ _ _ hcolon, ne_eq,
      not_true_eq_false, if_false, parseStd_year_eq _ _ _ _ _ _ hy0 hy1 hy2 hy3, hY,
      parseStd_month_eq _ _ _ _ hm0 hm1, hM, hm, parseStd_day_eq _ _ _ _ hd0 hd1, hD, hskip,
      parseStd_hour_eq _ _ _ _ hget, hh, parseStd_minute_eq _ _ _ _ hn0 hn1, hMi, hmi,
      parseStd_second _ _ _ _ hs0 hs1 hfrac, hS, hs]

end time

/-! ## `getTimes`: what `CreatedAt` is -/

theorem parse_dateTimeText (y m d h mi s : Nat) (loc : time.Location) (hy : y ≤ 9999)
    (hm0 : 1 ≤ m) (hm : m ≤ 12) (hd0 : 1 ≤ d) (hd : (d : Int) ≤ time.daysIn m y) (hh : h < 24)
    (hmi : mi < 60) (hs : s < 60) :
    time.parse time.layoutDateTime (dateTimeText y m d h mi s) loc
      = some (time.Date y m d h mi s 0 loc) := by
  have hd31 : d ≤ 31 := by
    have h1 := time.daysIn_le m y (by omega) (by omega)
    have : time.daysIn m 0 ≤ 31 := by
      have hm' : (1 : Int) ≤ m := by omega
      have hm'' : (m : Int) ≤ 12 := by omega
      unfold time.daysIn
      generalize (m : Int) = mm at *
      interval_cases mm <;> simp only [time.daysBefore] <;> decide
    omega
  obtain ⟨a1, a2, a3⟩ := twoDigits_val (y / 100) (by omega)
  obtain ⟨b1, b2, b3⟩ := twoDigits_val (y % 100) (by omega)
  obtain ⟨c1, c2, c3⟩ := twoDigits_val m (by omega)
  obtain ⟨d1, d2, d3⟩ := twoDigits_val d (by omega)
  obtain ⟨e1, e2, e3⟩ := twoDigits_val h (by omega)
  obtain ⟨f1, f2, f3⟩ := twoDigits_val mi (by omega)
  obtain ⟨g1, g2, g3⟩ := twoDigits_val s (by omega)
  have hyv : time.digitsVal [Nat.digitChar (y / 100 / 10), Nat.digitChar (y / 100 % 10),
      Nat.digitChar (y % 100 / 10), Nat.digitChar (y % 100 % 10)] = (y : Int) := by
    rw [time.digitsVal_four, a3, b3]
    omega
  have key := time.parse_layoutDateTime _ _ _ _ _ _ _ _ _ _ _ _ _ _ loc a1 a2 b1 b2 c1 c2 d1 d2 e1
    e2 f1 f2 g1 g2 (by rw [c3]; omega) (by rw [c3]; omega) (by rw [d3]; omega)
    (by rw [c3, d3, hyv]; exact hd) (by rw [e3]; omega) (by rw [f3]; omega) (by rw [g3]; omega)
  rw [hyv, c3, d3, e3, f3, g3] at key
  simp only [dateTimeText, fourDigits, twoDigits, List.cons_append, List.nil_append]
  exact key

/-- A text has the extended shape exactly when it has it with some parts. -/
theorem extendedDateTimeShape_iff (v : List Char) :
    time.extendedDateTimeShape v
      ↔ ∃ (y0 y1 y2 y3 m0 m1 d0 d1 : Char) (spaces hour : List Char) (n0 n1 s0 s1 : Char)
          (frac : List Char),
          time.extendedDateTimeParts v y0 y1 y2 y3 m0 m1 d0 d1 spaces hour n0 n1 s0 s1 frac :=
  Iff.rfl

/-- C12, counterexample: "2023-12-30 10:00:00.5" is not in the format
YYYY-MM-DD HH:MM:SS, yet `CreatedAt` is 2023-12-30 10:00:00.5 UTC+8, not the
zero time, because a fractional second is accepted after the seconds; a second
space and a one-digit hour are accepted too.  And "2023-02-30 10:00:00" is in
the format, names no date, and gives the zero time. -/
theorem getTimes_createdAt_fraction :
    dateTimeShape "2023-12-30 10:00:00.5".data = false
      ∧ (rawRecord "2023-12-30 10:00:00.5" "").getTimes.1
          = time.Date 2023 12 30 10 0 0 500000000 timezone
      ∧ (rawRecord "2023-12-30 10:00:00.5" "").getTimes.1 ≠ time.Time.zero
      ∧ dateTimeShape "2023-12-30  9:00:00".data = false
      ∧ (rawRecord "2023-12-30  9:00:00" "").getTimes.1 = time.Date 2023 12 30 9 0 0 0 timezone
      ∧ dateTimeShape "2023-02-30 10:00:00".data = true
      ∧ (rawRecord "2023-02-30 10:00:00" "").getTimes.1 = time.Time.zero := by
  decide

/-- C12, amended: `getTimes` returns a `CreatedAt` for every raw record, the
zero time or a date and time in UTC+8.  When `strive_time` is the text
YYYY-MM-DD HH:MM:SS of a day that exists and of a valid clock time,
`CreatedAt` is that date and time in UTC+8.  When `strive_time` does not have
the shape of that format extended by further spaces before the hour, a
one-digit hour, and a fractional second after the seconds, `CreatedAt` is the
zero time.  When `strive_time` has that extended shape, `CreatedAt` is the date
and time it names (fraction included) in UTC+8 if its month is one of 1..12,
its day exists in that month of that year, its hour is below 24 and its minute
and second are below 60, and the zero time if any of these is out of range. -/
theorem getTimes_createdAt_parsed (order : originalOrder) :
    (∀ y m d h mi s : Nat, y ≤ 9999 → 1 ≤ m → m ≤ 12 → 1 ≤ d → (d : Int) ≤ time.daysIn m y →
        h < 24 → mi < 60 → s < 60 → order.StriveTime.data = dateTimeText y m d h mi s →
        order.getTimes.1 = time.Date y m d h mi s 0 timezone
          ∧ order.getTimes.1.Year = y ∧ order.getTimes.1.Month = m ∧ order.getTimes.1.Day = d
          ∧ order.getTimes.1.Hour = h ∧ order.getTimes.1.Minute = mi
          ∧ order.getTimes.1.Second = s ∧ order.getTimes.1.nsec = 0
          ∧ order.getTimes.1.loc = timezone)
      ∧ (¬ time.extendedDateTimeShape order.StriveTime.data →
          order.getTimes.1 = time.Time.zero)
      ∧ (∀ (y0 y1 y2 y3 m0 m1 d0 d1 : Char) (spaces hour : List Char) (n0 n1 s0 s1 : Char)
          (frac : List Char),
          time.extendedDateTimeParts order.StriveTime.data y0 y1 y2 y3 m0 m1 d0 d1 spaces hour
            n0 n1 s0 s1 frac →
          order.getTimes.1
            = if 1 ≤ time.digitsVal [m0, m1] ∧ time.digitsVal [m0, m1] ≤ 12
                  ∧ 1 ≤ time.digitsVal [d0, d1]
                  ∧ time.digitsVal [d0, d1]
                      ≤ time.daysIn (time.digitsVal [m0, m1]) (time.digitsVal [y0, y1, y2, y3])
                  ∧ time.digitsVal hour < 24 ∧ time.digitsVal [n0, n1] < 60
                  ∧ time.digitsVal [s0, s1] < 60 then
                time.Date (time.digitsVal [y0, y1, y2, y3]) (time.digitsVal [m0, m1])
                  (time.digitsVal [d0, d1]) (time.digitsVal hour) (time.digitsVal [n0, n1])
                  (time.digitsVal [s0, s1]) (time.fractionNanos frac) timezone
              else time.Time.zero)
      ∧ (order.getTimes.1 = time.Time.zero
          ∨ ∃ y m d h mi s ns : Int, order.getTimes.1 = time.Date y m d h mi s ns timezone
              ∧ 1 ≤ m ∧ m ≤ 12 ∧ 1 ≤ d ∧ d ≤ time.daysIn m y ∧ 0 ≤ h ∧ h < 24 ∧ 0 ≤ mi ∧ mi < 60
              ∧ 0 ≤ s ∧ s < 60 ∧ 0 ≤ ns ∧ ns < 1000000000)
      ∧ order.toRoute.CreatedAt = order.getTimes.1
      ∧ (rawRecord "2023-12-30 10:00:00" "").getTimes.1
          = time.Date 2023 12 30 10 0 0 0 timezone
      ∧ (rawRecord "2023-13-01 10:00:00" "").getTimes.1 = time.Time.zero
      ∧ (rawRecord "2023-12-30 24:00:00.5" "").getTimes.1 = time.Time.zero := by
  refine ⟨?_, ?_, ?_, ?_, rfl, by decide, by decide, by decide⟩
  · intro y m d h mi s hy hm0 hm hd0 hd hh hmi hs htext
    have e : order.getTimes.1 = time.Date y m d h mi s 0 timezone := by
      rw [getTimes_createdAt]
      unfold time.ParseInLocation
      rw [htext, parse_dateTimeText y m d h mi s timezone hy hm0 hm hd0 hd hh hmi hs]
      rfl
    have hm0' : (1 : Int) ≤ m := by omega
    have hm' : (m : Int) ≤ 12 := by omega
    have hd0' : (1 : Int) ≤ d := by omega
    have hh0' : (0 : Int) ≤ h := by omega
    have hh' : (h : Int) < 24 := by omega
    have hmi0' : (0 : Int) ≤ mi := by omega
    have hmi' : (mi : Int) < 60 := by omega
    have hs0' : (0 : Int) ≤ s := by omega
    have hs' : (s : Int) < 60 := by omega
    obtain ⟨k1, k2, k3, k4⟩ := time.Date_Year y m d h mi s 0 timezone hm0' hm' hd0'
      (le_trans hd (time.daysIn_le m y hm0' hm')) hh0' hh' hmi0' hmi' hs0' hs' (le_refl 0)
      (by decide)
    obtain ⟨k5, k6⟩ := time.Date_Month_Day y m d h mi s 0 timezone hm0' hm' hd0' hd hh0' hh'
      hmi0' hmi' hs0' hs' (le_refl 0) (by decide)
    obtain ⟨-, k7, k8⟩ := time.Date_abs y m d h mi s 0 timezone hm0' hm' hh0' hh' hmi0' hmi' hs0'
      hs' (le_refl 0) (by decide)
    rw [e]
    exact ⟨rfl, k1, k5, k6, k2, k3, k4, k7, k8⟩
  · intro hshape
    rw [getTimes_createdAt]
    unfold time.ParseInLocation
    cases hp : time.parse time.layoutDateTime order.StriveTime.data timezone with
    | none => rfl
    | some t => exact absurd (time.parse_layoutDateTime_shape _ _ _ hp) hshape
  · intro y0 y1 y2 y3 m0 m1 d0 d1 spaces hour n0 n1 s0 s1 frac hparts
    obtain ⟨hv, hy0, hy1, hy2, hy3, hm0, hm1, hd0, hd1, hsp, hhour, hn0, hn1, hs0, hs1, hfrac⟩ :=
      hparts
    rw [getTimes_createdAt]
    unfold time.ParseInLocation
    rw [hv, time.parse_extended y0 y1 y2 y3 m0 m1 d0 d1 n0 n1 s0 s1 spaces hour frac timezone hy0
      hy1 hy2 hy3 hm0 hm1 hd0 hd1 hsp hhour hn0 hn1 hs0 hs1 hfrac]
    split_ifs <;> rfl
  · rw [getTimes_createdAt]
    unfold time.ParseInLocation
    cases hp : time.parse time.layoutDateTime order.StriveTime.data timezone with
    | none => exact Or.inl rfl
    | some t =>
      obtain ⟨y, m, d, hh, mi, s, ns, ht, hr⟩ := time.parse_eq_Date _ _ _ _ hp
      exact Or.inr ⟨y, m, d, hh, mi, s, ns, ht, hr⟩

namespace time

theorem toDigitsCore_eq (fuel : Nat) :
    ∀ (n : Nat) (ds : List Char), n < fuel →
      Nat.toDigitsCore 10 fuel n ds = Nat.toDigitsCore 10 (n + 1) n [] ++ ds := by
  induction fuel using Nat.strong_induction_on with
  | _ fuel ih =>
    intro n ds hn
    cases fuel with
    | zero => omega
    | succ fuel =>
      simp only [Nat.toDigitsCore]
      by_cases h0 : n / 10 = 0
      · simp [h0]
      · simp only [h0, if_false]
        rw [ih fuel (by omega) (n / 10) _ (by omega)]
        cases n with
        | zero => simp at h0
        | succ n =>
          rw [ih (n + 1) (by omega) ((n + 1) / 10) _ (by omega)]
          simp

theorem toDigits_small (n : Nat) (h : n < 10) : Nat.toDigits 10 n = [Nat.digitChar n] := by
  unfold Nat.toDigits
  simp only [Nat.toDigitsCore]
  have h0 : n / 10 = 0 := by omega
  have h1 : n % 10 = n := by omega
  simp [h0, h1]

theorem toDigits_large (n : Nat) (h : 10 ≤ n) :
    Nat.toDigits 10 n = Nat.toDigits 10 (n / 10) ++ [Nat.digitChar (n % 10)] := by
  unfold Nat.toDigits
  have h0 : n / 10 ≠ 0 := by omega
  have e : Nat.toDigitsCore 10 (n + 1) n []
      = if n / 10 = 0 then [Nat.digitChar (n % 10)]
        else Nat.toDigitsCore 10 n (n / 10) [Nat.digitChar (n % 10)] := rfl
  rw [e, if_neg h0, toDigitsCore_eq n (n / 10) _ (by omega)]

theorem digitsVal_append_one (ds : List Char) (c : Char) :
    digitsVal (ds ++ [c]) = digitsVal ds * 10 + digitVal c := by
  unfold digitsVal
  rw [List.foldl_append]
  rfl

/-- The decimal digits Lean writes for a number are digits, read back as the
number, and no more than `k` for a number below `10 ^ k`. -/
theorem toDigits_spec (n : Nat) :
    (∀ c ∈ Nat.toDigits 10 n, isDigit c = true) ∧ digitsVal (Nat.toDigits 10 n) = n
      ∧ ∀ k, 1 ≤ k → n < 10 ^ k → (Nat.toDigits 10 n).length ≤ k := by
  induction n using Nat.strong_induction_on with
  | _ n ih =>
    by_cases h : n < 10
    · rw [toDigits_small n h]
      obtain ⟨h1, h2⟩ := digitChar_isDigit n h
      refine ⟨?_, ?_, ?_⟩
      · intro c hc
        rw [List.mem_singleton.mp hc]
        exact h1
      · simp [digitsVal, h2]
      · intro k hk _
        simpa using hk
    · have h10 : 10 ≤ n := by omega
      rw [toDigits_large n h10]
      obtain ⟨i1, i2, i3⟩ := ih (n / 10) (by omega)
      obtain ⟨h1, h2⟩ := digitChar_isDigit (n % 10) (by omega)
      refine ⟨?_, ?_, ?_⟩
      · intro c hc
        rcases List.mem_append.mp hc with hc | hc
        · exact i1 c hc
        · rw [List.mem_singleton.mp hc]
          exact h1
      · rw [digitsVal_append_one, i2, h2]
        omega
      · intro k hk hlt
        rw [List.length_append, List.length_singleton]
        cases k with
        | zero => omega
        | succ k =>
          have hk1 : 1 ≤ k := by
            by_contra hc
            have : k = 0 := by omega
            subst this
            simp at hlt
            omega
          have : n / 10 < 10 ^ k := by
            rw [pow_succ] at hlt
            omega
          have := i3 k hk1 this
          omega

theorem digitsVal_zeros_append (j : Nat) (ds : List Char) :
    digitsVal (List.replicate j '0' ++ ds) = digitsVal ds := by
  induction j with
  | zero => simp
  | succ j ih =>
    rw [List.replicate_succ, List.cons_append, digitsVal_cons, ih]
    have : digitVal '0' = 0 := by decide
    rw [this]
    simp

theorem digitsVal_append_zeros (ds : List Char) (j : Nat) :
    digitsVal (ds ++ List.replicate j '0') = digitsVal ds * 10 ^ j := by
  induction j with
  | zero => simp
  | succ j ih =>
    rw [List.replicate_succ', ← List.append_assoc, digitsVal_append_one, ih, pow_succ]
    have : digitVal '0' = 0 := by decide
    rw [this]
    ring

/-- Go `appendInt` of a number from 0 below `10 ^ w` writes exactly `w` digits,
which read back as the number. -/
theorem appendInt_spec (x : Int) (w : Nat) (hw : 1 ≤ w) (hx0 : 0 ≤ x) (hx : x < 10 ^ w) :
    (appendInt x w).length = w ∧ (∀ c ∈ appendInt x w, isDigit c = true)
      ∧ digitsVal (appendInt x w) = x := by
  obtain ⟨n, rfl⟩ := Int.eq_ofNat_of_zero_le hx0
  obtain ⟨h1, h2, h3⟩ := toDigits_spec n
  have hlt : n < 10 ^ w := by exact_mod_cast hx
  have hlen := h3 w hw hlt
  have hneg : ¬ ((n : Int) < 0) := by omega
  have hz : isDigit '0' = true := by decide
  unfold appendInt
  simp only [hneg, if_false, Int.natAbs_ofNat, List.nil_append]
  refine ⟨?_, ?_, ?_⟩
  · rw [List.length_append, List.length_replicate]
    omega
  · intro c hc
    rcases List.mem_append.mp hc with hc | hc
    · rw [(List.mem_replicate.mp hc).2]
      exact hz
    · exact h1 c hc
  · rw [digitsVal_zeros_append, h2]

theorem rdropWhile_append_rtakeWhile (p : Char → Bool) (l : List Char) :
    l.rdropWhile p ++ l.rtakeWhile p = l := by
  unfold List.rdropWhile List.rtakeWhile
  rw [← List.reverse_append, List.takeWhile_append_dropWhile, List.reverse_reverse]

/-- The fraction Go writes for a number of nanoseconds that is not zero starts
with a period and a digit, holds digits only, and is read back as that number
by `parseNanoseconds`. -/
theorem appendNano_spec (ns : Int) (h0 : 0 < ns) (h : ns < 1000000000) :
    ∃ d tr, appendNano ns = '.' :: d :: tr ∧ isDigit d = true ∧ (∀ c ∈ tr, isDigit c = true)
      ∧ parseNanoseconds (d :: tr) = ns := by
  obtain ⟨hlen, hdig, hval⟩ := appendInt_spec ns 9 (by decide) (le_of_lt h0) (by norm_num; exact h)
  have hsplit := rdropWhile_append_rtakeWhile (fun c => c == '0') (appendInt ns 9)
  generalize htr : (appendInt ns 9).rdropWhile (fun c => c == '0') = trimmed at hsplit
  generalize hz : (appendInt ns 9).rtakeWhile (fun c => c == '0') = zeros at hsplit
  have hzeros : zeros = List.replicate zeros.length '0' := by
    rw [List.eq_replicate_iff]
    refine ⟨rfl, fun c hc => ?_⟩
    rw [← hz] at hc
    have := List.mem_rtakeWhile_imp hc
    simpa using this
  have hv : digitsVal trimmed * 10 ^ zeros.length = ns := by
    rw [← hval, ← hsplit, hzeros, digitsVal_append_zeros, List.length_replicate]
  have hl : trimmed.length + zeros.length = 9 := by
    rw [← hlen, ← hsplit, List.length_append]
  have hdt : ∀ c ∈ trimmed, isDigit c = true := by
    intro c hc
    exact hdig c (by rw [← hsplit]; exact List.mem_append_left _ hc)
  cases trimmed with
  | nil =>
    simp [digitsVal] at hv
    omega
  | cons d tr =>
    refine ⟨d, tr, ?_, hdt d (List.mem_cons_self _ _),
      fun c hc => hdt c (List.mem_cons_of_mem _ hc), ?_⟩
    · unfold appendNano
      rw [if_neg (by omega), htr]
    · unfold parseNanoseconds
      simp only
      have hk : (d :: tr).length ≤ 9 := by omega
      have e1 : min (1 + (d :: tr).length) 10 = 1 + (d :: tr).length := by omega
      rw [e1]
      have e2 : 1 + (d :: tr).length - 1 = (d :: tr).length := by omega
      have e3 : 10 - (1 + (d :: tr).length) = zeros.length := by omega
      rw [e2, e3, List.take_length]
      exact hv

theorem parseUint_of (s : List Char) (lo hi x : Int) (hd : ∀ c ∈ s, isDigit c = true)
    (hv : digitsVal s = x) (h1 : lo ≤ x) (h2 : x ≤ hi) : parseUint s lo hi = some x := by
  unfold parseUint
  have : s.all isDigit = true := List.all_eq_true.mpr hd
  rw [if_pos this, hv, if_neg (by omega)]

/-- The `w` digits Go writes for a number from `lo` to `hi` are read back as
that number by `parseUint`. -/
theorem parseUint_appendInt (x : Int) (w : Nat) (lo hi : Int) (hw : 1 ≤ w) (hx0 : 0 ≤ x)
    (hx : x < 10 ^ w) (h1 : lo ≤ x) (h2 : x ≤ hi) :
    (appendInt x w).length = w ∧ parseUint (appendInt x w) lo hi = some x := by
  obtain ⟨hlen, hdig, hval⟩ := appendInt_spec x w hw hx0 hx
  exact ⟨hlen, parseUint_of _ _ _ _ hdig hval h1 h2⟩

theorem appendInt_two (x lo hi : Int) (hx0 : 0 ≤ x) (hx : x < 100) (h1 : lo ≤ x) (h2 : x ≤ hi) :
    ∃ a b, appendInt x 2 = [a, b] ∧ parseUint [a, b] lo hi = some x := by
  obtain ⟨hlen, hp⟩ := parseUint_appendInt x 2 lo hi (by decide) hx0 (by norm_num; exact hx) h1 h2
  obtain ⟨a, b, hab⟩ := List.length_eq_two.mp hlen
  exact ⟨a, b, hab, hab ▸ hp⟩

theorem appendInt_four (x lo hi : Int) (hx0 : 0 ≤ x) (hx : x < 10000) (h1 : lo ≤ x)
    (h2 : x ≤ hi) :
    ∃ a b c d, appendInt x 4 = [a, b, c, d] ∧ parseUint [a, b, c, d] lo hi = some x := by
  obtain ⟨hlen, hp⟩ := parseUint_appendInt x 4 lo hi (by decide) hx0 (by norm_num; exact hx) h1 h2
  generalize appendInt x 4 = l at hlen hp
  rcases l with _ | ⟨a, _ | ⟨b, _ | ⟨c, _ | ⟨d, _ | ⟨e, l⟩⟩⟩⟩⟩ <;> simp at hlen
  exact ⟨a, b, c, d, rfl, hp⟩

/-- The zone Go writes for the offsets 0 and +8 hours. -/
theorem zone_text :
    (if (0 : Int) = 0 then ['Z']
      else
        let z := Int.tdiv 0 60
        (if z < 0 then ['-'] else ['+']) ++ appendInt ((if z < 0 then -z else z) / 60) 2 ++ ':' ::
          appendInt ((if z < 0 then -z else z) % 60) 2) = ['Z']
    ∧ (if (28800 : Int) = 0 then ['Z']
      else
        let z := Int.tdiv 28800 60
        (if z < 0 then ['-'] else ['+']) ++ appendInt ((if z < 0 then -z else z) / 60) 2 ++ ':' ::
          appendInt ((if z < 0 then -z else z) % 60) 2) = ['+', '0', '8', ':', '0', '0'] := by
  decide

/-- The text of a time written by `appendFormatRFC3339`, field by field, for a
date and time of day in range. -/
theorem appendFormatRFC3339_Date (y m d h mi s ns : Int) (loc : Location)
    (hm0 : 1 ≤ m) (hm : m ≤ 12) (hd0 : 1 ≤ d) (hd : d ≤ daysIn m y)
    (hh0 : 0 ≤ h) (hh : h < 24) (hmi0 : 0 ≤ mi) (hmi : mi < 60) (hs0 : 0 ≤ s) (hs : s < 60)
    (hns0 : 0 ≤ ns) (hns : ns < 1000000000) (z : List Char)
    (hz : (loc.offset = 0 ∧ z = ['Z']) ∨ (loc.offset = 28800 ∧ z = ['+', '0', '8', ':', '0', '0'])) :
    (Date y m d h mi s ns loc).appendFormatRFC3339
      = appendInt y 4 ++ ('-' :: (appendInt m 2 ++ ('-' :: (appendInt d 2 ++ ('T' ::
          (appendInt h 2 ++ (':' :: (appendInt mi 2 ++ (':' :: (appendInt s 2 ++
            (appendNano ns ++ z))))))))))) := by
  have hd' := le_trans hd (daysIn_le m y hm0 hm)
  obtain ⟨hY, hH, hMi, hS⟩ :=
    Date_Year y m d h mi s ns loc hm0 hm hd0 hd' hh0 hh hmi0 hmi hs0 hs hns0 hns
  obtain ⟨hM, hD⟩ := Date_Month_Day y m d h mi s ns loc hm0 hm hd0 hd hh0 hh hmi0 hmi hs0 hs hns0 hns
  obtain ⟨-, hN, hL⟩ := Date_abs y m d h mi s ns loc hm0 hm hh0 hh hmi0 hmi hs0 hs hns0 hns
  unfold Time.appendFormatRFC3339
  simp only []
  rw [hY, hM, hD, hH, hMi, hS, hN, hL]
  rcases hz with ⟨h0, rfl⟩ | ⟨h8, rfl⟩
  · rw [h0, zone_text.1]
    simp only [List.append_assoc, List.cons_append]
  · rw [h8, zone_text.2]
    simp only [List.append_assoc, List.cons_append]

theorem takeWhile_digits_append (tr : List Char) (c : Char) (zs : List Char)
    (h : ∀ x ∈ tr, isDigit x = true) (hc : isDigit c = false) :
    (tr ++ c :: zs).takeWhile isDigit = tr ∧ (tr ++ c :: zs).dropWhile isDigit = c :: zs := by
  induction tr with
  | nil => simp [List.takeWhile, List.dropWhile, hc]
  | cons a tr ih =>
    have ha := h a (List.mem_cons_self _ _)
    have ih := ih (fun x hx => h x (List.mem_cons_of_mem _ hx))
    rw [List.cons_append, List.takeWhile_cons, List.dropWhile_cons, ha]
    simp only [if_true, ih.1, ih.2, and_self]

theorem parseZone_text :
    parseZone ['Z'] = some none ∧ parseZone ['+', '0', '8', ':', '0', '0'] = some (some 28800) := by
  decide

/-- Reading back a text in the form `MarshalJSON` writes: the nineteen
characters of the date and the time of day, the fraction of `appendNano`, and
the zone "Z" or "+08:00". -/
theorem parseRFC3339_text (y m d h mi s ns : Int) (lz : Location)
    (y0 y1 y2 y3 m0 m1 d0 d1 h0 h1 n0 n1 s0 s1 : Char)
    (hy : parseUint [y0, y1, y2, y3] 0 9999 = some y) (hm : parseUint [m0, m1] 1 12 = some m)
    (hd : parseUint [d0, d1] 1 (daysIn m y) = some d) (hh : parseUint [h0, h1] 0 23 = some h)
    (hmi : parseUint [n0, n1] 0 59 = some mi) (hs : parseUint [s0, s1] 0 59 = some s)
    (hns0 : 0 ≤ ns) (hns : ns < 1000000000) (z : List Char) (off : Int)
    (hz : (off = 0 ∧ z = ['Z']) ∨ (off = 28800 ∧ z = ['+', '0', '8', ':', '0', '0'])) :
    ∃ u, parseRFC3339 (y0 :: y1 :: y2 :: y3 :: '-' :: m0 :: m1 :: '-' :: d0 :: d1 :: 'T' :: h0 ::
        h1 :: ':' :: n0 :: n1 :: ':' :: s0 :: s1 :: (appendNano ns ++ z)) lz = some u
      ∧ u.sec = (Date y m d h mi s ns UTC).sec - off
      ∧ u.nsec = (Date y m d h mi s ns UTC).nsec := by
  unfold parseRFC3339
  simp only [hy, hm, hd, hh, hmi, hs, and_self, if_true]
  by_cases h0 : ns = 0
  · subst h0
    have e : appendNano 0 = [] := rfl
    rw [e, List.nil_append]
    rcases hz with ⟨rfl, rfl⟩ | ⟨rfl, rfl⟩
    · simp only [parseZone_text.1]
      exact ⟨_, rfl, by simp, rfl⟩
    · have hp : ¬ ('+' = '.' ∧ isDigit '0' = true) := by decide
      simp only [hp, if_false, parseZone_text.2]
      exact ⟨_, rfl, rfl, rfl⟩
  · obtain ⟨dg, tr, happ, hdg, htr, hval⟩ := appendNano_spec ns (by omega) hns
    rw [happ]
    rcases hz with ⟨rfl, rfl⟩ | ⟨rfl, rfl⟩
    · obtain ⟨e1, e2⟩ := takeWhile_digits_append tr 'Z' [] htr (by decide)
      simp only [List.cons_append, hdg, and_self, if_true, e1, e2, hval, parseZone_text.1]
      exact ⟨_, rfl, by simp, rfl⟩
    · obtain ⟨e1, e2⟩ := takeWhile_digits_append tr '+' ['0', '8', ':', '0', '0'] htr (by decide)
      simp only [List.cons_append, hdg, and_self, if_true, e1, e2, hval, parseZone_text.2]
      exact ⟨_, rfl, rfl, rfl⟩

theorem parseStd_year (std : StdChunk) (f f' : Fields) (v v' : List Char)
    (hf : 0 ≤ f.year ∧ f.year ≤ 9999) (h : parseStd std f v = some (f', v')) :
    0 ≤ f'.year ∧ f'.year ≤ 9999 := by
  cases std <;> simp only [parseStd] at h
  · split at h
    · split at h
      · rename_i c0 c1 c2 c3 rest hdig
        simp only [Option.some.injEq, Prod.mk.injEq] at h
        obtain ⟨rfl, -⟩ := h
        simp only [Bool.and_eq_true] at hdig
        have hb := digitsVal_bounds [c0, c1, c2, c3] (by
          intro c hc
          simp only [List.mem_cons, List.mem_singleton, List.not_mem_nil, or_false] at hc
          rcases hc with rfl | rfl | rfl | rfl
          · exact hdig.1.1.1
          · exact hdig.1.1.2
          · exact hdig.1.2
          · exact hdig.2)
        have e : (10 : Int) ^ [c0, c1, c2, c3].length = 10000 := by norm_num
        rw [e] at hb
        exact ⟨hb.1, by simp only; omega⟩
      · exact absurd h (by simp)
    · exact absurd h (by simp)
  all_goals
    repeat' split at h
    all_goals
      first
      | (simp only [Option.some.injEq, Prod.mk.injEq] at h
         obtain ⟨rfl, -⟩ := h
         exact hf)
      | simp at h

theorem parseChunks_year (chunks : List (List Char × StdChunk)) (f f' : Fields)
    (v v' : List Char) (hf : 0 ≤ f.year ∧ f.year ≤ 9999)
    (h : parseChunks chunks f v = some (f', v')) : 0 ≤ f'.year ∧ f'.year ≤ 9999 := by
  induction chunks generalizing f v with
  | nil =>
    simp only [parseChunks, Option.some.injEq, Prod.mk.injEq] at h
    obtain ⟨rfl, -⟩ := h
    exact hf
  | cons c chunks ih =>
    obtain ⟨pre, std⟩ := c
    simp only [parseChunks] at h
    split at h
    · exact absurd h (by simp)
    · split at h
      · exact absurd h (by simp)
      · rename_i hstd
        exact ih _ _ (parseStd_year _ _ _ _ _ hf hstd) h

/-- A time that `parse` returns is civil and its year is one of 0..9999. -/
theorem parse_civil (layout : Layout) (value : List Char) (loc : Location) (t : Time)
    (hloc : loc.offset = 0 ∨ loc.offset = 28800) (h : parse layout value loc = some t) :
    t.civil ∧ 0 ≤ t.Year ∧ t.Year ≤ 9999 := by
  have hl := parse_loc layout value loc t h
  unfold parse at h
  split at h
  · exact absurd h (by simp)
  · rename_i f v hchunks
    have hok : f.ok := parseChunks_ok _ _ _ _ _ (by unfold Fields.ok Fields.init; decide) hchunks
    have hyr := parseChunks_year _ _ _ _ _ (by unfold Fields.init; decide) hchunks
    unfold Fields.ok at hok
    split at h
    · exact absurd h (by simp)
    · split at h
      · exact absurd h (by simp)
      · dsimp only at h
        generalize hm : (if f.month < 0 then 1 else f.month) = m at h
        generalize hd : (if f.day < 0 then 1 else f.day) = d at h
        split at h
        · exact absurd h (by simp)
        · rename_i hday
          simp only [Option.some.injEq] at h
          have hm0 : 1 ≤ m ∧ m ≤ 12 := by split_ifs at hm <;> omega
          have hd0 : 1 ≤ d ∧ d ≤ daysIn m f.year := by omega
          have hY := (Date_Year f.year m d f.hour f.min f.sec f.nsec loc hm0.1 hm0.2 hd0.1
            (le_trans hd0.2 (daysIn_le m f.year hm0.1 hm0.2)) (by omega) (by omega) (by omega)
            (by omega) (by omega) (by omega) (by omega) (by omega)).1
          rw [h] at hY
          refine ⟨⟨f.year, m, d, f.hour, f.min, f.sec, f.nsec, ?_⟩, by omega, by omega⟩
          rw [hl]
          refine ⟨h.symm, hm0.1, hm0.2, hd0.1, hd0.2, ?_⟩
          refine ⟨by omega, by omega, by omega, by omega, by omega, by omega, by omega, by omega,
            hloc⟩

theorem zero_civil : Time.zero.civil ∧ 0 ≤ Time.zero.Year ∧ Time.zero.Year ≤ 9999 := by
  refine ⟨⟨1, 1, 1, 0, 0, 0, 0, ?_⟩, by decide, by decide⟩
  decide

/-- The value of `ParseInLocation` in UTC+8 or UTC is civil with a year in
0..9999, whether the parse succeeded or gave the zero time. -/
theorem ParseInLocation_civil (layout : Layout) (value : String) (loc : Location)
    (hloc : loc.offset = 0 ∨ loc.offset = 28800) :
    (ParseInLocation layout value loc).civil ∧ 0 ≤ (ParseInLocation layout value loc).Year
      ∧ (ParseInLocation layout value loc).Year ≤ 9999 := by
  unfold ParseInLocation
  cases h : parse layout value.data loc with
  | none => exact zero_civil
  | some t => exact parse_civil layout value.data loc t hloc h

/-- `Date` applied to a month and a day that exist in a leap year is civil:
February 29 of a common year is March 1. -/
theorem Date_civil (y m d h mi : Int) (loc : Location) (hm0 : 1 ≤ m) (hm : m ≤ 12)
    (hd0 : 1 ≤ d) (hd : d ≤ daysIn m 0) (hh0 : 0 ≤ h) (hh : h < 24) (hmi0 : 0 ≤ mi)
    (hmi : mi < 60) (hloc : loc.offset = 0 ∨ loc.offset = 28800) :
    (Date y m d h mi 0 0 loc).civil := by
  have hl := Date_loc y m d h mi 0 0 loc
  by_cases hdy : d ≤ daysIn m y
  · refine ⟨y, m, d, h, mi, 0, 0, by rw [hl], hm0, hm, hd0, hdy, hh0, hh, hmi0, hmi, le_refl 0,
      by decide, le_refl 0, by decide, by rw [hl]; exact hloc⟩
  · have hcase : m = 2 ∧ d = 29 ∧ isLeap y = false := by
      unfold daysIn at hd hdy
      by_cases h2 : m = 2
      · subst h2
        cases hleap : isLeap y
        · simp [hleap, daysBefore] at hdy
          have : isLeap 0 = true := by decide
          simp [this] at hd
          exact ⟨rfl, by omega, rfl⟩
        · simp [hleap] at hdy
          have : isLeap 0 = true := by decide
          simp [this] at hd
          omega
      · rw [if_neg (by simp [h2])] at hd hdy
        exact absurd hd hdy
    obtain ⟨rfl, rfl, hleap⟩ := hcase
    have e := Date_feb29 y h mi 0 0 loc hleap hh0 hh hmi0 hmi (le_refl 0) (by decide) (le_refl 0)
      (by decide)
    refine ⟨y, 3, 1, h, mi, 0, 0, by rw [hl]; exact e, by decide, by decide, by decide, ?_, hh0, hh,
      hmi0, hmi, le_refl 0, by decide, le_refl 0, by decide, by rw [hl]; exact hloc⟩
    unfold daysIn
    rw [if_neg (fun hc => absurd hc.1 (by decide))]
    decide

theorem daysIn_le_31 (m y : Int) (hm0 : 1 ≤ m) (hm : m ≤ 12) : daysIn m y ≤ 31 := by
  unfold daysIn
  cases isLeap y <;> interval_cases m <;> simp [daysBefore]

/-- The text `MarshalJSON` writes for a valid date and time of day of a year in
0..9999, in UTC or UTC+8, is read back by `parseRFC3339` as the same instant,
whatever the zone of the environment. -/
theorem Date_round_trip (y m d h mi s ns : Int) (loc lz : Location)
    (hy0 : 0 ≤ y) (hy : y ≤ 9999) (hm0 : 1 ≤ m) (hm : m ≤ 12) (hd0 : 1 ≤ d) (hd : d ≤ daysIn m y)
    (hh0 : 0 ≤ h) (hh : h < 24) (hmi0 : 0 ≤ mi) (hmi : mi < 60) (hs0 : 0 ≤ s) (hs : s < 60)
    (hns0 : 0 ≤ ns) (hns : ns < 1000000000) (hloc : loc.offset = 0 ∨ loc.offset = 28800) :
    ∃ txt u, (Date y m d h mi s ns loc).MarshalJSON = some txt ∧ parseRFC3339 txt lz = some u
      ∧ u.sec = (Date y m d h mi s ns loc).sec ∧ u.nsec = (Date y m d h mi s ns loc).nsec := by
  have hd' := le_trans hd (daysIn_le m y hm0 hm)
  have hY := (Date_Year y m d h mi s ns loc hm0 hm hd0 hd' hh0 hh hmi0 hmi hs0 hs hns0 hns).1
  obtain ⟨-, hN, hL⟩ := Date_abs y m d h mi s ns loc hm0 hm hh0 hh hmi0 hmi hs0 hs hns0 hns
  obtain ⟨-, hNU, -⟩ := Date_abs y m d h mi s ns UTC hm0 hm hh0 hh hmi0 hmi hs0 hs hns0 hns
  have hsec := Date_sec y m d h mi s ns loc hm0 hm hh0 hh hmi0 hmi hs0 hs hns0 hns
  have hsecU := Date_sec y m d h mi s ns UTC hm0 hm hh0 hh hmi0 hmi hs0 hs hns0 hns
  have hU : UTC.offset = 0 := rfl
  have hz : ∃ z, (loc.offset = 0 ∧ z = ['Z'])
      ∨ (loc.offset = 28800 ∧ z = ['+', '0', '8', ':', '0', '0']) := by
    rcases hloc with h0 | h8
    · exact ⟨_, Or.inl ⟨h0, rfl⟩⟩
    · exact ⟨_, Or.inr ⟨h8, rfl⟩⟩
  obtain ⟨z, hz⟩ := hz
  have htxt := appendFormatRFC3339_Date y m d h mi s ns loc hm0 hm hd0 hd hh0 hh hmi0 hmi hs0 hs
    hns0 hns z hz
  have hmar : (Date y m d h mi s ns loc).MarshalJSON
      = some (Date y m d h mi s ns loc).appendFormatRFC3339 := by
    unfold Time.MarshalJSON
    rw [hY, hL, if_neg (by omega)]
    rcases hloc with h0 | h8
    · rw [h0, if_neg (by decide)]
    · rw [h8, if_neg (by decide)]
  obtain ⟨y0, y1, y2, y3, ey, py⟩ := appendInt_four y 0 9999 hy0 (by omega) hy0 hy
  obtain ⟨m0, m1, em, pm⟩ := appendInt_two m 1 12 (by omega) (by omega) hm0 hm
  obtain ⟨d0, d1, ed, pd⟩ := appendInt_two d 1 (daysIn m y) (by omega)
    (by have := daysIn_le_31 m y hm0 hm; omega)
    hd0 hd
  obtain ⟨h0, h1, eh, ph⟩ := appendInt_two h 0 23 hh0 (by omega) hh0 (by omega)
  obtain ⟨n0, n1, en, pn⟩ := appendInt_two mi 0 59 hmi0 (by omega) hmi0 (by omega)
  obtain ⟨s0, s1, es, ps⟩ := appendInt_two s 0 59 hs0 (by omega) hs0 (by omega)
  rw [ey, em, ed, eh, en, es] at htxt
  simp only [List.cons_append, List.nil_append] at htxt
  obtain ⟨u, hu, husec, hunsec⟩ := parseRFC3339_text y m d h mi s ns lz y0 y1 y2 y3 m0 m1 d0 d1
    h0 h1 n0 n1 s0 s1 py pm pd ph pn ps hns0 hns z loc.offset
    (by
      rcases hz with ⟨a, b⟩ | ⟨a, b⟩
      · exact Or.inl ⟨a, b⟩
      · exact Or.inr ⟨a, b⟩)
  refine ⟨_, u, hmar, ?_, ?_, ?_⟩
  · rw [htxt]
    exact hu
  · rw [husec, hsec, hsecU, hU]
    ring
  · rw [hunsec, hN, hNU]

/-- A civil time of a year in 0..9999 is written by `MarshalJSON` and read
back as the same instant. -/
theorem civil_round_trip (t : Time) (lz : Location) (hc : t.civil) (hy0 : 0 ≤ t.Year)
    (hy : t.Year ≤ 9999) :
    ∃ txt u, t.MarshalJSON = some txt ∧ parseRFC3339 txt lz = some u ∧ u.sec = t.sec
      ∧ u.nsec = t.nsec := by
  obtain ⟨y, m, d, h, mi, s, ns, ht, hm0, hm, hd0, hd, hh0, hh, hmi0, hmi, hs0, hs, hns0, hns,
    hloc⟩ := hc
  generalize t.loc = loc at ht hloc
  subst ht
  have hY := (Date_Year y m d h mi s ns loc hm0 hm hd0 (le_trans hd (daysIn_le m y hm0 hm))
    hh0 hh hmi0 hmi hs0 hs hns0 hns).1
  rw [hY] at hy0 hy
  exact Date_round_trip y m d h mi s ns loc lz hy0 hy hm0 hm hd0 hd hh0 hh hmi0 hmi hs0 hs hns0
    hns hloc

end time

namespace json

theorem unmarshalLocation_marshalLocation (old l : Location) :
    unmarshalLocation old (marshalLocation l) = some l := by
  simp [unmarshalLocation, marshalLocation, unmarshalMembers, locationField, unmarshalString]

/-- A civil time of a year in 0..9999 is encoded as a string which the decoder
reads back as the same instant. -/
theorem unmarshalTime_marshalTime (t : time.Time) (lz : time.Location) (hc : t.civil)
    (hy0 : 0 ≤ t.Year) (hy : t.Year ≤ 9999) :
    ∃ v u, marshalTime t = some v ∧ (∀ old, unmarshalTime lz old v = some u)
      ∧ t.Equal u = true := by
  obtain ⟨txt, u, hm, hp, hs, hn⟩ := time.civil_round_trip t lz hc hy0 hy
  refine ⟨.string (String.mk txt), u, ?_, fun old => hp, ?_⟩
  · unfold marshalTime
    rw [hm]
  · unfold time.Time.Equal
    simp [hs, hn]

/-- A route with civil timestamps of years in 0..9999 is encoded as an object
which the decoder reads back as the same route. -/
theorem unmarshalRoute_marshalRoute (r : Route) (lz : time.Location)
    (hc : r.CreatedAt.civil ∧ 0 ≤ r.CreatedAt.Year ∧ r.CreatedAt.Year ≤ 9999)
    (hs : r.StartedAt.civil ∧ 0 ≤ r.StartedAt.Year ∧ r.StartedAt.Year ≤ 9999) :
    ∃ v r', marshalRoute r = some v ∧ unmarshalRoute lz zeroRoute v = some r' ∧ r.same r' := by
  obtain ⟨vc, uc, hvc, huc, hec⟩ := unmarshalTime_marshalTime r.CreatedAt lz hc.1 hc.2.1 hc.2.2
  obtain ⟨vs, us, hvs, hus, hes⟩ := unmarshalTime_marshalTime r.StartedAt lz hs.1 hs.2.1 hs.2.2
  refine ⟨.object
      [("Id", .string r.Id), ("UserId", .string r.UserId), ("CreatedAt", vc),
        ("StartedAt", vs), ("From", marshalLocation r.From), ("To", marshalLocation r.To),
        ("Passengers", .number r.Passengers), ("Amount", .string r.Amount)],
    { r with CreatedAt := uc, StartedAt := us }, ?_, ?_, ?_⟩
  · unfold marshalRoute
    rw [hvc, hvs]
  · simp [unmarshalRoute, unmarshalMembers, routeField, unmarshalString, unmarshalInt, huc, hus,
      unmarshalLocation_marshalLocation]
  · exact ⟨rfl, rfl, hec, hes, rfl, rfl, rfl, rfl⟩

theorem unmarshalAll_marshalAll {α : Type} (f : α → Option Value) (g : Value → Option α)
    (same : α → α → Prop) (l : List α)
    (h : ∀ a ∈ l, ∃ v b, f a = some v ∧ g v = some b ∧ same a b) :
    ∃ vs bs, marshalAll f l = some vs ∧ unmarshalAll g vs = some bs ∧ List.Forall₂ same l bs := by
  induction l with
  | nil => exact ⟨[], [], rfl, rfl, List.Forall₂.nil⟩
  | cons a l ih =>
    obtain ⟨v, b, hv, hb, hab⟩ := h a (List.mem_cons_self _ _)
    obtain ⟨vs, bs, hvs, hbs, hall⟩ := ih (fun x hx => h x (List.mem_cons_of_mem _ hx))
    refine ⟨v :: vs, b :: bs, ?_, ?_, List.Forall₂.cons hab hall⟩
    · simp only [marshalAll, hv, hvs]
    · simp only [unmarshalAll, hb, hbs]

/-- A slice whose elements survive encoding and decoding survives them too. -/
theorem unmarshalSlice_marshalSlice {α : Type} (f : α → Option Value) (g : Value → Option α)
    (same : α → α → Prop) (l : List α)
    (h : ∀ a ∈ l, ∃ v b, f a = some v ∧ g v = some b ∧ same a b) :
    ∃ v bs, marshalSlice f l = some v ∧ unmarshalSlice g v = some bs ∧ List.Forall₂ same l bs := by
  cases l with
  | nil => exact ⟨.null, [], rfl, rfl, List.Forall₂.nil⟩
  | cons a l =>
    obtain ⟨vs, bs, hvs, hbs, hall⟩ := unmarshalAll_marshalAll f g same (a :: l) h
    refine ⟨.array vs, bs, ?_, hbs, hall⟩
    simp only [marshalSlice, hvs]

/-- An order whose routes have civil timestamps of years in 0..9999 is encoded
as an object which the decoder reads back as the same order. -/
theorem unmarshalOrder_marshalOrder (o : Order) (lz : time.Location)
    (h : ∀ r ∈ o.Routes, (r.CreatedAt.civil ∧ 0 ≤ r.CreatedAt.Year ∧ r.CreatedAt.Year ≤ 9999)
      ∧ (r.StartedAt.civil ∧ 0 ≤ r.StartedAt.Year ∧ r.StartedAt.Year ≤ 9999)) :
    ∃ v o', marshalOrder o = some v ∧ unmarshalOrder lz zeroOrder v = some o' ∧ o.same o' := by
  obtain ⟨v, rs, hv, hrs, hall⟩ := unmarshalSlice_marshalSlice marshalRoute
    (unmarshalRoute lz zeroRoute) Route.same o.Routes
    (fun r hr => unmarshalRoute_marshalRoute r lz (h r hr).1 (h r hr).2)
  refine ⟨.object
      [("Id", .string o.Id), ("Exclusive", .bool o.Exclusive),
        ("TotalPassengers", .number o.TotalPassengers), ("TotalAmount", .string o.TotalAmount),
        ("Routes", v)],
    { o with Routes := rs }, ?_, ?_, ?_⟩
  · unfold marshalOrder
    rw [hv]
  · simp [unmarshalOrder, unmarshalMembers, orderField, unmarshalString, unmarshalInt,
      unmarshalBool, hrs]
  · exact ⟨rfl, rfl, rfl, rfl, hall⟩

end json

/-- Both timestamps of `getTimes` are civil; the year of `CreatedAt` is one of
0..9999 and the year of `StartedAt` is one of 0..10000. -/
theorem getTimes_civil (order : originalOrder) :
    (order.getTimes.1.civil ∧ 0 ≤ order.getTimes.1.Year ∧ order.getTimes.1.Year ≤ 9999)
    ∧ order.getTimes.2.civil ∧ 0 ≤ order.getTimes.2.Year ∧ order.getTimes.2.Year ≤ 10000 := by
  have hz : timezone.offset = 0 ∨ timezone.offset = 28800 := Or.inr (by decide)
  have hc := time.ParseInLocation_civil time.layoutDateTime order.StriveTime timezone hz
  obtain ⟨hm0, hm, hd0, hd, -⟩ := time.ParseInLocation_ranges time.layoutMonthDay
    (reDepartureTimeMonth.FindString order.DepartureTime) timezone
  obtain ⟨-, -, -, -, hh0, hh, hmi0, hmi⟩ := time.ParseInLocation_ranges time.layoutClock
    (reDepartureTimeTime.FindString order.DepartureTime) timezone
  have key := fun y => time.Date_Year y _ _ _ _ 0 0 timezone hm0 hm hd0 hd hh0 hh hmi0 hmi
    (le_refl 0) (by decide) (le_refl 0) (by decide)
  have civ := fun y => time.Date_civil y _ _ _ _ timezone hm0 hm hd0 hd hh0 hh hmi0 hmi hz
  refine ⟨hc, ?_⟩
  unfold originalOrder.getTimes
  simp only []
  split_ifs
  · refine ⟨civ _, ?_, ?_⟩
    · rw [(key _).1]
      have := hc.2.1
      omega
    · rw [(key _).1]
      have := hc.2.2
      omega
  · refine ⟨civ _, ?_, ?_⟩
    · rw [(key _).1]
      exact hc.2.1
    · rw [(key _).1]
      have := hc.2.2
      omega

theorem toOrders_routes_civil (o : originalOrders) (order : Order)
    (ho : order ∈ o.toOrders.Orders) (r : Route) (hr : r ∈ order.Routes) :
    (r.CreatedAt.civil ∧ 0 ≤ r.CreatedAt.Year ∧ r.CreatedAt.Year ≤ 9999)
    ∧ r.StartedAt.civil ∧ 0 ≤ r.StartedAt.Year := by
  rw [toOrders_Orders_eq, List.mem_map] at ho
  obtain ⟨raw, -, rfl⟩ := ho
  have hr' : r ∈ raw.routes := hr
  have hex : ∃ x : originalOrder, r = x.toRoute := by
    rw [routes_eq] at hr'
    split_ifs at hr'
    · obtain ⟨x, -, hx⟩ := List.mem_map.mp hr'
      exact ⟨x, hx.symm⟩
    · exact ⟨raw, List.mem_singleton.mp hr'⟩
    · exact absurd hr' (List.not_mem_nil _)
  obtain ⟨x, rfl⟩ := hex
  obtain ⟨e1, e2⟩ := toRoute_times x
  rw [e1, e2]
  have h := getTimes_civil x
  exact ⟨h.1, h.2.1, h.2.2.1⟩

namespace Main

/-- C16, as amended: for every order sequence produced by `toOrders` in which
every route's `StartedAt` lies in a year up to 9999, the JSON output mode
writes a document, decoding that document into a sequence of `Order` succeeds
whatever the zone of the decoding environment, and the decoded sequence equals
the original field for field, the timestamps being compared as instants. -/
theorem json_round_trip (o : originalOrders) (lz : time.Location)
    (h : ∀ order ∈ o.toOrders.Orders, ∀ r ∈ order.Routes, r.StartedAt.Year ≤ 9999) :
    ∃ doc decoded, jsonOutput o.toOrders.Orders = some doc
      ∧ decodeOutput lz o.toOrders.Orders = some decoded
      ∧ List.Forall₂ Order.same o.toOrders.Orders decoded := by
  obtain ⟨doc, decoded, hdoc, hdec, hsame⟩ := json.unmarshalSlice_marshalSlice json.marshalOrder
    (json.unmarshalOrder lz json.zeroOrder) Order.same o.toOrders.Orders
    (fun order ho => json.unmarshalOrder_marshalOrder order lz (fun r hr =>
      have hc := toOrders_routes_civil o order ho r hr
      ⟨hc.1, hc.2.1, hc.2.2, h order ho r hr⟩))
  refine ⟨doc, decoded, hdoc, ?_, hsame⟩
  unfold decodeOutput jsonOutput json.Marshal
  rw [hdoc]
  exact hdec

/-- The sample page, whose routes start on 2024-01-05: its two orders are
written and read back as the same two orders. -/
theorem json_round_trip_witness :
    (∀ order ∈ samplePage.toOrders.Orders, ∀ r ∈ order.Routes, r.StartedAt.Year ≤ 9999)
      ∧ samplePage.toOrders.Orders.length = 2
      ∧ ∃ doc decoded, jsonOutput samplePage.toOrders.Orders = some doc
          ∧ decodeOutput timezone samplePage.toOrders.Orders = some decoded
          ∧ List.Forall₂ Order.same samplePage.toOrders.Orders decoded :=
  ⟨by decide, by decide, json_round_trip samplePage timezone (by decide)⟩

/-- C16 as stated fails: the completed record accepted at 9999-12-31 23:59:59
for a departure on 01月01日 00:00 is normalised by `toOrders` to one order whose
route starts in year 10000; `Time.MarshalJSON` rejects that year, so `Encode`
writes nothing and there is no sequence to decode. -/
theorem json_output_year_10000 :
    (rawPage [lateRecord] "").toOrders.Orders.map
        (fun order => order.Routes.map (fun r => (r.CreatedAt.Year, r.StartedAt.Year)))
      = [[(9999, 10000)]]
    ∧ jsonOutput (rawPage [lateRecord] "").toOrders.Orders = none
    ∧ decodeOutput timezone (rawPage [lateRecord] "").toOrders.Orders = none :=
  ⟨by decide, Option.isNone_iff_eq_none.mp (by decide), by decide⟩

end Main

end Didicarpool
